import Mathlib

/-!
Verification development for the session/authentication subsystem of the
PP_DJ repository (`src/backend/server.py`) and its signed-token codec
(`src/register/register/tokens.py`).

Python `datetime` instants are modelled as `Int` (comparisons are the only
operations the code performs on them, plus adding the idle-timeout delta).
Python dictionaries (`_session_registry`, `_revoked_tokens`,
`_portal_session_cache`) are modelled as insertion-ordered association
lists, matching CPython dict semantics: assignment of a fresh key appends,
assignment of an existing key updates in place, `min` over `.values()`
returns the first value attaining the minimum.
-/

namespace PPDJ

/-- Ordered-dict lookup (`d.get(k)`), first matching key. -/
def dictGet {α : Type} (k : String) : List (String × α) → Option α
  | [] => none
  | p :: rest => if p.1 = k then some p.2 else dictGet k rest

/-- Ordered-dict removal (`d.pop(k, None)`). -/
def dictPop {α : Type} (k : String) : List (String × α) → List (String × α)
  | [] => []
  | p :: rest => if p.1 = k then dictPop k rest else p :: dictPop k rest

/-- Update the value stored under `k` when present; no effect when absent.
This models CPython's in-place mutation of an object already held by the
dict (`info.last_seen = now` where `info` aliases `d[k]`). -/
def dictUpdate {α : Type} (k : String) (v : α) : List (String × α) → List (String × α)
  | [] => []
  | p :: rest => if p.1 = k then (k, v) :: dictUpdate k v rest else p :: dictUpdate k v rest

/-- Ordered-dict assignment (`d[k] = v`): update in place when the key
exists, append otherwise. -/
def dictSet {α : Type} (k : String) (v : α) (m : List (String × α)) : List (String × α) :=
  if (dictGet k m).isSome then dictUpdate k v m else m ++ [(k, v)]

/-- The keys of an ordered dict, in order. -/
def dictKeys {α : Type} (m : List (String × α)) : List String := m.map Prod.fst

/-- `@dataclass SessionInfo` from `server.py`. -/
structure SessionInfo where
  user_id : String
  token : String
  expires_at : Int
  last_seen : Int
deriving DecidableEq, Repr

/-- `@dataclass PortalSessionCacheEntry` from `server.py`. -/
structure PortalCacheEntry where
  user_id : String
  expires_at : Int
deriving DecidableEq, Repr

/-- The process-wide mutable state of the session subsystem:
`_session_registry`, `_revoked_tokens` and `_portal_session_cache`. -/
structure AuthState where
  registry : List (String × SessionInfo)
  revoked : List (String × Int)
  portal : List (String × PortalCacheEntry)
deriving DecidableEq, Repr

/-- The empty startup state. -/
def AuthState.empty : AuthState := ⟨[], [], []⟩

/-- `_idle_deadline`: `info.last_seen + timedelta(minutes=SESSION_IDLE_TIMEOUT_MINUTES)`.
`idle` is the idle-timeout duration. -/
def idle_deadline (idle : Int) (info : SessionInfo) : Int := info.last_seen + idle

/-- `_remember_revoked_locked(token, expires_at, now)`: default a missing
horizon to `now + idle`, drop horizons already past, otherwise record. -/
def remember_revoked_locked (idle : Int) (revoked : List (String × Int))
    (token : String) (expires_at : Option Int) (now : Int) : List (String × Int) :=
  let e := expires_at.getD (now + idle)
  if e ≤ now then revoked else dictSet token e revoked

/-- `_prune_revoked_locked(now)`: drop every revocation whose horizon has
been reached (`now >= expires_at`). -/
def prune_revoked_locked (now : Int) : List (String × Int) → List (String × Int)
  | [] => []
  | p :: rest =>
    if now ≥ p.2 then prune_revoked_locked now rest
    else p :: prune_revoked_locked now rest

/-- Whether `_prune_sessions_locked` considers an entry expired:
`now >= info.expires_at or now >= _idle_deadline(info)`. -/
def session_dead (idle now : Int) (info : SessionInfo) : Prop :=
  now ≥ info.expires_at ∨ now ≥ idle_deadline idle info

instance (idle now : Int) (info : SessionInfo) : Decidable (session_dead idle now info) := by
  unfold session_dead; infer_instance

/-- The registry entries `_prune_sessions_locked` keeps. -/
def registry_keep (idle now : Int) : List (String × SessionInfo) → List (String × SessionInfo)
  | [] => []
  | p :: rest =>
    if session_dead idle now p.2 then registry_keep idle now rest
    else p :: registry_keep idle now rest

/-- The registry entries `_prune_sessions_locked` removes, in order. -/
def registry_expired (idle now : Int) : List (String × SessionInfo) → List (String × SessionInfo)
  | [] => []
  | p :: rest =>
    if session_dead idle now p.2 then p :: registry_expired idle now rest
    else registry_expired idle now rest

/-- The revocation bookkeeping loop of `_prune_sessions_locked`:
`_remember_revoked_locked(token, info.expires_at, now)` for each removed entry. -/
def remember_all (idle now : Int) (revoked : List (String × Int)) :
    List (String × SessionInfo) → List (String × Int)
  | [] => revoked
  | p :: rest =>
    remember_all idle now
      (remember_revoked_locked idle revoked p.1 (some p.2.expires_at) now) rest

/-- `_prune_sessions_locked(now)`. -/
def prune_sessions_locked (idle now : Int) (st : AuthState) : AuthState :=
  { st with
    registry := registry_keep idle now st.registry
    revoked := remember_all idle now st.revoked (registry_expired idle now st.registry) }

/-- `min(values, key=lambda c: c.last_seen)` starting from `cur`:
Python's `min` keeps the first value attaining the minimum. -/
def min_by_last_seen_from (cur : SessionInfo) : List SessionInfo → SessionInfo
  | [] => cur
  | i :: rest => min_by_last_seen_from (if i.last_seen < cur.last_seen then i else cur) rest

/-- `min(_session_registry.values(), key=lambda c: c.last_seen)`. -/
def min_by_last_seen : List SessionInfo → Option SessionInfo
  | [] => none
  | i :: rest => some (min_by_last_seen_from i rest)

/-- `_store_session_locked(info, now)`: insert/overwrite the entry, clear any
stale revocation for its token, then evict the least-recently-seen entry when
the capacity bound `cap` (`MAX_CONCURRENT_SESSIONS`) is exceeded, recording
the eviction. -/
def store_session_locked (idle : Int) (cap : Nat) (now : Int) (info : SessionInfo)
    (st : AuthState) : AuthState :=
  let registry := dictSet info.token info st.registry
  let revoked := dictPop info.token st.revoked
  if registry.length > cap then
    match min_by_last_seen (registry.map Prod.snd) with
    | some stalest =>
      { st with
        registry := dictPop stalest.token registry
        revoked := remember_revoked_locked idle revoked stalest.token (some stalest.expires_at) now }
    | none => { st with registry := registry, revoked := revoked }
  else { st with registry := registry, revoked := revoked }

/-- The opening statements shared by `register_session` and
`validate_and_touch_session`: `_prune_sessions_locked(now)` followed by
`_prune_revoked_locked(now)`. -/
def prune_both (idle now : Int) (st : AuthState) : AuthState :=
  let st1 := prune_sessions_locked idle now st
  { st1 with revoked := prune_revoked_locked now st1.revoked }

/-- `register_session(user_id, token, expires_at)` at clock time `now`. -/
def register_session (idle : Int) (cap : Nat) (now : Int)
    (user_id token : String) (expires_at : Int) (st : AuthState) : AuthState :=
  store_session_locked idle cap now ⟨user_id, token, expires_at, now⟩ (prune_both idle now st)

/-- The two `HTTPException(401, ...)` kinds `validate_and_touch_session`
raises: detail "Session is no longer active" (`inactive`) and detail
"Session has expired" (`expired`). -/
inductive SessionError where
  | inactive
  | expired
deriving DecidableEq, Repr

/-- Final section of `validate_and_touch_session`: the absolute/idle expiry
check on `info`, then the `info.last_seen = now` touch.  The touch mutates
the object in place, so it only changes the registry when `token` is still a
key (eviction inside the lazy-creation path may have removed it). -/
def validate_stage3 (idle now : Int) (token : String) (info : SessionInfo)
    (st : AuthState) : AuthState × Option SessionError :=
  if now ≥ info.expires_at ∨ now ≥ idle_deadline idle info then
    ({ st with
       registry := dictPop token st.registry
       revoked := remember_revoked_locked idle st.revoked token (some info.expires_at) now },
     some .expired)
  else
    ({ st with registry := dictUpdate token { info with last_seen := now } st.registry }, none)

/-- Middle section of `validate_and_touch_session`: registry lookup, lazy
creation from the `expires_at` hint, subject-id check. -/
def validate_stage2 (idle : Int) (cap : Nat) (now : Int) (token user_id : String)
    (expires_at : Option Int) (st : AuthState) : AuthState × Option SessionError :=
  match dictGet token st.registry with
  | none =>
    match expires_at with
    | none => (st, some .inactive)
    | some e =>
      let info : SessionInfo := ⟨user_id, token, e, now⟩
      validate_stage3 idle now token info (store_session_locked idle cap now info st)
  | some info =>
    if info.user_id ≠ user_id then (st, some .inactive)
    else validate_stage3 idle now token info st

/-- `validate_and_touch_session(token, user_id, expires_at=...)` at clock
time `now`.  Returns the post-call state together with `some` error when the
call raises (state mutations made before the raise persist, as the Python
globals do). -/
def validate_and_touch_session (idle : Int) (cap : Nat) (now : Int)
    (token user_id : String) (expires_at : Option Int) (st : AuthState) :
    AuthState × Option SessionError :=
  let st2 := prune_both idle now st
  match dictGet token st2.revoked with
  | some rexp =>
    if rexp > now then (st2, some .inactive)
    else
      validate_stage2 idle cap now token user_id expires_at
        { st2 with revoked := dictPop token st2.revoked }
  | none => validate_stage2 idle cap now token user_id expires_at st2

/-- `revoke_user_sessions(user_id)` bookkeeping loop: pop each owned token
from the registry and the portal cache and remember its revocation. -/
def revoke_user_loop (idle now : Int) :
    List (String × SessionInfo) → AuthState → AuthState
  | [], st => st
  | p :: rest, st =>
    revoke_user_loop idle now rest
      { st with
        registry := dictPop p.1 st.registry
        portal := dictPop p.1 st.portal
        revoked := remember_revoked_locked idle st.revoked p.1 (some p.2.expires_at) now }

/-- The entries of `_session_registry` owned by `user_id`, in order
(`tokens_to_remove` in `revoke_user_sessions`). -/
def owned_by (user_id : String) : List (String × SessionInfo) → List (String × SessionInfo)
  | [] => []
  | p :: rest =>
    if p.2.user_id = user_id then p :: owned_by user_id rest
    else owned_by user_id rest

/-- `revoke_user_sessions(user_id)` at clock time `now`. -/
def revoke_user_sessions (idle now : Int) (user_id : String) (st : AuthState) : AuthState :=
  let st1 := { st with revoked := prune_revoked_locked now st.revoked }
  revoke_user_loop idle now (owned_by user_id st1.registry) st1

/-- `revoke_session_by_token(token)` at clock time `now`.  `decoded_exp`
models the defensive `PyJWT.decode(..., verify_exp=False)` of the raw token:
`some e` when the decode succeeds and yields a numeric `exp` claim, `none`
when the decode fails or the claim is absent/non-numeric. -/
def revoke_session_by_token (idle now : Int) (decoded_exp : Option Int)
    (token : String) (st : AuthState) : AuthState :=
  let revoked := prune_revoked_locked now st.revoked
  let info := dictGet token st.registry
  let registry := dictPop token st.registry
  let portal := dictPop token st.portal
  let expires_at : Option Int :=
    match info with
    | some i => some i.expires_at
    | none => decoded_exp
  match expires_at with
  | some e =>
    if e ≤ now then ⟨registry, revoked, portal⟩
    else ⟨registry, remember_revoked_locked idle revoked token (some e) now, portal⟩
  | none => ⟨registry, remember_revoked_locked idle revoked token none now, portal⟩

/-- Value/key consistency of the registry: every stored `SessionInfo`'s
`token` field equals its dict key. -/
def TokensMatch (l : List (String × SessionInfo)) : Prop :=
  ∀ p ∈ l, p.2.token = p.1

/-- Well-formedness of the subsystem state, maintained by every operation:
dict keys are unique (CPython dicts), and every registry entry's stored
`token` field equals its key (`_session_registry[info.token] = info`). -/
def WF (st : AuthState) : Prop :=
  (dictKeys st.registry).Nodup ∧ (dictKeys st.revoked).Nodup ∧
    TokensMatch st.registry

/-- The invariant of claim C9: every registry entry satisfies
`last_seen <= expires_at`. -/
def LastSeenLE (st : AuthState) : Prop :=
  ∀ p ∈ st.registry, p.2.last_seen ≤ p.2.expires_at

/-- The mutual-exclusion invariant of claim C3: no token is simultaneously a
key of the session registry and of the revocation cache. -/
def Disj (st : AuthState) : Prop :=
  ∀ t ∈ dictKeys st.registry, t ∉ dictKeys st.revoked

instance (l : List (String × SessionInfo)) : Decidable (TokensMatch l) := by
  unfold TokensMatch
  infer_instance

instance (st : AuthState) : Decidable (WF st) := by
  unfold WF
  infer_instance

instance (st : AuthState) : Decidable (Disj st) := by
  unfold Disj
  infer_instance

instance (st : AuthState) : Decidable (LastSeenLE st) := by
  unfold LastSeenLE
  infer_instance

/-- `@dataclass PortalUserInfo` from `server.py`. -/
structure PortalUserInfo where
  email : String
  username : String
  display_name : String
  role : String
deriving DecidableEq, Repr

/-- `@dataclass PortalSessionInfo` from `server.py`. -/
structure PortalSessionInfo where
  token : String
  user : PortalUserInfo
  issued_at : Int
  expires_at : Int
deriving DecidableEq, Repr

/-- `_cached_portal_user(token)`: cached resolution if present and
unexpired, otherwise evict and return none. -/
def cached_portal_user (now : Int) (token : String) (st : AuthState) :
    AuthState × Option (String × Int) :=
  match dictGet token st.portal with
  | none => (st, none)
  | some entry =>
    if now ≥ entry.expires_at then ({ st with portal := dictPop token st.portal }, none)
    else (st, some (entry.user_id, entry.expires_at))

/-- `_remember_portal_session(token, user_id, expires_at)`. -/
def remember_portal_session (token user_id : String) (expires_at : Int)
    (st : AuthState) : AuthState :=
  { st with portal := dictSet token ⟨user_id, expires_at⟩ st.portal }

/-- The three ways `authenticate_with_portal_token` can finish: return a
user profile, return `None`, or let an `HTTPException` raised by
`validate_and_touch_session` on the freshly resolved portal session
propagate to the caller. -/
inductive PortalOutcome where
  | user (user_id : String)
  | nothing
  | raised (e : SessionError)
deriving DecidableEq, Repr

/-- `authenticate_with_portal_token(token, session)`.  External effects are
parameters: `fetch_portal` is the result of `_fetch_portal_session` (network
call; `none` for disabled/failed), `ensure_user` models `_ensure_portal_user`
(durable store; returns the local user id), `fetch_user` models
`fetch_user_by_id`.  `enabled` is `PORTAL_AUTH_ENABLED`. -/
def authenticate_with_portal_token (enabled : Bool) (idle : Int) (cap : Nat) (now : Int)
    (fetch_portal : Option PortalSessionInfo) (ensure_user : PortalUserInfo → String)
    (fetch_user : String → Option String) (token : String) (st : AuthState) :
    AuthState × PortalOutcome :=
  if !enabled then (st, .nothing)
  else
    let c := cached_portal_user now token st
    let afterCached : AuthState × Option String :=
      match c.2 with
      | none => (c.1, none)
      | some (uid, cexp) =>
        let v := validate_and_touch_session idle cap now token uid (some cexp) c.1
        match v.2 with
        | some _ => ({ v.1 with portal := dictPop token v.1.portal }, none)
        | none =>
          match fetch_user uid with
          | some u => (v.1, some u)
          | none => (v.1, none)
    match afterCached with
    | (st1, some u) => (st1, .user u)
    | (st1, none) =>
      match fetch_portal with
      | none => (st1, .nothing)
      | some ps =>
        let uid := ensure_user ps.user
        let v := validate_and_touch_session idle cap now token uid (some ps.expires_at) st1
        match v.2 with
        | some e => (v.1, .raised e)
        | none => (remember_portal_session token uid ps.expires_at v.1, .user uid)

/-- The outcome of `PyJWT.decode(raw_token, SECRET_KEY, algorithms=["HS256"])`
in `get_current_user`, parametrizing the external PyJWT library: a decoded
payload (with its optional `sub` claim and its numeric `exp` claim when
present), `ExpiredSignatureError`, or any other `JWTError`. -/
inductive PyJwtOutcome where
  | ok (sub : Option String) (exp : Option Int)
  | expiredSig
  | invalid
deriving DecidableEq, Repr

/-- The `HTTPException` payload (status code, detail) produced by
`validate_and_touch_session` for each failure kind. -/
def session_error_http : SessionError → Nat × String
  | .inactive => (401, "Session is no longer active")
  | .expired => (401, "Session has expired")

/-- `get_current_user`: the terminal request-level authentication outcome.
Returns the post-call state and either the authenticated user id or the
surfaced `HTTPException` payload `(status, detail)`. -/
def get_current_user (enabled : Bool) (idle : Int) (cap : Nat) (now : Int)
    (decode : PyJwtOutcome) (revoke_exp : Option Int)
    (fetch_portal : Option PortalSessionInfo) (ensure_user : PortalUserInfo → String)
    (fetch_user : String → Option String) (raw_token : String) (st : AuthState) :
    AuthState × Except (Nat × String) String :=
  match decode with
  | .expiredSig =>
    (revoke_session_by_token idle now revoke_exp raw_token st,
      .error (401, "Token has expired"))
  | .invalid =>
    let b := authenticate_with_portal_token enabled idle cap now fetch_portal
      ensure_user fetch_user raw_token st
    match b.2 with
    | .user u => (b.1, .ok u)
    | .raised e => (b.1, .error (session_error_http e))
    | .nothing =>
      (revoke_session_by_token idle now revoke_exp raw_token b.1,
        .error (401, "Invalid authentication credentials"))
  | .ok sub exp =>
    match sub with
    | none =>
      (revoke_session_by_token idle now revoke_exp raw_token st,
        .error (401, "Invalid authentication credentials"))
    | some user_id =>
      let v := validate_and_touch_session idle cap now raw_token user_id exp st
      match v.2 with
      | some e => (v.1, .error (session_error_http e))
      | none =>
        match fetch_user user_id with
        | none =>
          (revoke_session_by_token idle now revoke_exp raw_token v.1,
            .error (401, "User not found"))
        | some u => (v.1, .ok u)

-- ==================== TOKEN CODEC (tokens.py) ====================

/-- Python `str` for the codec is modelled as a list of code points. -/
def PyStr : Type := List Char

instance : DecidableEq PyStr := by
  unfold PyStr
  infer_instance

instance : Append PyStr := ⟨fun a b => List.append a b⟩

/-- Python `bytes`: a list of byte values (< 256 where meaningful). -/
def Bytes : Type := List Nat

instance : DecidableEq Bytes := by
  unfold Bytes
  infer_instance

/-- The double-quote character. -/
def dquote : Char := Char.ofNat 34

/-- The backslash character. -/
def bslash : Char := Char.ofNat 92

/-- `str.split(sep)` for a one-character separator: Python semantics
(`"".split(".") == [""]`, separators at the ends produce empty fields). -/
def splitOnChar (sep : Char) : List Char → List (List Char)
  | [] => [[]]
  | c :: rest =>
    let r := splitOnChar sep rest
    if c = sep then [] :: r
    else
      match r with
      | [] => [[c]]
      | h :: t => (c :: h) :: t

/-- The urlsafe base64 alphabet (RFC 4648 with `-` and `_`). -/
def b64Alphabet : List Char :=
  "ABCDEFGHIJKLMNOPQRSTUVWXYZabcdefghijklmnopqrstuvwxyz0123456789-_".data

/-- The alphabet character for a sextet. -/
def b64Char (n : Nat) : Char := b64Alphabet.getD n 'A'

def b64IdxAux (c : Char) : Nat → List Char → Option Nat
  | _, [] => none
  | n, a :: rest => if a = c then some n else b64IdxAux c (n + 1) rest

/-- The sextet value of an alphabet character, `none` outside the alphabet. -/
def b64Idx (c : Char) : Option Nat := b64IdxAux c 0 b64Alphabet

/-- `base64.urlsafe_b64encode(data).rstrip(b"=")` (`_urlsafe_b64encode`),
producing the padding-stripped text. -/
def b64encode : List Nat → List Char
  | [] => []
  | [b1] => [b64Char (b1 / 4), b64Char (b1 % 4 * 16)]
  | [b1, b2] => [b64Char (b1 / 4), b64Char (b1 % 4 * 16 + b2 / 16), b64Char (b2 % 16 * 4)]
  | b1 :: b2 :: b3 :: rest =>
    b64Char (b1 / 4) :: b64Char (b1 % 4 * 16 + b2 / 16) ::
      b64Char (b2 % 16 * 4 + b3 / 64) :: b64Char (b3 % 64) :: b64encode rest

/-- Base64 decoding of a padded text in four-character groups; `=` padding
is accepted only at the very end.  This is a restriction model of
`base64.urlsafe_b64decode`: the library additionally discards characters
outside the alphabet before decoding, so the model accepts a sub-language
and agrees with the library on every text it accepts.  Theorems about
arbitrary tokens therefore use this decoder only in positive (successful)
positions. -/
def b64decodeRaw : List Char → Option (List Nat)
  | [] => some []
  | c1 :: c2 :: c3 :: c4 :: rest =>
    match b64Idx c1, b64Idx c2 with
    | some a, some b =>
      if c3 = '=' then
        if c4 = '=' ∧ rest = [] then some [a * 4 + b / 16] else none
      else
        match b64Idx c3 with
        | some c =>
          if c4 = '=' then
            if rest = [] then some [a * 4 + b / 16, b % 16 * 16 + c / 4] else none
          else
            match b64Idx c4 with
            | some d =>
              (b64decodeRaw rest).map
                (fun bs => (a * 4 + b / 16) :: (b % 16 * 16 + c / 4) :: (c % 4 * 64 + d) :: bs)
            | none => none
        | none => none
    | _, _ => none
  | _ => none

/-- `_urlsafe_b64decode(value)`: append `"=" * (-len(value) % 4)` and
decode. -/
def b64decodePadded (s : List Char) : Option (List Nat) :=
  b64decodeRaw (s ++ List.replicate ((4 - s.length % 4) % 4) '=')

/-- UTF-8 encoding of one code point (`str.encode("utf-8")`). -/
def utf8EncodeChar (c : Char) : List Nat :=
  let n := c.toNat
  if n < 128 then [n]
  else if n < 2048 then [192 + n / 64, 128 + n % 64]
  else if n < 65536 then [224 + n / 4096, 128 + n / 64 % 64, 128 + n % 64]
  else [240 + n / 262144, 128 + n / 4096 % 64, 128 + n / 64 % 64, 128 + n % 64]

/-- UTF-8 encoding of a string. -/
def utf8Encode : List Char → List Nat
  | [] => []
  | c :: rest => utf8EncodeChar c ++ utf8Encode rest

/-- Whether a code point may be materialized as a `Char`. -/
def validCodePoint (n : Nat) : Prop := n < 55296 ∨ (57344 ≤ n ∧ n < 1114112)

instance (n : Nat) : Decidable (validCodePoint n) := by
  unfold validCodePoint
  infer_instance

/-- The code point of a two-byte UTF-8 sequence, if well-formed. -/
def utf8DecodeByte2 (b b2 : Nat) : Option Nat :=
  if 128 ≤ b2 ∧ b2 < 192 then
    let n := (b - 192) * 64 + (b2 - 128)
    if 128 ≤ n then some n else none
  else none

/-- The code point of a three-byte UTF-8 sequence, if well-formed. -/
def utf8DecodeByte3 (b b2 b3 : Nat) : Option Nat :=
  if (128 ≤ b2 ∧ b2 < 192) ∧ (128 ≤ b3 ∧ b3 < 192) then
    let n := (b - 224) * 4096 + (b2 - 128) * 64 + (b3 - 128)
    if 2048 ≤ n ∧ validCodePoint n then some n else none
  else none

/-- The code point of a four-byte UTF-8 sequence, if well-formed. -/
def utf8DecodeByte4 (b b2 b3 b4 : Nat) : Option Nat :=
  if (128 ≤ b2 ∧ b2 < 192) ∧ (128 ≤ b3 ∧ b3 < 192) ∧ (128 ≤ b4 ∧ b4 < 192) then
    let n := (b - 240) * 262144 + (b2 - 128) * 4096 + (b3 - 128) * 64 + (b4 - 128)
    if 65536 ≤ n ∧ n < 1114112 then some n else none
  else none

mutual

/-- UTF-8 decoding (`bytes.decode("utf-8")`), rejecting malformed input. -/
def utf8Decode : List Nat → Option (List Char)
  | [] => some []
  | b :: rest =>
    if b < 128 then (utf8Decode rest).map (fun s => Char.ofNat b :: s)
    else if 192 ≤ b ∧ b < 224 then utf8Dec2 b rest
    else if 224 ≤ b ∧ b < 240 then utf8Dec3 b rest
    else if 240 ≤ b ∧ b < 248 then utf8Dec4 b rest
    else none

def utf8Dec2 (b : Nat) : List Nat → Option (List Char)
  | b2 :: rest2 =>
    (utf8DecodeByte2 b b2).bind
      (fun n => (utf8Decode rest2).map (fun s => Char.ofNat n :: s))
  | [] => none

def utf8Dec3 (b : Nat) : List Nat → Option (List Char)
  | b2 :: b3 :: rest2 =>
    (utf8DecodeByte3 b b2 b3).bind
      (fun n => (utf8Decode rest2).map (fun s => Char.ofNat n :: s))
  | _ => none

def utf8Dec4 (b : Nat) : List Nat → Option (List Char)
  | b2 :: b3 :: b4 :: rest2 =>
    (utf8DecodeByte4 b b2 b3 b4).bind
      (fun n => (utf8Decode rest2).map (fun s => Char.ofNat n :: s))
  | _ => none

end

/-- The JSON values the codec model serializes: Python `None`, `bool`,
`int`, `str`, `list`, `dict` (string keys, insertion-ordered). -/
inductive Json where
  | null
  | bool (b : Bool)
  | num (n : Int)
  | str (s : String)
  | arr (xs : List Json)
  | obj (kvs : List (String × Json))

/-- Code-point lexicographic comparison of Python strings (`sorted` order). -/
def charListLt : List Char → List Char → Bool
  | [], [] => false
  | [], _ :: _ => true
  | _ :: _, [] => false
  | a :: as, b :: bs =>
    if a.toNat < b.toNat then true
    else if b.toNat < a.toNat then false
    else charListLt as bs

/-- `sorted` order on keys. -/
def strLt (a b : String) : Bool := charListLt a.data b.data

/-- Insert a pair into a key-sorted list (insertion sort step). -/
def insertPair (p : String × Json) : List (String × Json) → List (String × Json)
  | [] => [p]
  | q :: rest => if strLt p.1 q.1 then p :: q :: rest else q :: insertPair p rest

/-- Sort object members by key (`json.dumps(..., sort_keys=True)`). -/
def sortPairs : List (String × Json) → List (String × Json)
  | [] => []
  | p :: rest => insertPair p (sortPairs rest)

mutual

/-- Recursively sort every object's members by key. -/
def sortObjs : Json → Json
  | .null => .null
  | .bool b => .bool b
  | .num n => .num n
  | .str s => .str s
  | .arr xs => .arr (sortObjsList xs)
  | .obj kvs => .obj (sortPairs (sortObjsPairs kvs))

def sortObjsList : List Json → List Json
  | [] => []
  | x :: xs => sortObjs x :: sortObjsList xs

def sortObjsPairs : List (String × Json) → List (String × Json)
  | [] => []
  | (k, v) :: kvs => (k, sortObjs v) :: sortObjsPairs kvs

end

/-- The serialization of one string character: `"` and `\x5c` are escaped,
everything else is emitted literally (the JSON escapes `json.dumps` applies
within the printable-ASCII range). -/
def escapeChar (c : Char) : List Char :=
  if c = dquote then [bslash, dquote]
  else if c = bslash then [bslash, bslash]
  else [c]

def escBody : List Char → List Char
  | [] => []
  | c :: rest => escapeChar c ++ escBody rest

/-- Serialization of a JSON string literal. -/
def dumpStr (s : String) : List Char := dquote :: escBody s.data ++ [dquote]

/-- The decimal digit character for `n < 10`. -/
def digitChar (n : Nat) : Char := Char.ofNat (48 + n)

/-- Decimal digits of a natural number (fuel-based). -/
def natDigits : Nat → Nat → List Char
  | 0, _ => []
  | fuel + 1, n =>
    if n < 10 then [digitChar n]
    else natDigits fuel (n / 10) ++ [digitChar (n % 10)]

/-- Python `repr` of an integer. -/
def intDump (i : Int) : List Char :=
  if i < 0 then '-' :: natDigits (i.natAbs + 1) i.natAbs
  else natDigits (i.toNat + 1) i.toNat

mutual

/-- Compact JSON serialization with members in list order
(`json.dumps(..., separators=(",", ":"))` modulo key sorting, which
`jsonDumps` adds on top via `sortObjs`). -/
def serialize : Json → List Char
  | .null => "null".data
  | .bool true => "true".data
  | .bool false => "false".data
  | .num i => intDump i
  | .str s => dumpStr s
  | .arr xs => '[' :: serializeList xs ++ [']']
  | .obj kvs => Char.ofNat 123 :: serializePairs kvs ++ [Char.ofNat 125]

def serializeList : List Json → List Char
  | [] => []
  | [x] => serialize x
  | x :: y :: xs => serialize x ++ ',' :: serializeList (y :: xs)

def serializePairs : List (String × Json) → List Char
  | [] => []
  | [(k, v)] => dumpStr k ++ ':' :: serialize v
  | (k, v) :: q :: kvs => dumpStr k ++ ':' :: serialize v ++ ',' :: serializePairs (q :: kvs)

end

/-- `_json_dumps(data)`: `json.dumps(data, separators=(",", ":"),
sort_keys=True)`. -/
def jsonDumps (v : Json) : List Char := serialize (sortObjs v)

mutual

/-- Parse the body of a string literal after the opening quote, up to and
including the closing quote; only the `\"` and `\\x5c` escapes of the
serializer are modelled. -/
def parseStrBody : List Char → Option (List Char × List Char)
  | [] => none
  | c :: rest =>
    if c = dquote then some ([], rest)
    else if c = bslash then parseStrEscaped rest
    else if 32 ≤ c.toNat then (parseStrBody rest).map (fun p => (c :: p.1, p.2))
    else none

def parseStrEscaped : List Char → Option (List Char × List Char)
  | [] => none
  | e :: rest2 =>
    if e = dquote ∨ e = bslash then (parseStrBody rest2).map (fun p => (e :: p.1, p.2))
    else none

end

def isDigitChar (c : Char) : Bool := 48 ≤ c.toNat && c.toNat ≤ 57

/-- Consume a maximal run of decimal digits. -/
def takeDigits : List Char → List Nat × List Char
  | [] => ([], [])
  | c :: rest =>
    if isDigitChar c then
      let p := takeDigits rest
      ((c.toNat - 48) :: p.1, p.2)
    else ([], c :: rest)

def digitsVal (ds : List Nat) : Nat := ds.foldl (fun a d => a * 10 + d) 0

/-- Parse a nonempty digit run as a natural number. -/
def parseNat (cs : List Char) : Option (Nat × List Char) :=
  match takeDigits cs with
  | ([], _) => none
  | (ds, r) => some (digitsVal ds, r)

/-- Parse an integer literal (optional minus sign). -/
def parseNumber (cs : List Char) : Option (Json × List Char) :=
  match cs with
  | '-' :: rest => (parseNat rest).map (fun p => (Json.num (-(p.1 : Int)), p.2))
  | _ => (parseNat cs).map (fun p => (Json.num (p.1 : Int), p.2))

/-- Consume an expected literal character sequence. -/
def expectChars : List Char → List Char → Option (List Char)
  | [], cs => some cs
  | e :: es, c :: cs => if c = e then expectChars es cs else none
  | _ :: _, [] => none

mutual

/-- Fuel-based recursive-descent parser for the compact JSON grammar the
serializer emits (no whitespace). -/
def parseJson : Nat → List Char → Option (Json × List Char)
  | 0, _ => none
  | fuel + 1, cs =>
    match cs with
    | [] => none
    | c :: rest =>
      if c = 'n' then (expectChars ['u', 'l', 'l'] rest).map (fun r => (.null, r))
      else if c = 't' then (expectChars ['r', 'u', 'e'] rest).map (fun r => (.bool true, r))
      else if c = 'f' then
        (expectChars ['a', 'l', 's', 'e'] rest).map (fun r => (.bool false, r))
      else if c = dquote then
        (parseStrBody rest).map (fun p => (.str (String.mk p.1), p.2))
      else if c = '[' then
        match rest with
        | c2 :: rest2 =>
          if c2 = ']' then some (.arr [], rest2)
          else (parseElems fuel rest).map (fun p => (.arr p.1, p.2))
        | [] => none
      else if c = Char.ofNat 123 then
        match rest with
        | c2 :: rest2 =>
          if c2 = Char.ofNat 125 then some (.obj [], rest2)
          else (parseMembers fuel rest).map (fun p => (.obj p.1, p.2))
        | [] => none
      else if c = '-' ∨ isDigitChar c then parseNumber cs
      else none

/-- Parse one-or-more comma-separated elements, consuming the closing `]`. -/
def parseElems : Nat → List Char → Option (List Json × List Char)
  | 0, _ => none
  | fuel + 1, cs =>
    match parseJson fuel cs with
    | none => none
    | some (v, r) =>
      match r with
      | [] => none
      | c :: r2 =>
        if c = ',' then (parseElems fuel r2).map (fun p => (v :: p.1, p.2))
        else if c = ']' then some ([v], r2)
        else none

/-- Parse one-or-more `"key":value` members, consuming the closing brace. -/
def parseMembers : Nat → List Char → Option (List (String × Json) × List Char)
  | 0, _ => none
  | fuel + 1, cs =>
    match cs with
    | [] => none
    | c :: rest =>
      if c = dquote then
        match parseStrBody rest with
        | none => none
        | some (k, r) =>
          match r with
          | [] => none
          | c2 :: r2 =>
            if c2 = ':' then
              match parseJson fuel r2 with
              | none => none
              | some (v, r3) =>
                match r3 with
                | [] => none
                | c4 :: r4 =>
                  if c4 = ',' then
                    (parseMembers fuel r4).map (fun p => ((String.mk k, v) :: p.1, p.2))
                  else if c4 = Char.ofNat 125 then some ([(String.mk k, v)], r4)
                  else none
            else none
      else none

end

/-- `json.loads` on a decoded text, restricted to the compact grammar the
serializer emits: no whitespace, integer numerals only (no floats or
exponents), and only the `\"` and backslash escapes in strings.  This is
a restriction model: `json.loads` accepts a strictly larger language, and
the two agree (up to the `Json` embedding) on every text the model
accepts.  Theorems about arbitrary tokens therefore use this parser only
in positive (successful) positions. -/
def jsonParse (cs : List Char) : Option Json :=
  match parseJson (cs.length + 1) cs with
  | some (v, []) => some v
  | _ => none

/-- Strings the serializer round-trips exactly: printable ASCII.  (The
model does not reproduce `ensure_ascii` escaping of non-ASCII characters or
`\\u` escapes of control characters.) -/
def safeStrB (s : String) : Bool := s.data.all (fun c => 32 ≤ c.toNat && c.toNat < 128)

/-- Keys strictly sorted in `strLt` order. -/
def sortedKeysB : List (String × Json) → Bool
  | [] => true
  | [_] => true
  | p :: q :: rest => strLt p.1 q.1 && sortedKeysB (q :: rest)

mutual

/-- Round-trippable JSON values: safe strings throughout. -/
def wfB : Json → Bool
  | .null => true
  | .bool _ => true
  | .num _ => true
  | .str s => safeStrB s
  | .arr xs => wfListB xs
  | .obj kvs => wfPairsB kvs

def wfListB : List Json → Bool
  | [] => true
  | x :: xs => wfB x && wfListB xs

def wfPairsB : List (String × Json) → Bool
  | [] => true
  | (k, v) :: kvs => safeStrB k && wfB v && wfPairsB kvs

end

mutual

/-- Canonical values: round-trippable and with every object's keys already
strictly sorted (so `sortObjs` is the identity). -/
def canonB : Json → Bool
  | .null => true
  | .bool _ => true
  | .num _ => true
  | .str s => safeStrB s
  | .arr xs => canonListB xs
  | .obj kvs => sortedKeysB kvs && canonPairsB kvs

def canonListB : List Json → Bool
  | [] => true
  | x :: xs => canonB x && canonListB xs

def canonPairsB : List (String × Json) → Bool
  | [] => true
  | (k, v) :: kvs => safeStrB k && canonB v && canonPairsB kvs

end

/-- Python `d.setdefault(k, v)`'s effect on the dict: append when absent. -/
def dictSetDefault {α : Type} (k : String) (v : α) (m : List (String × α)) :
    List (String × α) :=
  if (dictGet k m).isSome then m else m ++ [(k, v)]

/-- Python `int(x)` on a JSON value: succeeds on ints and bools, on strings
holding an (optionally signed) decimal numeral, fails (raises) otherwise. -/
def pyIntStr (cs : List Char) : Option Int :=
  match cs with
  | '-' :: rest => (parseNat rest).bind (fun p => if p.2 = [] then some (-(p.1 : Int)) else none)
  | '+' :: rest => (parseNat rest).bind (fun p => if p.2 = [] then some ((p.1 : Int)) else none)
  | _ => (parseNat cs).bind (fun p => if p.2 = [] then some ((p.1 : Int)) else none)

def pyInt : Json → Option Int
  | .num n => some n
  | .bool b => some (if b then 1 else 0)
  | .str s => pyIntStr s.data
  | _ => none

/-- `JWT_HEADER = {"alg": "HS256", "typ": "JWT"}`. -/
def jwtHeader : Json := .obj [("alg", .str "HS256"), ("typ", .str "JWT")]

/-- `issue_session_token(payload, expires_in)` at clock time `now`.  `sign`
models `_sign` (HMAC-SHA256 with the configured secret, as a function from
the ASCII signing input to the digest bytes); `ttl` is the effective
`expires_in` (the `DEFAULT_TOKEN_TTL` fallback is applied by the caller). -/
def issue_session_token (sign : List Char → List Nat) (now : Int)
    (payload : List (String × Json)) (ttl : Int) : List Char :=
  let token_payload :=
    dictSet "exp" (Json.num (now + ttl)) (dictSetDefault "iat" (Json.num now) payload)
  let header_segment := b64encode (utf8Encode (jsonDumps jwtHeader))
  let payload_segment := b64encode (utf8Encode (jsonDumps (Json.obj token_payload)))
  let signing_input := header_segment ++ '.' :: payload_segment
  signing_input ++ '.' :: b64encode (sign signing_input)

/-- `@dataclass DecodedToken`. -/
structure DecodedToken where
  payload : List (String × Json)
  issued_at : Int
  expires_at : Int

/-- The observable outcomes of `decode_session_token`: a decoded token,
`InvalidToken`, `ExpiredToken`, or an uncaught Python exception
(`AttributeError` from `.get` on a non-dict, `TypeError`/`ValueError` from
`int()` on a non-numeric claim). -/
inductive DecodeResult where
  | ok (d : DecodedToken)
  | invalid
  | expired
  | crash

/-- `json.loads` applied to decoded base64 bytes (UTF-8 decode, then parse;
any failure is a caught `ValueError`). -/
def jsonLoadsBytes (bs : List Nat) : Option Json := (utf8Decode bs).bind jsonParse

/-- Base64-decode a segment and `json.loads` the bytes.  Inherits the
restriction character of `b64decodePadded` and `jsonParse`: success
certifies that the library pipeline succeeds with the same value, while
failure of the model does not imply failure of the library. -/
def segJson (s : List Char) : Option Json := (b64decodePadded s).bind jsonLoadsBytes

/-- `header_data.get("alg") != JWT_HEADER["alg"] or header_data.get("typ")
!= JWT_HEADER["typ"]`, negated. -/
def headerSupportedB (hkvs : List (String × Json)) : Bool :=
  (match dictGet "alg" hkvs with
    | some (.str a) => a = "HS256"
    | _ => false) &&
  (match dictGet "typ" hkvs with
    | some (.str t) => t = "JWT"
    | _ => false)

/-- The tail of `decode_session_token` from the `int(exp)` conversion on:
crash on a non-convertible claim, `ExpiredToken` past the leeway, then the
`int(iat)` conversion (default: decode-time clock). -/
def decode_exp_branch (now leeway : Int) (pkvs : List (String × Json)) (expv : Json) :
    DecodeResult :=
  match pyInt expv with
  | none => .crash
  | some expn =>
    if now > expn + leeway then .expired
    else
      match pyInt ((dictGet "iat" pkvs).getD (.num now)) with
      | none => .crash
      | some iatn => .ok ⟨pkvs, iatn, expn⟩

/-- `payload_data.get("exp")` handling: `None` (key absent or JSON null)
raises `InvalidToken`, otherwise the expiry branch runs. -/
def exp_claim_branch (now leeway : Int) (pkvs : List (String × Json)) :
    Option Json → DecodeResult
  | none => .invalid
  | some .null => .invalid
  | some expv => decode_exp_branch now leeway pkvs expv

/-- The body of `decode_session_token` once the token has split into its
three segments. -/
def decode_parts (sign : List Char → List Nat) (now leeway : Int)
    (hs ps ss : List Char) : DecodeResult :=
  match segJson hs with
  | none => .invalid
  | some (.obj hkvs) =>
    if ¬(headerSupportedB hkvs = true)
    then .invalid
    else
      match segJson ps with
      | none => .invalid
      | some pj =>
        match b64decodePadded ss with
        | none => .invalid
        | some actual =>
          if actual ≠ sign (hs ++ '.' :: ps) then .invalid
          else
            match pj with
            | .obj pkvs => exp_claim_branch now leeway pkvs (dictGet "exp" pkvs)
            | _ => .crash
  | some _ => .crash

/-- `decode_session_token(token, leeway=...)` at clock time `now`. -/
def decode_session_token (sign : List Char → List Nat) (now leeway : Int)
    (token : List Char) : DecodeResult :=
  if token = [] then .invalid
  else
    match splitOnChar '.' token with
    | [hs, ps, ss] => decode_parts sign now leeway hs ps ss
    | _ => .invalid

mutual

/-- Fuel measure for the parser lemmas: an upper bound on the recursion
depth needed to parse a serialized value. -/
def jsize : Json → Nat
  | .arr xs => 1 + jsizeList xs
  | .obj kvs => 1 + jsizePairs kvs
  | .null => 1
  | .bool _ => 1
  | .num _ => 1
  | .str _ => 1

def jsizeList : List Json → Nat
  | [] => 1
  | x :: xs => 1 + max (jsize x) (jsizeList xs)

def jsizePairs : List (String × Json) → Nat
  | [] => 1
  | (_, v) :: kvs => 1 + max (jsize v) (jsizePairs kvs)

end

/-- The payload dict actually serialized by `issue_session_token`:
`dict(payload)` with `setdefault("iat", now)` and `["exp"] = now + ttl`. -/
def token_payload_of (now : Int) (payload : List (String × Json)) (ttl : Int) :
    List (String × Json) :=
  dictSet "exp" (Json.num (now + ttl)) (dictSetDefault "iat" (Json.num now) payload)

/-- The constant header segment of every issued token. -/
def headerSegment : List Char := b64encode (utf8Encode (jsonDumps jwtHeader))

/-- The payload segment of an issued token. -/
def payloadSegment (now : Int) (payload : List (String × Json)) (ttl : Int) : List Char :=
  b64encode (utf8Encode (jsonDumps (Json.obj (token_payload_of now payload ttl))))

/-- A concrete stand-in for the HMAC signer, used to instantiate the token
theorems on closed inputs. -/
def sgDemo : List Char → List Nat := fun _ => [1, 2, 3]

-- ==================== THEOREMS ====================

theorem dictGet_eq_none_iff {α : Type} (k : String) (m : List (String × α)) :
    dictGet k m = none ↔ k ∉ dictKeys m := by
  induction m with
  | nil => simp [dictGet, dictKeys]
  | cons p rest ih =>
    by_cases h : p.1 = k
    · subst h
      simp [dictGet, dictKeys]
    · simp only [dictGet, if_neg h, ih, dictKeys, List.map_cons, List.mem_cons]
      constructor
      · intro hn hc
        rcases hc with hc | hc
        · exact h hc.symm
        · exact hn hc
      · intro hn hc
        exact hn (Or.inr hc)

theorem dictGet_isSome_iff {α : Type} (k : String) (m : List (String × α)) :
    (dictGet k m).isSome = true ↔ k ∈ dictKeys m := by
  cases hm : dictGet k m with
  | none => simp [(dictGet_eq_none_iff k m).1 hm]
  | some v =>
    simp only [Option.isSome_some, true_iff]
    by_contra hc
    rw [← dictGet_eq_none_iff k m] at hc
    rw [hm] at hc
    cases hc

theorem mem_dictKeys {α : Type} {k : String} {m : List (String × α)} :
    k ∈ dictKeys m ↔ ∃ v, (k, v) ∈ m := by
  induction m with
  | nil => simp [dictKeys]
  | cons p rest ih =>
    simp only [dictKeys, List.map_cons, List.mem_cons] at *
    constructor
    · intro h
      rcases h with h | h
      · exact ⟨p.2, Or.inl (by rw [h])⟩
      · obtain ⟨v, hv⟩ := ih.1 h
        exact ⟨v, Or.inr hv⟩
    · rintro ⟨v, hv | hv⟩
      · rw [← hv]; exact Or.inl rfl
      · exact Or.inr (ih.2 ⟨v, hv⟩)

theorem dictGet_mem {α : Type} {k : String} {m : List (String × α)} {v : α}
    (h : dictGet k m = some v) : (k, v) ∈ m := by
  induction m with
  | nil => simp [dictGet] at h
  | cons p rest ih =>
    by_cases hk : p.1 = k
    · rw [dictGet, if_pos hk] at h
      obtain rfl : p.2 = v := by injection h
      exact List.mem_cons.2 (Or.inl (by rw [← hk]))
    · rw [dictGet, if_neg hk] at h
      exact List.mem_cons_of_mem _ (ih h)

theorem dictGet_of_mem_nodup {α : Type} {k : String} {m : List (String × α)} {v : α}
    (hnd : (dictKeys m).Nodup) (hmem : (k, v) ∈ m) : dictGet k m = some v := by
  induction m with
  | nil => simp at hmem
  | cons p rest ih =>
    rw [dictKeys, List.map_cons, List.nodup_cons] at hnd
    rcases List.mem_cons.1 hmem with h | h
    · rw [dictGet, if_pos (by rw [← h] : p.1 = k)]
      rw [← h]
    · have hk : p.1 ≠ k := by
        intro hc
        exact hnd.1 (hc ▸ mem_dictKeys.2 ⟨v, h⟩)
      rw [dictGet, if_neg hk]
      exact ih hnd.2 h

theorem dictGet_dictPop_self {α : Type} (k : String) (m : List (String × α)) :
    dictGet k (dictPop k m) = none := by
  induction m with
  | nil => simp [dictPop, dictGet]
  | cons p rest ih =>
    by_cases h : p.1 = k
    · rw [dictPop, if_pos h]; exact ih
    · rw [dictPop, if_neg h, dictGet, if_neg h]; exact ih

theorem dictGet_dictPop_ne {α : Type} {k k' : String} (h : k ≠ k') (m : List (String × α)) :
    dictGet k (dictPop k' m) = dictGet k m := by
  induction m with
  | nil => simp [dictPop]
  | cons p rest ih =>
    by_cases hp : p.1 = k'
    · have hk : p.1 ≠ k := by rw [hp]; exact fun hc => h hc.symm
      rw [dictPop, if_pos hp, dictGet, if_neg hk]
      exact ih
    · by_cases hk : p.1 = k
      · rw [dictPop, if_neg hp, dictGet, if_pos hk, dictGet, if_pos hk]
      · rw [dictPop, if_neg hp, dictGet, if_neg hk, dictGet, if_neg hk]
        exact ih

theorem mem_dictKeys_dictPop {α : Type} (k k' : String) (m : List (String × α)) :
    k ∈ dictKeys (dictPop k' m) ↔ k ∈ dictKeys m ∧ k ≠ k' := by
  induction m with
  | nil => simp [dictPop, dictKeys]
  | cons p rest ih =>
    by_cases hp : p.1 = k'
    · rw [dictPop, if_pos hp, ih]
      simp only [dictKeys, List.map_cons, List.mem_cons]
      constructor
      · rintro ⟨h1, h2⟩; exact ⟨Or.inr h1, h2⟩
      · rintro ⟨h1 | h1, h2⟩
        · exact absurd (h1.trans hp) h2
        · exact ⟨h1, h2⟩
    · rw [dictPop, if_neg hp]
      simp only [dictKeys, List.map_cons, List.mem_cons] at *
      constructor
      · rintro (h | h)
        · exact ⟨Or.inl h, fun hc => hp (h ▸ hc : p.1 = k')⟩
        · obtain ⟨h1, h2⟩ := ih.1 h
          exact ⟨Or.inr h1, h2⟩
      · rintro ⟨h1 | h1, h2⟩
        · exact Or.inl h1
        · exact Or.inr (ih.2 ⟨h1, h2⟩)

theorem dictPop_sublist {α : Type} (k : String) (m : List (String × α)) :
    List.Sublist (dictPop k m) m := by
  induction m with
  | nil => simp [dictPop]
  | cons p rest ih =>
    by_cases h : p.1 = k
    · rw [dictPop, if_pos h]; exact ih.cons p
    · rw [dictPop, if_neg h]; exact ih.cons₂ p

theorem dictKeys_dictPop_sublist {α : Type} (k : String) (m : List (String × α)) :
    List.Sublist (dictKeys (dictPop k m)) (dictKeys m) :=
  (dictPop_sublist k m).map Prod.fst

theorem mem_of_mem_dictPop {α : Type} {p : String × α} {k : String} {m : List (String × α)}
    (h : p ∈ dictPop k m) : p ∈ m :=
  (dictPop_sublist k m).subset h

theorem dictKeys_dictUpdate {α : Type} (k : String) (v : α) (m : List (String × α)) :
    dictKeys (dictUpdate k v m) = dictKeys m := by
  induction m with
  | nil => simp [dictUpdate]
  | cons p rest ih =>
    by_cases h : p.1 = k
    · rw [dictUpdate, if_pos h]
      simp only [dictKeys, List.map_cons] at *
      rw [ih, h]
    · rw [dictUpdate, if_neg h]
      simp only [dictKeys, List.map_cons] at *
      rw [ih]

theorem dictGet_dictUpdate_self {α : Type} (k : String) (v : α) {m : List (String × α)}
    (h : k ∈ dictKeys m) : dictGet k (dictUpdate k v m) = some v := by
  induction m with
  | nil => simp [dictKeys] at h
  | cons p rest ih =>
    by_cases hp : p.1 = k
    · rw [dictUpdate, if_pos hp, dictGet, if_pos rfl]
    · have : k ∈ dictKeys rest := by
        simp only [dictKeys, List.map_cons, List.mem_cons] at h
        rcases h with h | h
        · exact absurd h.symm hp
        · exact h
      rw [dictUpdate, if_neg hp, dictGet, if_neg hp]
      exact ih this

theorem dictGet_dictUpdate_ne {α : Type} {k k' : String} (h : k ≠ k') (v : α)
    (m : List (String × α)) : dictGet k (dictUpdate k' v m) = dictGet k m := by
  induction m with
  | nil => simp [dictUpdate]
  | cons p rest ih =>
    by_cases hp : p.1 = k'
    · have hk : ¬(k' = k) := fun hc => h hc.symm
      have hpk : p.1 ≠ k := by rw [hp]; exact hk
      rw [dictUpdate, if_pos hp, dictGet, if_neg hk, dictGet, if_neg hpk]
      exact ih
    · by_cases hk : p.1 = k
      · rw [dictUpdate, if_neg hp, dictGet, if_pos hk, dictGet, if_pos hk]
      · rw [dictUpdate, if_neg hp, dictGet, if_neg hk, dictGet, if_neg hk]
        exact ih

theorem mem_dictUpdate {α : Type} {p : String × α} {k : String} {v : α}
    {m : List (String × α)} (h : p ∈ dictUpdate k v m) : p = (k, v) ∨ p ∈ m := by
  induction m with
  | nil => simp [dictUpdate] at h
  | cons q rest ih =>
    by_cases hq : q.1 = k
    · rw [dictUpdate, if_pos hq] at h
      rcases List.mem_cons.1 h with h | h
      · exact Or.inl h
      · rcases ih h with h | h
        · exact Or.inl h
        · exact Or.inr (List.mem_cons_of_mem _ h)
    · rw [dictUpdate, if_neg hq] at h
      rcases List.mem_cons.1 h with h | h
      · exact Or.inr (List.mem_cons.2 (Or.inl h))
      · rcases ih h with h | h
        · exact Or.inl h
        · exact Or.inr (List.mem_cons_of_mem _ h)

theorem dictGet_dictSet_self {α : Type} (k : String) (v : α) (m : List (String × α)) :
    dictGet k (dictSet k v m) = some v := by
  unfold dictSet
  by_cases h : (dictGet k m).isSome = true
  · rw [if_pos h]
    exact dictGet_dictUpdate_self k v ((dictGet_isSome_iff k m).1 h)
  · rw [if_neg h]
    have hk : k ∉ dictKeys m := by
      intro hc
      exact h ((dictGet_isSome_iff k m).2 hc)
    have hnone : dictGet k m = none := (dictGet_eq_none_iff k m).2 hk
    clear h hk
    induction m with
    | nil => rw [List.nil_append, dictGet, if_pos rfl]
    | cons p rest ih =>
      by_cases hp : p.1 = k
      · rw [dictGet, if_pos hp] at hnone; cases hnone
      · rw [dictGet, if_neg hp] at hnone
        rw [List.cons_append, dictGet, if_neg hp]
        exact ih hnone

theorem dictGet_dictSet_ne {α : Type} {k k' : String} (h : k ≠ k') (v : α)
    (m : List (String × α)) : dictGet k (dictSet k' v m) = dictGet k m := by
  unfold dictSet
  by_cases hs : (dictGet k' m).isSome = true
  · rw [if_pos hs]
    exact dictGet_dictUpdate_ne h v m
  · rw [if_neg hs]
    induction m with
    | nil =>
      rw [List.nil_append]
      simp [dictGet, Ne.symm h]
    | cons p rest ih =>
      by_cases hp : p.1 = k
      · rw [List.cons_append, dictGet, if_pos hp, dictGet, if_pos hp]
      · rw [List.cons_append, dictGet, if_neg hp, dictGet, if_neg hp]
        by_cases hpk' : p.1 = k'
        · rw [dictGet, if_pos hpk'] at hs
          simp at hs
        · rw [dictGet, if_neg hpk'] at hs
          exact ih hs

theorem mem_dictKeys_dictSet {α : Type} (k k' : String) (v : α) (m : List (String × α)) :
    k ∈ dictKeys (dictSet k' v m) ↔ k = k' ∨ k ∈ dictKeys m := by
  unfold dictSet
  by_cases hs : (dictGet k' m).isSome = true
  · rw [if_pos hs, dictKeys_dictUpdate]
    have hk' : k' ∈ dictKeys m := (dictGet_isSome_iff k' m).1 hs
    constructor
    · exact Or.inr
    · rintro (rfl | h)
      · exact hk'
      · exact h
  · rw [if_neg hs]
    simp only [dictKeys, List.map_append, List.map_cons, List.map_nil, List.mem_append,
      List.mem_cons, List.not_mem_nil, or_false]
    exact or_comm

theorem dictKeys_nodup_dictSet {α : Type} (k : String) (v : α) {m : List (String × α)}
    (h : (dictKeys m).Nodup) : (dictKeys (dictSet k v m)).Nodup := by
  unfold dictSet
  by_cases hs : (dictGet k m).isSome = true
  · rw [if_pos hs, dictKeys_dictUpdate]; exact h
  · rw [if_neg hs]
    have hk : k ∉ dictKeys m := by
      intro hc
      exact hs ((dictGet_isSome_iff k m).2 hc)
    simp only [dictKeys, List.map_append, List.map_cons, List.map_nil]
    rw [List.nodup_append]
    refine ⟨h, List.nodup_singleton k, ?_⟩
    intro a ha hc
    rcases List.mem_singleton.1 hc with rfl
    exact hk ha

theorem dictKeys_nodup_dictPop {α : Type} (k : String) {m : List (String × α)}
    (h : (dictKeys m).Nodup) : (dictKeys (dictPop k m)).Nodup :=
  (dictKeys_dictPop_sublist k m).nodup h

theorem remember_of_le {idle : Int} {revoked : List (String × Int)} {token : String}
    {e : Option Int} {now : Int} (h : e.getD (now + idle) ≤ now) :
    remember_revoked_locked idle revoked token e now = revoked := by
  unfold remember_revoked_locked
  rw [if_pos h]

theorem remember_of_gt {idle : Int} {revoked : List (String × Int)} {token : String}
    {e : Option Int} {now : Int} (h : now < e.getD (now + idle)) :
    remember_revoked_locked idle revoked token e now
      = dictSet token (e.getD (now + idle)) revoked := by
  unfold remember_revoked_locked
  rw [if_neg (by omega)]

theorem dictGet_remember_ne {idle : Int} {revoked : List (String × Int)} {t token : String}
    (h : t ≠ token) (e : Option Int) (now : Int) :
    dictGet t (remember_revoked_locked idle revoked token e now) = dictGet t revoked := by
  unfold remember_revoked_locked
  by_cases hle : e.getD (now + idle) ≤ now
  · rw [if_pos hle]
  · rw [if_neg hle]
    exact dictGet_dictSet_ne h _ _

theorem mem_dictKeys_remember {idle : Int} {revoked : List (String × Int)} {t token : String}
    {e : Option Int} {now : Int} :
    t ∈ dictKeys (remember_revoked_locked idle revoked token e now) ↔
      t ∈ dictKeys revoked ∨ (t = token ∧ now < e.getD (now + idle)) := by
  unfold remember_revoked_locked
  by_cases hle : e.getD (now + idle) ≤ now
  · rw [if_pos hle]
    constructor
    · exact Or.inl
    · rintro (h | ⟨rfl, h⟩)
      · exact h
      · omega
  · rw [if_neg hle]
    rw [mem_dictKeys_dictSet]
    constructor
    · rintro (rfl | h)
      · exact Or.inr ⟨rfl, by omega⟩
      · exact Or.inl h
    · rintro (h | ⟨rfl, h⟩)
      · exact Or.inr h
      · exact Or.inl rfl

theorem dictKeys_nodup_remember {idle : Int} {revoked : List (String × Int)} (token : String)
    (e : Option Int) (now : Int) (h : (dictKeys revoked).Nodup) :
    (dictKeys (remember_revoked_locked idle revoked token e now)).Nodup := by
  unfold remember_revoked_locked
  by_cases hle : e.getD (now + idle) ≤ now
  · rw [if_pos hle]; exact h
  · rw [if_neg hle]; exact dictKeys_nodup_dictSet _ _ h

theorem prune_revoked_sublist (now : Int) (rv : List (String × Int)) :
    List.Sublist (prune_revoked_locked now rv) rv := by
  induction rv with
  | nil => simp [prune_revoked_locked]
  | cons p rest ih =>
    by_cases h : now ≥ p.2
    · rw [prune_revoked_locked, if_pos h]; exact ih.cons p
    · rw [prune_revoked_locked, if_neg h]; exact ih.cons₂ p

theorem mem_prune_revoked {now : Int} {rv : List (String × Int)} {p : String × Int} :
    p ∈ prune_revoked_locked now rv ↔ p ∈ rv ∧ now < p.2 := by
  induction rv with
  | nil => simp [prune_revoked_locked]
  | cons q rest ih =>
    by_cases h : now ≥ q.2
    · rw [prune_revoked_locked, if_pos h]
      rw [ih]
      constructor
      · rintro ⟨h1, h2⟩
        exact ⟨List.mem_cons_of_mem _ h1, h2⟩
      · rintro ⟨h1, h2⟩
        rcases List.mem_cons.1 h1 with rfl | h1
        · omega
        · exact ⟨h1, h2⟩
    · rw [prune_revoked_locked, if_neg h]
      constructor
      · intro hmem
        rcases List.mem_cons.1 hmem with rfl | hmem
        · exact ⟨List.mem_cons_self _ _, by omega⟩
        · obtain ⟨h1, h2⟩ := ih.1 hmem
          exact ⟨List.mem_cons_of_mem _ h1, h2⟩
      · rintro ⟨h1, h2⟩
        rcases List.mem_cons.1 h1 with rfl | h1
        · exact List.mem_cons_self _ _
        · exact List.mem_cons_of_mem _ (ih.2 ⟨h1, h2⟩)

theorem dictGet_prune_revoked {now : Int} {rv : List (String × Int)} {t : String}
    (hnd : (dictKeys rv).Nodup) :
    dictGet t (prune_revoked_locked now rv) =
      match dictGet t rv with
      | some e => if now ≥ e then none else some e
      | none => none := by
  cases hg : dictGet t rv with
  | none =>
    simp only []
    rw [dictGet_eq_none_iff] at hg ⊢
    intro hc
    obtain ⟨e, he⟩ := mem_dictKeys.1 hc
    exact hg (mem_dictKeys.2 ⟨e, (mem_prune_revoked.1 he).1⟩)
  | some e =>
    simp only []
    by_cases hle : now ≥ e
    · rw [if_pos hle, dictGet_eq_none_iff]
      intro hc
      obtain ⟨e', he'⟩ := mem_dictKeys.1 hc
      obtain ⟨hmem, hgt⟩ := mem_prune_revoked.1 he'
      have := dictGet_of_mem_nodup hnd hmem
      rw [hg] at this
      obtain rfl : e = e' := by injection this
      omega
    · rw [if_neg hle]
      have hmem : (t, e) ∈ prune_revoked_locked now rv :=
        mem_prune_revoked.2 ⟨dictGet_mem hg, by omega⟩
      exact dictGet_of_mem_nodup ((prune_revoked_sublist now rv).map Prod.fst |>.nodup hnd) hmem

theorem dictKeys_nodup_prune_revoked (now : Int) {rv : List (String × Int)}
    (h : (dictKeys rv).Nodup) : (dictKeys (prune_revoked_locked now rv)).Nodup :=
  ((prune_revoked_sublist now rv).map Prod.fst).nodup h

theorem registry_keep_sublist (idle now : Int) (l : List (String × SessionInfo)) :
    List.Sublist (registry_keep idle now l) l := by
  induction l with
  | nil => simp [registry_keep]
  | cons p rest ih =>
    by_cases h : session_dead idle now p.2
    · rw [registry_keep, if_pos h]; exact ih.cons p
    · rw [registry_keep, if_neg h]; exact ih.cons₂ p

theorem mem_registry_keep {idle now : Int} {l : List (String × SessionInfo)}
    {p : String × SessionInfo} :
    p ∈ registry_keep idle now l ↔ p ∈ l ∧ ¬session_dead idle now p.2 := by
  induction l with
  | nil => simp [registry_keep]
  | cons q rest ih =>
    by_cases h : session_dead idle now q.2
    · rw [registry_keep, if_pos h, ih]
      constructor
      · rintro ⟨h1, h2⟩
        exact ⟨List.mem_cons_of_mem _ h1, h2⟩
      · rintro ⟨h1, h2⟩
        rcases List.mem_cons.1 h1 with rfl | h1
        · exact absurd h h2
        · exact ⟨h1, h2⟩
    · rw [registry_keep, if_neg h]
      constructor
      · intro hmem
        rcases List.mem_cons.1 hmem with rfl | hmem
        · exact ⟨List.mem_cons_self _ _, h⟩
        · obtain ⟨h1, h2⟩ := ih.1 hmem
          exact ⟨List.mem_cons_of_mem _ h1, h2⟩
      · rintro ⟨h1, h2⟩
        rcases List.mem_cons.1 h1 with rfl | h1
        · exact List.mem_cons_self _ _
        · exact List.mem_cons_of_mem _ (ih.2 ⟨h1, h2⟩)

theorem mem_registry_expired {idle now : Int} {l : List (String × SessionInfo)}
    {p : String × SessionInfo} :
    p ∈ registry_expired idle now l ↔ p ∈ l ∧ session_dead idle now p.2 := by
  induction l with
  | nil => simp [registry_expired]
  | cons q rest ih =>
    by_cases h : session_dead idle now q.2
    · rw [registry_expired, if_pos h]
      constructor
      · intro hmem
        rcases List.mem_cons.1 hmem with rfl | hmem
        · exact ⟨List.mem_cons_self _ _, h⟩
        · obtain ⟨h1, h2⟩ := ih.1 hmem
          exact ⟨List.mem_cons_of_mem _ h1, h2⟩
      · rintro ⟨h1, h2⟩
        rcases List.mem_cons.1 h1 with rfl | h1
        · exact List.mem_cons_self _ _
        · exact List.mem_cons_of_mem _ (ih.2 ⟨h1, h2⟩)
    · rw [registry_expired, if_neg h, ih]
      constructor
      · rintro ⟨h1, h2⟩
        exact ⟨List.mem_cons_of_mem _ h1, h2⟩
      · rintro ⟨h1, h2⟩
        rcases List.mem_cons.1 h1 with rfl | h1
        · exact absurd h2 h
        · exact ⟨h1, h2⟩

theorem dictGet_registry_keep {idle now : Int} {l : List (String × SessionInfo)} {t : String}
    (hnd : (dictKeys l).Nodup) :
    dictGet t (registry_keep idle now l) =
      match dictGet t l with
      | some i => if session_dead idle now i then none else some i
      | none => none := by
  cases hg : dictGet t l with
  | none =>
    simp only []
    rw [dictGet_eq_none_iff] at hg ⊢
    intro hc
    obtain ⟨i, hi⟩ := mem_dictKeys.1 hc
    exact hg (mem_dictKeys.2 ⟨i, (mem_registry_keep.1 hi).1⟩)
  | some i =>
    simp only []
    by_cases hd : session_dead idle now i
    · rw [if_pos hd, dictGet_eq_none_iff]
      intro hc
      obtain ⟨i', hi'⟩ := mem_dictKeys.1 hc
      obtain ⟨hmem, halive⟩ := mem_registry_keep.1 hi'
      have := dictGet_of_mem_nodup hnd hmem
      rw [hg] at this
      obtain rfl : i = i' := by injection this
      exact halive hd
    · rw [if_neg hd]
      have hmem : (t, i) ∈ registry_keep idle now l :=
        mem_registry_keep.2 ⟨dictGet_mem hg, hd⟩
      exact dictGet_of_mem_nodup (((registry_keep_sublist idle now l).map Prod.fst).nodup hnd) hmem

theorem registry_expired_keys_nodup {idle now : Int} {l : List (String × SessionInfo)}
    (hnd : (dictKeys l).Nodup) : (dictKeys (registry_expired idle now l)).Nodup := by
  induction l with
  | nil => simp [registry_expired, dictKeys]
  | cons q rest ih =>
    rw [dictKeys, List.map_cons, List.nodup_cons] at hnd
    by_cases h : session_dead idle now q.2
    · rw [registry_expired, if_pos h]
      rw [dictKeys, List.map_cons, List.nodup_cons]
      refine ⟨?_, ih hnd.2⟩
      intro hc
      obtain ⟨i, hi⟩ := mem_dictKeys.1 hc
      exact hnd.1 (mem_dictKeys.2 ⟨i, (mem_registry_expired.1 hi).1⟩)
    · rw [registry_expired, if_neg h]
      exact ih hnd.2

theorem mem_dictKeys_remember_all {idle now : Int} {rv : List (String × Int)}
    {l : List (String × SessionInfo)} {t : String} :
    t ∈ dictKeys (remember_all idle now rv l) ↔
      t ∈ dictKeys rv ∨ ∃ i, (t, i) ∈ l ∧ now < i.expires_at := by
  induction l generalizing rv with
  | nil => simp [remember_all]
  | cons p rest ih =>
    rw [remember_all, ih]
    rw [mem_dictKeys_remember]
    simp only [Option.getD_some]
    constructor
    · rintro ((h | ⟨rfl, h⟩) | ⟨i, hi, hgt⟩)
      · exact Or.inl h
      · exact Or.inr ⟨p.2, List.mem_cons.2 (Or.inl (by rw [Prod.mk.eta])), h⟩
      · exact Or.inr ⟨i, List.mem_cons_of_mem _ hi, hgt⟩
    · rintro (h | ⟨i, hi, hgt⟩)
      · exact Or.inl (Or.inl h)
      · rcases List.mem_cons.1 hi with heq | hi
        · subst heq
          exact Or.inl (Or.inr ⟨rfl, hgt⟩)
        · exact Or.inr ⟨i, hi, hgt⟩

theorem dictGet_remember_all_of_not_mem {idle now : Int} {rv : List (String × Int)}
    {l : List (String × SessionInfo)} {t : String} (h : t ∉ dictKeys l) :
    dictGet t (remember_all idle now rv l) = dictGet t rv := by
  induction l generalizing rv with
  | nil => rw [remember_all]
  | cons p rest ih =>
    rw [remember_all]
    have ht : t ∉ dictKeys rest := by
      intro hc
      exact h (List.mem_cons_of_mem _ hc)
    have hne : t ≠ p.1 := by
      intro hc
      exact h (by rw [dictKeys, List.map_cons]; exact List.mem_cons.2 (Or.inl hc))
    rw [ih ht, dictGet_remember_ne hne]

theorem dictGet_remember_all_of_mem {idle now : Int} {rv : List (String × Int)}
    {l : List (String × SessionInfo)} {t : String} {i : SessionInfo}
    (hnd : (dictKeys l).Nodup) (hmem : (t, i) ∈ l) (hgt : now < i.expires_at) :
    dictGet t (remember_all idle now rv l) = some i.expires_at := by
  induction l generalizing rv with
  | nil => simp at hmem
  | cons p rest ih =>
    rw [dictKeys, List.map_cons, List.nodup_cons] at hnd
    rcases List.mem_cons.1 hmem with heq | hmem'
    · have ht : t ∉ dictKeys rest := by
        rw [← heq] at hnd
        exact hnd.1
      rw [remember_all, dictGet_remember_all_of_not_mem ht, ← heq]
      rw [remember_of_gt (by simpa using hgt)]
      simp only [Option.getD_some]
      exact dictGet_dictSet_self _ _ _
    · rw [remember_all]
      exact ih hnd.2 hmem'

theorem dictKeys_nodup_remember_all {idle now : Int} {rv : List (String × Int)}
    (l : List (String × SessionInfo)) (h : (dictKeys rv).Nodup) :
    (dictKeys (remember_all idle now rv l)).Nodup := by
  induction l generalizing rv with
  | nil => rw [remember_all]; exact h
  | cons p rest ih =>
    rw [remember_all]
    exact ih (dictKeys_nodup_remember _ _ _ h)

theorem min_from_mem (cur : SessionInfo) (l : List SessionInfo) :
    min_by_last_seen_from cur l ∈ cur :: l := by
  induction l generalizing cur with
  | nil => simp [min_by_last_seen_from]
  | cons i rest ih =>
    rw [min_by_last_seen_from]
    by_cases h : i.last_seen < cur.last_seen
    · rw [if_pos h]
      rcases List.mem_cons.1 (ih i) with h1 | h1
      · exact List.mem_cons_of_mem _ (List.mem_cons.2 (Or.inl h1))
      · exact List.mem_cons_of_mem _ (List.mem_cons_of_mem _ h1)
    · rw [if_neg h]
      rcases List.mem_cons.1 (ih cur) with h1 | h1
      · exact List.mem_cons.2 (Or.inl h1)
      · exact List.mem_cons_of_mem _ (List.mem_cons_of_mem _ h1)

theorem min_from_le_cur (cur : SessionInfo) (l : List SessionInfo) :
    (min_by_last_seen_from cur l).last_seen ≤ cur.last_seen := by
  induction l generalizing cur with
  | nil => rw [min_by_last_seen_from]
  | cons i rest ih =>
    rw [min_by_last_seen_from]
    by_cases h : i.last_seen < cur.last_seen
    · rw [if_pos h]
      have := ih i
      omega
    · rw [if_neg h]
      exact ih cur

theorem min_from_le_mem (cur : SessionInfo) {l : List SessionInfo} {j : SessionInfo}
    (hj : j ∈ l) : (min_by_last_seen_from cur l).last_seen ≤ j.last_seen := by
  induction l generalizing cur with
  | nil => simp at hj
  | cons i rest ih =>
    rw [min_by_last_seen_from]
    rcases List.mem_cons.1 hj with rfl | hj
    · by_cases h : j.last_seen < cur.last_seen
      · rw [if_pos h]
        exact min_from_le_cur j rest
      · rw [if_neg h]
        have := min_from_le_cur cur rest
        omega
    · by_cases h : i.last_seen < cur.last_seen
      · rw [if_pos h]
        exact ih i hj
      · rw [if_neg h]
        exact ih cur hj

theorem min_from_append_singleton (cur : SessionInfo) (l : List SessionInfo)
    (x : SessionInfo) :
    min_by_last_seen_from cur (l ++ [x]) =
      if x.last_seen < (min_by_last_seen_from cur l).last_seen then x
      else min_by_last_seen_from cur l := by
  induction l generalizing cur with
  | nil => simp [min_by_last_seen_from]
  | cons i rest ih =>
    rw [List.cons_append, min_by_last_seen_from, min_by_last_seen_from]
    exact ih _

theorem min_by_last_seen_append_singleton {l : List SessionInfo} {x m : SessionInfo}
    (hne : min_by_last_seen l = some m) (hle : m.last_seen ≤ x.last_seen) :
    min_by_last_seen (l ++ [x]) = some m := by
  cases l with
  | nil => cases hne
  | cons i rest =>
    rw [min_by_last_seen] at hne
    obtain rfl : min_by_last_seen_from i rest = m := by injection hne
    rw [List.cons_append, min_by_last_seen, min_from_append_singleton]
    rw [if_neg (by omega)]

theorem dictUpdate_length {α : Type} (k : String) (v : α) (m : List (String × α)) :
    (dictUpdate k v m).length = m.length := by
  induction m with
  | nil => rw [dictUpdate]
  | cons p rest ih =>
    by_cases h : p.1 = k
    · rw [dictUpdate, if_pos h, List.length_cons, List.length_cons, ih]
    · rw [dictUpdate, if_neg h, List.length_cons, List.length_cons, ih]

theorem dictSet_length_le {α : Type} (k : String) (v : α) (m : List (String × α)) :
    (dictSet k v m).length ≤ m.length + 1 := by
  unfold dictSet
  by_cases h : (dictGet k m).isSome = true
  · rw [if_pos h, dictUpdate_length]; omega
  · rw [if_neg h, List.length_append, List.length_singleton]

theorem dictPop_length_le {α : Type} (k : String) (m : List (String × α)) :
    (dictPop k m).length ≤ m.length :=
  (dictPop_sublist k m).length_le

theorem dictPop_length_lt {α : Type} {k : String} {m : List (String × α)}
    (h : k ∈ dictKeys m) : (dictPop k m).length < m.length := by
  induction m with
  | nil => simp [dictKeys] at h
  | cons p rest ih =>
    by_cases hp : p.1 = k
    · rw [dictPop, if_pos hp, List.length_cons]
      have := dictPop_length_le k rest
      omega
    · rw [dictPop, if_neg hp, List.length_cons, List.length_cons]
      have hk : k ∈ dictKeys rest := by
        rcases List.mem_cons.1 h with h1 | h1
        · exact absurd h1.symm hp
        · exact h1
      have := ih hk
      omega

theorem tokensMatch_dictSet {l : List (String × SessionInfo)} {k : String} {v : SessionInfo}
    (hl : TokensMatch l) (hv : v.token = k) : TokensMatch (dictSet k v l) := by
  intro p hp
  unfold dictSet at hp
  by_cases h : (dictGet k l).isSome = true
  · rw [if_pos h] at hp
    rcases mem_dictUpdate hp with rfl | hp
    · exact hv
    · exact hl p hp
  · rw [if_neg h] at hp
    rcases List.mem_append.1 hp with hp | hp
    · exact hl p hp
    · rcases List.mem_singleton.1 hp with rfl
      exact hv

theorem tokensMatch_dictPop {l : List (String × SessionInfo)} (k : String)
    (hl : TokensMatch l) : TokensMatch (dictPop k l) :=
  fun p hp => hl p (mem_of_mem_dictPop hp)

theorem tokensMatch_dictUpdate {l : List (String × SessionInfo)} {k : String} {v : SessionInfo}
    (hl : TokensMatch l) (hv : v.token = k) : TokensMatch (dictUpdate k v l) := by
  intro p hp
  rcases mem_dictUpdate hp with rfl | hp
  · exact hv
  · exact hl p hp

theorem tokensMatch_registry_keep {l : List (String × SessionInfo)} (idle now : Int)
    (hl : TokensMatch l) : TokensMatch (registry_keep idle now l) :=
  fun p hp => hl p (mem_registry_keep.1 hp).1

theorem min_by_last_seen_some {l : List SessionInfo} (h : l ≠ []) :
    ∃ m, min_by_last_seen l = some m ∧ m ∈ l ∧ ∀ j ∈ l, m.last_seen ≤ j.last_seen := by
  cases l with
  | nil => exact absurd rfl h
  | cons i rest =>
    refine ⟨min_by_last_seen_from i rest, rfl, min_from_mem i rest, ?_⟩
    intro j hj
    rcases List.mem_cons.1 hj with rfl | hj
    · exact min_from_le_cur j rest
    · exact min_from_le_mem i hj

/-- When the capacity bound is not exceeded, `_store_session_locked` is just
the insert plus the stale-revocation clear. -/
theorem store_session_eq_of_le (idle : Int) (cap : Nat) (now : Int) (info : SessionInfo)
    (st : AuthState) (h : (dictSet info.token info st.registry).length ≤ cap) :
    store_session_locked idle cap now info st =
      { st with
        registry := dictSet info.token info st.registry
        revoked := dictPop info.token st.revoked } := by
  unfold store_session_locked
  rw [if_neg (by omega)]

/-- When the capacity bound is exceeded, `_store_session_locked` evicts the
first value attaining the minimal `last_seen` and records it. -/
theorem store_session_eq_of_gt (idle : Int) (cap : Nat) (now : Int) (info : SessionInfo)
    (st : AuthState) (h : (dictSet info.token info st.registry).length > cap) :
    ∃ stalest,
      min_by_last_seen ((dictSet info.token info st.registry).map Prod.snd) = some stalest ∧
      stalest ∈ (dictSet info.token info st.registry).map Prod.snd ∧
      (∀ j ∈ (dictSet info.token info st.registry).map Prod.snd,
        stalest.last_seen ≤ j.last_seen) ∧
      store_session_locked idle cap now info st =
        { st with
          registry := dictPop stalest.token (dictSet info.token info st.registry)
          revoked := remember_revoked_locked idle (dictPop info.token st.revoked)
            stalest.token (some stalest.expires_at) now } := by
  have hne : (dictSet info.token info st.registry).map Prod.snd ≠ [] := by
    intro hc
    have := congrArg List.length hc
    rw [List.length_map] at this
    simp only [List.length_nil] at this
    omega
  obtain ⟨m, hm, hmem, hle⟩ := min_by_last_seen_some hne
  refine ⟨m, hm, hmem, hle, ?_⟩
  unfold store_session_locked
  rw [if_pos (by omega), hm]

theorem keys_unique_value {l : List (String × SessionInfo)} {t : String} {i i' : SessionInfo}
    (hnd : (dictKeys l).Nodup) (h1 : (t, i) ∈ l) (h2 : (t, i') ∈ l) : i = i' := by
  have g1 := dictGet_of_mem_nodup hnd h1
  have g2 := dictGet_of_mem_nodup hnd h2
  rw [g1] at g2
  injection g2 with g2

theorem prune_both_registry (idle now : Int) (st : AuthState) :
    (prune_both idle now st).registry = registry_keep idle now st.registry := rfl

theorem prune_both_revoked (idle now : Int) (st : AuthState) :
    (prune_both idle now st).revoked =
      prune_revoked_locked now
        (remember_all idle now st.revoked (registry_expired idle now st.registry)) := rfl

theorem prune_both_portal (idle now : Int) (st : AuthState) :
    (prune_both idle now st).portal = st.portal := rfl

theorem mem_keys_prune_revoked {now : Int} {rv : List (String × Int)} {t : String}
    (h : t ∈ dictKeys (prune_revoked_locked now rv)) : t ∈ dictKeys rv :=
  ((prune_revoked_sublist now rv).map Prod.fst).subset h

theorem WF_prune_both {idle now : Int} {st : AuthState} (h : WF st) :
    WF (prune_both idle now st) := by
  obtain ⟨hreg, hrv, htok⟩ := h
  refine ⟨?_, ?_, ?_⟩
  · rw [prune_both_registry]
    exact ((registry_keep_sublist idle now st.registry).map Prod.fst).nodup hreg
  · rw [prune_both_revoked]
    exact dictKeys_nodup_prune_revoked now (dictKeys_nodup_remember_all _ hrv)
  · rw [prune_both_registry]
    exact tokensMatch_registry_keep idle now htok

theorem Disj_prune_both {idle now : Int} {st : AuthState} (hWF : WF st) (h : Disj st) :
    Disj (prune_both idle now st) := by
  obtain ⟨hreg, hrv, htok⟩ := hWF
  intro t ht hc
  rw [prune_both_registry] at ht
  rw [prune_both_revoked] at hc
  obtain ⟨i, hi⟩ := mem_dictKeys.1 ht
  obtain ⟨himem, halive⟩ := mem_registry_keep.1 hi
  have hc' := mem_keys_prune_revoked hc
  rcases mem_dictKeys_remember_all.1 hc' with hc' | ⟨i', hi', _⟩
  · exact h t (mem_dictKeys.2 ⟨i, himem⟩) hc'
  · obtain ⟨hi'mem, hdead⟩ := mem_registry_expired.1 hi'
    obtain rfl := keys_unique_value hreg himem hi'mem
    exact halive hdead

theorem WF_store {idle : Int} {cap : Nat} {now : Int} {info : SessionInfo} {st : AuthState}
    (h : WF st) : WF (store_session_locked idle cap now info st) := by
  obtain ⟨hreg, hrv, htok⟩ := h
  have hreg' : (dictKeys (dictSet info.token info st.registry)).Nodup :=
    dictKeys_nodup_dictSet _ _ hreg
  have htok' : TokensMatch (dictSet info.token info st.registry) :=
    tokensMatch_dictSet htok rfl
  by_cases hlen : (dictSet info.token info st.registry).length ≤ cap
  · rw [store_session_eq_of_le idle cap now info st hlen]
    exact ⟨hreg', dictKeys_nodup_dictPop _ hrv, htok'⟩
  · obtain ⟨stalest, _, _, _, heq⟩ := store_session_eq_of_gt idle cap now info st (by omega)
    rw [heq]
    refine ⟨dictKeys_nodup_dictPop _ hreg', ?_, tokensMatch_dictPop _ htok'⟩
    exact dictKeys_nodup_remember _ _ _ (dictKeys_nodup_dictPop _ hrv)

theorem Disj_store {idle : Int} {cap : Nat} {now : Int} {info : SessionInfo} {st : AuthState}
    (hWF : WF st) (h : Disj st) : Disj (store_session_locked idle cap now info st) := by
  obtain ⟨hreg, hrv, htok⟩ := hWF
  by_cases hlen : (dictSet info.token info st.registry).length ≤ cap
  · rw [store_session_eq_of_le idle cap now info st hlen]
    intro t ht hc
    rcases (mem_dictKeys_dictSet t info.token info st.registry).1 ht with rfl | ht
    · exact ((mem_dictKeys_dictPop info.token info.token st.revoked).1 hc).2 rfl
    · exact h t ht ((mem_dictKeys_dictPop t info.token st.revoked).1 hc).1
  · obtain ⟨stalest, _, _, _, heq⟩ := store_session_eq_of_gt idle cap now info st (by omega)
    rw [heq]
    intro t ht hc
    obtain ⟨ht, htne⟩ := (mem_dictKeys_dictPop t stalest.token _).1 ht
    rcases mem_dictKeys_remember.1 hc with hc | ⟨rfl, _⟩
    · obtain ⟨hc, hcne⟩ := (mem_dictKeys_dictPop t info.token st.revoked).1 hc
      rcases (mem_dictKeys_dictSet t info.token info st.registry).1 ht with rfl | ht
      · exact hcne rfl
      · exact h t ht hc
    · exact htne rfl

theorem WF_stage3 {idle now : Int} {token : String} {info : SessionInfo} {st : AuthState}
    (h : WF st) (htok : info.token = token) :
    WF (validate_stage3 idle now token info st).1 := by
  obtain ⟨hreg, hrv, htoks⟩ := h
  unfold validate_stage3
  by_cases hd : now ≥ info.expires_at ∨ now ≥ idle_deadline idle info
  · rw [if_pos hd]
    exact ⟨dictKeys_nodup_dictPop _ hreg,
      dictKeys_nodup_remember _ _ _ hrv, tokensMatch_dictPop _ htoks⟩
  · rw [if_neg hd]
    refine ⟨?_, hrv, ?_⟩
    · rw [dictKeys_dictUpdate]
      exact hreg
    · exact tokensMatch_dictUpdate htoks htok

theorem Disj_stage3 {idle now : Int} {token : String} {info : SessionInfo} {st : AuthState}
    (h : Disj st) : Disj (validate_stage3 idle now token info st).1 := by
  unfold validate_stage3
  by_cases hd : now ≥ info.expires_at ∨ now ≥ idle_deadline idle info
  · rw [if_pos hd]
    intro t ht hc
    obtain ⟨ht, htne⟩ := (mem_dictKeys_dictPop t token st.registry).1 ht
    rcases mem_dictKeys_remember.1 hc with hc | ⟨rfl, _⟩
    · exact h t ht hc
    · exact htne rfl
  · rw [if_neg hd]
    intro t ht hc
    rw [dictKeys_dictUpdate] at ht
    exact h t ht hc

theorem WF_stage2 {idle : Int} {cap : Nat} {now : Int} {token user_id : String}
    {expires_at : Option Int} {st : AuthState} (h : WF st) :
    WF (validate_stage2 idle cap now token user_id expires_at st).1 := by
  unfold validate_stage2
  split
  · split
    · exact h
    · exact WF_stage3 (WF_store h) rfl
  next info hg =>
    split
    · exact h
    · exact WF_stage3 h (h.2.2 _ (dictGet_mem hg))

theorem Disj_stage2 {idle : Int} {cap : Nat} {now : Int} {token user_id : String}
    {expires_at : Option Int} {st : AuthState} (hWF : WF st) (h : Disj st) :
    Disj (validate_stage2 idle cap now token user_id expires_at st).1 := by
  unfold validate_stage2
  split
  · split
    · exact h
    · exact Disj_stage3 (Disj_store hWF h)
  · split
    · exact h
    · exact Disj_stage3 h

theorem WF_pop_revoked {st : AuthState} (token : String) (h : WF st) :
    WF { st with revoked := dictPop token st.revoked } :=
  ⟨h.1, dictKeys_nodup_dictPop _ h.2.1, h.2.2⟩

theorem Disj_pop_revoked {st : AuthState} (token : String) (h : Disj st) :
    Disj { st with revoked := dictPop token st.revoked } := by
  intro t ht hc
  exact h t ht ((mem_dictKeys_dictPop t token st.revoked).1 hc).1

theorem WF_validate {idle : Int} {cap : Nat} {now : Int} {token user_id : String}
    {expires_at : Option Int} {st : AuthState} (h : WF st) :
    WF (validate_and_touch_session idle cap now token user_id expires_at st).1 := by
  unfold validate_and_touch_session
  dsimp only
  split
  · split
    · exact WF_prune_both h
    · exact WF_stage2 (WF_pop_revoked token (WF_prune_both h))
  · exact WF_stage2 (WF_prune_both h)

theorem Disj_validate {idle : Int} {cap : Nat} {now : Int} {token user_id : String}
    {expires_at : Option Int} {st : AuthState} (hWF : WF st) (h : Disj st) :
    Disj (validate_and_touch_session idle cap now token user_id expires_at st).1 := by
  unfold validate_and_touch_session
  dsimp only
  split
  · split
    · exact Disj_prune_both hWF h
    · exact Disj_stage2 (WF_pop_revoked token (WF_prune_both hWF))
        (Disj_pop_revoked token (Disj_prune_both hWF h))
  · exact Disj_stage2 (WF_prune_both hWF) (Disj_prune_both hWF h)

theorem WF_register {idle : Int} {cap : Nat} {now : Int} {user_id token : String}
    {expires_at : Int} {st : AuthState} (h : WF st) :
    WF (register_session idle cap now user_id token expires_at st) :=
  WF_store (WF_prune_both h)

theorem Disj_register {idle : Int} {cap : Nat} {now : Int} {user_id token : String}
    {expires_at : Int} {st : AuthState} (hWF : WF st) (h : Disj st) :
    Disj (register_session idle cap now user_id token expires_at st) :=
  Disj_store (WF_prune_both hWF) (Disj_prune_both hWF h)

theorem WF_revoke_by_token {idle now : Int} {decoded_exp : Option Int} {token : String}
    {st : AuthState} (h : WF st) :
    WF (revoke_session_by_token idle now decoded_exp token st) := by
  obtain ⟨hreg, hrv, htoks⟩ := h
  have hreg' : (dictKeys (dictPop token st.registry)).Nodup := dictKeys_nodup_dictPop _ hreg
  have htoks' : TokensMatch (dictPop token st.registry) := tokensMatch_dictPop _ htoks
  have hrv' : (dictKeys (prune_revoked_locked now st.revoked)).Nodup :=
    dictKeys_nodup_prune_revoked now hrv
  unfold revoke_session_by_token
  dsimp only
  split
  · split
    · exact ⟨hreg', hrv', htoks'⟩
    · exact ⟨hreg', dictKeys_nodup_remember _ _ _ hrv', htoks'⟩
  · exact ⟨hreg', dictKeys_nodup_remember _ _ _ hrv', htoks'⟩

theorem Disj_revoke_by_token {idle now : Int} {decoded_exp : Option Int} {token : String}
    {st : AuthState} (h : Disj st) :
    Disj (revoke_session_by_token idle now decoded_exp token st) := by
  have base : ∀ t, t ∈ dictKeys (dictPop token st.registry) →
      t ∉ dictKeys (prune_revoked_locked now st.revoked) := by
    intro t ht hc
    obtain ⟨ht, _⟩ := (mem_dictKeys_dictPop t token st.registry).1 ht
    exact h t ht (mem_keys_prune_revoked hc)
  have rem : ∀ eo, ∀ t, t ∈ dictKeys (dictPop token st.registry) →
      t ∉ dictKeys (remember_revoked_locked idle (prune_revoked_locked now st.revoked)
        token eo now) := by
    intro eo t ht hc
    rcases mem_dictKeys_remember.1 hc with hc | ⟨rfl, _⟩
    · exact base t ht hc
    · exact ((mem_dictKeys_dictPop _ _ st.registry).1 ht).2 rfl
  unfold revoke_session_by_token
  dsimp only
  split
  · split
    · exact base
    · exact rem _
  · exact rem _

theorem WF_revoke_user_loop {idle now : Int} (l : List (String × SessionInfo))
    {st : AuthState} (h : WF st) : WF (revoke_user_loop idle now l st) := by
  induction l generalizing st with
  | nil => exact h
  | cons p rest ih =>
    rw [revoke_user_loop]
    exact ih ⟨dictKeys_nodup_dictPop _ h.1,
      dictKeys_nodup_remember _ _ _ h.2.1, tokensMatch_dictPop _ h.2.2⟩

theorem Disj_revoke_user_loop {idle now : Int} (l : List (String × SessionInfo))
    {st : AuthState} (h : Disj st) : Disj (revoke_user_loop idle now l st) := by
  induction l generalizing st with
  | nil => exact h
  | cons p rest ih =>
    rw [revoke_user_loop]
    refine ih ?_
    intro t ht hc
    obtain ⟨ht, htne⟩ := (mem_dictKeys_dictPop t p.1 st.registry).1 ht
    rcases mem_dictKeys_remember.1 hc with hc | ⟨rfl, _⟩
    · exact h t ht hc
    · exact htne rfl

theorem WF_revoke_user {idle now : Int} {user_id : String} {st : AuthState} (h : WF st) :
    WF (revoke_user_sessions idle now user_id st) :=
  WF_revoke_user_loop _ ⟨h.1, dictKeys_nodup_prune_revoked now h.2.1, h.2.2⟩

theorem Disj_revoke_user {idle now : Int} {user_id : String} {st : AuthState} (h : Disj st) :
    Disj (revoke_user_sessions idle now user_id st) := by
  refine Disj_revoke_user_loop _ ?_
  intro t ht hc
  exact h t ht (mem_keys_prune_revoked hc)

theorem WF_prune_sessions {idle now : Int} {st : AuthState} (h : WF st) :
    WF (prune_sessions_locked idle now st) := by
  obtain ⟨hreg, hrv, htok⟩ := h
  exact ⟨((registry_keep_sublist idle now st.registry).map Prod.fst).nodup hreg,
    dictKeys_nodup_remember_all _ hrv, tokensMatch_registry_keep idle now htok⟩

theorem Disj_prune_sessions {idle now : Int} {st : AuthState} (hWF : WF st) (h : Disj st) :
    Disj (prune_sessions_locked idle now st) := by
  obtain ⟨hreg, hrv, htok⟩ := hWF
  intro t ht hc
  obtain ⟨i, hi⟩ := mem_dictKeys.1 ht
  obtain ⟨himem, halive⟩ := mem_registry_keep.1 hi
  rcases mem_dictKeys_remember_all.1 hc with hc | ⟨i', hi', _⟩
  · exact h t (mem_dictKeys.2 ⟨i, himem⟩) hc
  · obtain ⟨hi'mem, hdead⟩ := mem_registry_expired.1 hi'
    obtain rfl := keys_unique_value hreg himem hi'mem
    exact halive hdead

theorem prune_both_registry_get_live {idle now : Int} {st : AuthState} {token : String}
    {info : SessionInfo} (hnd : (dictKeys st.registry).Nodup)
    (hg : dictGet token st.registry = some info) (halive : ¬session_dead idle now info) :
    dictGet token (prune_both idle now st).registry = some info := by
  rw [prune_both_registry, dictGet_registry_keep hnd, hg]
  exact if_neg halive

theorem prune_both_registry_get_dead {idle now : Int} {st : AuthState} {token : String}
    {info : SessionInfo} (hnd : (dictKeys st.registry).Nodup)
    (hg : dictGet token st.registry = some info) (hdead : session_dead idle now info) :
    dictGet token (prune_both idle now st).registry = none := by
  rw [prune_both_registry, dictGet_registry_keep hnd, hg]
  exact if_pos hdead

theorem prune_both_registry_get_none {idle now : Int} {st : AuthState} {token : String}
    (hnd : (dictKeys st.registry).Nodup) (hg : dictGet token st.registry = none) :
    dictGet token (prune_both idle now st).registry = none := by
  rw [prune_both_registry, dictGet_registry_keep hnd, hg]

theorem prune_both_revoked_get_of_inhabitant {idle now : Int} {st : AuthState} {token : String}
    {info : SessionInfo} (hWF : WF st) (hDisj : Disj st)
    (hg : dictGet token st.registry = some info) (halive : ¬session_dead idle now info) :
    dictGet token (prune_both idle now st).revoked = none := by
  rw [prune_both_revoked, dictGet_eq_none_iff]
  intro hc
  have hc' := mem_keys_prune_revoked hc
  rcases mem_dictKeys_remember_all.1 hc' with hc' | ⟨i', hi', _⟩
  · exact hDisj token (mem_dictKeys.2 ⟨info, dictGet_mem hg⟩) hc'
  · obtain ⟨hi'mem, hdead⟩ := mem_registry_expired.1 hi'
    obtain rfl := keys_unique_value hWF.1 (dictGet_mem hg) hi'mem
    exact halive hdead

theorem prune_both_revoked_get_idle_dead {idle now : Int} {st : AuthState} {token : String}
    {info : SessionInfo} (hWF : WF st)
    (hg : dictGet token st.registry = some info) (hdead : session_dead idle now info)
    (habs : now < info.expires_at) :
    dictGet token (prune_both idle now st).revoked = some info.expires_at := by
  rw [prune_both_revoked]
  have hexp : (token, info) ∈ registry_expired idle now st.registry :=
    mem_registry_expired.2 ⟨dictGet_mem hg, hdead⟩
  have hget : dictGet token
      (remember_all idle now st.revoked (registry_expired idle now st.registry))
      = some info.expires_at :=
    dictGet_remember_all_of_mem (registry_expired_keys_nodup hWF.1) hexp habs
  rw [dictGet_prune_revoked (dictKeys_nodup_remember_all _ hWF.2.1), hget]
  exact if_neg (by omega)

theorem prune_both_revoked_get_abs_dead {idle now : Int} {st : AuthState} {token : String}
    {info : SessionInfo} (hWF : WF st) (hDisj : Disj st)
    (hg : dictGet token st.registry = some info) (habs : now ≥ info.expires_at) :
    dictGet token (prune_both idle now st).revoked = none := by
  rw [prune_both_revoked, dictGet_eq_none_iff]
  intro hc
  have hc' := mem_keys_prune_revoked hc
  rcases mem_dictKeys_remember_all.1 hc' with hc' | ⟨i', hi', hgt⟩
  · exact hDisj token (mem_dictKeys.2 ⟨info, dictGet_mem hg⟩) hc'
  · obtain ⟨hi'mem, _⟩ := mem_registry_expired.1 hi'
    obtain rfl := keys_unique_value hWF.1 (dictGet_mem hg) hi'mem
    omega

theorem prune_both_revoked_get_absent {idle now : Int} {st : AuthState} {token : String}
    (hreg : token ∉ dictKeys st.registry) (hrv : token ∉ dictKeys st.revoked) :
    dictGet token (prune_both idle now st).revoked = none := by
  rw [prune_both_revoked, dictGet_eq_none_iff]
  intro hc
  have hc' := mem_keys_prune_revoked hc
  rcases mem_dictKeys_remember_all.1 hc' with hc' | ⟨i', hi', _⟩
  · exact hrv hc'
  · obtain ⟨hi'mem, _⟩ := mem_registry_expired.1 hi'
    exact hreg (mem_dictKeys.2 ⟨i', hi'mem⟩)

theorem stored_value_of_token_eq {st : AuthState} {info stalest : SessionInfo}
    (hWF : WF st) (hmem : stalest ∈ (dictSet info.token info st.registry).map Prod.snd)
    (htok : stalest.token = info.token) : stalest = info := by
  obtain ⟨p, hp, hps⟩ := List.mem_map.1 hmem
  have htm : TokensMatch (dictSet info.token info st.registry) :=
    tokensMatch_dictSet hWF.2.2 rfl
  have hp1 : p.1 = info.token := by
    rw [← htm p hp, hps, htok]
  have hnd := dictKeys_nodup_dictSet info.token info hWF.1
  have h1 : dictGet p.1 (dictSet info.token info st.registry) = some p.2 :=
    dictGet_of_mem_nodup hnd hp
  rw [hp1, dictGet_dictSet_self] at h1
  injection h1 with h1
  rw [← hps, ← h1]

/-- After `_store_session_locked(info, now)` with a fresh token absent from
the revocation cache, the token is never left in the revocation cache,
provided `info.expires_at ≤ now` (so even a self-eviction records nothing). -/
theorem store_revoked_get_none {idle : Int} {cap : Nat} {now : Int} {info : SessionInfo}
    {st : AuthState} (hWF : WF st) (hrv : dictGet info.token st.revoked = none)
    (hexp : info.expires_at ≤ now) :
    dictGet info.token (store_session_locked idle cap now info st).revoked = none := by
  by_cases hlen : (dictSet info.token info st.registry).length ≤ cap
  · rw [store_session_eq_of_le idle cap now info st hlen]
    exact dictGet_dictPop_self _ _
  · obtain ⟨stalest, _, hmem, _, heq⟩ := store_session_eq_of_gt idle cap now info st (by omega)
    rw [heq]
    by_cases hst : stalest.token = info.token
    · obtain rfl := stored_value_of_token_eq hWF hmem hst
      rw [remember_of_le (by simpa using hexp)]
      exact dictGet_dictPop_self _ _
    · rw [dictGet_remember_ne (fun hc => hst hc.symm)]
      exact dictGet_dictPop_self _ _

/-- `validate_and_touch_session` on a token absent from the registry, with a
stale `expires_at` hint: the lazily created entry is purged in the same call
and no revocation survives. -/
theorem stage2_lazy_dead {idle : Int} {cap : Nat} {now : Int} {token user_id : String}
    {h : Int} {st : AuthState} (hWF : WF st)
    (hreg : dictGet token st.registry = none) (hrv : dictGet token st.revoked = none)
    (hh : h ≤ now) :
    (validate_stage2 idle cap now token user_id (some h) st).2 = some .expired ∧
    dictGet token (validate_stage2 idle cap now token user_id (some h) st).1.registry = none ∧
    dictGet token (validate_stage2 idle cap now token user_id (some h) st).1.revoked = none := by
  have hrun : validate_stage2 idle cap now token user_id (some h) st =
      validate_stage3 idle now token ⟨user_id, token, h, now⟩
        (store_session_locked idle cap now ⟨user_id, token, h, now⟩ st) := by
    unfold validate_stage2
    rw [hreg]
  rw [hrun]
  have hdead : now ≥ (⟨user_id, token, h, now⟩ : SessionInfo).expires_at ∨
      now ≥ idle_deadline idle ⟨user_id, token, h, now⟩ := Or.inl hh
  unfold validate_stage3
  rw [if_pos hdead]
  refine ⟨rfl, dictGet_dictPop_self _ _, ?_⟩
  rw [remember_of_le (by simpa using hh)]
  exact store_revoked_get_none hWF hrv
    (show (⟨user_id, token, h, now⟩ : SessionInfo).expires_at ≤ now from hh)

theorem validate_eq_stage2_of_rv_none {idle : Int} {cap : Nat} {now : Int}
    {token user_id : String} {eo : Option Int} {st : AuthState}
    (hrv : dictGet token (prune_both idle now st).revoked = none) :
    validate_and_touch_session idle cap now token user_id eo st =
      validate_stage2 idle cap now token user_id eo (prune_both idle now st) := by
  unfold validate_and_touch_session
  dsimp only
  rw [hrv]

theorem validate_eq_inactive_of_rv_future {idle : Int} {cap : Nat} {now : Int}
    {token user_id : String} {eo : Option Int} {st : AuthState} {rexp : Int}
    (hrv : dictGet token (prune_both idle now st).revoked = some rexp) (hgt : rexp > now) :
    validate_and_touch_session idle cap now token user_id eo st =
      (prune_both idle now st, some .inactive) := by
  unfold validate_and_touch_session
  dsimp only
  rw [hrv]
  simp only [if_pos hgt]

theorem stage2_success {idle : Int} {cap : Nat} {now : Int} {token user_id : String}
    {eo : Option Int} {st : AuthState} {info : SessionInfo}
    (hg : dictGet token st.registry = some info) (hu : info.user_id = user_id)
    (halive : ¬session_dead idle now info) :
    validate_stage2 idle cap now token user_id eo st =
      ({ st with registry := dictUpdate token { info with last_seen := now } st.registry },
        none) := by
  unfold validate_stage2
  rw [hg]
  dsimp only
  rw [if_neg (by simp [hu])]
  unfold validate_stage3
  rw [if_neg (show ¬(now ≥ info.expires_at ∨ now ≥ idle_deadline idle info) from halive)]

theorem stage2_mismatch {idle : Int} {cap : Nat} {now : Int} {token user_id : String}
    {eo : Option Int} {st : AuthState} {info : SessionInfo}
    (hg : dictGet token st.registry = some info) (hu : info.user_id ≠ user_id) :
    validate_stage2 idle cap now token user_id eo st = (st, some .inactive) := by
  unfold validate_stage2
  rw [hg]
  dsimp only
  rw [if_pos hu]

theorem stage2_absent_no_hint {idle : Int} {cap : Nat} {now : Int} {token user_id : String}
    {st : AuthState} (hg : dictGet token st.registry = none) :
    validate_stage2 idle cap now token user_id none st = (st, some .inactive) := by
  unfold validate_stage2
  rw [hg]

/-- Successful validation: live entry, matching subject.  The call returns no
error and advances the entry's `last_seen` to `now`. -/
theorem validate_success {idle : Int} {cap : Nat} {now : Int} {token user_id : String}
    {eo : Option Int} {st : AuthState} {info : SessionInfo}
    (hWF : WF st) (hDisj : Disj st)
    (hg : dictGet token st.registry = some info) (hu : info.user_id = user_id)
    (habs : now < info.expires_at) (hidle : now < idle_deadline idle info) :
    (validate_and_touch_session idle cap now token user_id eo st).2 = none ∧
    dictGet token (validate_and_touch_session idle cap now token user_id eo st).1.registry
      = some { info with last_seen := now } := by
  have halive : ¬session_dead idle now info := by
    unfold session_dead
    omega
  have hrv := prune_both_revoked_get_of_inhabitant hWF hDisj hg halive
  rw [validate_eq_stage2_of_rv_none hrv]
  have hg2 := prune_both_registry_get_live hWF.1 hg halive
  rw [stage2_success hg2 hu halive]
  refine ⟨rfl, ?_⟩
  exact dictGet_dictUpdate_self token _ (mem_dictKeys.2 ⟨info, dictGet_mem hg2⟩)

/-- Idle-expired entry (absolute expiry still in the future): the opening
prune removes the entry and records a revocation with horizon `expires_at`,
and the revocation check then fails the call with `inactive`. -/
theorem validate_idle_dead {idle : Int} {cap : Nat} {now : Int} {token user_id : String}
    {eo : Option Int} {st : AuthState} {info : SessionInfo}
    (hWF : WF st)
    (hg : dictGet token st.registry = some info) (hidle : now ≥ idle_deadline idle info)
    (habs : now < info.expires_at) :
    (validate_and_touch_session idle cap now token user_id eo st).2 = some .inactive ∧
    dictGet token (validate_and_touch_session idle cap now token user_id eo st).1.registry
      = none ∧
    dictGet token (validate_and_touch_session idle cap now token user_id eo st).1.revoked
      = some info.expires_at := by
  have hdead : session_dead idle now info := Or.inr hidle
  have hrv := prune_both_revoked_get_idle_dead hWF hg hdead habs
  rw [validate_eq_inactive_of_rv_future hrv (by omega)]
  exact ⟨rfl, prune_both_registry_get_dead hWF.1 hg hdead, hrv⟩

/-- Absolutely-expired entry, no expiry hint: the opening prune removes the
entry, records nothing (the horizon is already past), and the call fails
with `inactive`. -/
theorem validate_abs_dead_no_hint {idle : Int} {cap : Nat} {now : Int}
    {token user_id : String} {st : AuthState} {info : SessionInfo}
    (hWF : WF st) (hDisj : Disj st)
    (hg : dictGet token st.registry = some info) (habs : now ≥ info.expires_at) :
    (validate_and_touch_session idle cap now token user_id none st).2 = some .inactive ∧
    dictGet token (validate_and_touch_session idle cap now token user_id none st).1.registry
      = none ∧
    dictGet token (validate_and_touch_session idle cap now token user_id none st).1.revoked
      = none := by
  have hdead : session_dead idle now info := Or.inl habs
  have hrv : dictGet token (prune_both idle now st).revoked = none :=
    prune_both_revoked_get_abs_dead hWF hDisj hg habs
  rw [validate_eq_stage2_of_rv_none hrv]
  have hg2 : dictGet token (prune_both idle now st).registry = none :=
    prune_both_registry_get_dead hWF.1 hg hdead
  rw [stage2_absent_no_hint hg2]
  exact ⟨rfl, hg2, hrv⟩

/-- Absolutely-expired entry with a stale hint `h ≤ now`: the lazily
re-created entry is purged in the same call with `expired`, leaving the
token in neither structure. -/
theorem validate_abs_dead_hint {idle : Int} {cap : Nat} {now : Int}
    {token user_id : String} {st : AuthState} {info : SessionInfo} {h : Int}
    (hWF : WF st) (hDisj : Disj st)
    (hg : dictGet token st.registry = some info) (habs : now ≥ info.expires_at)
    (hh : h ≤ now) :
    (validate_and_touch_session idle cap now token user_id (some h) st).2 = some .expired ∧
    dictGet token
      (validate_and_touch_session idle cap now token user_id (some h) st).1.registry
      = none ∧
    dictGet token
      (validate_and_touch_session idle cap now token user_id (some h) st).1.revoked
      = none := by
  have hdead : session_dead idle now info := Or.inl habs
  have hrv : dictGet token (prune_both idle now st).revoked = none :=
    prune_both_revoked_get_abs_dead hWF hDisj hg habs
  rw [validate_eq_stage2_of_rv_none hrv]
  have hg2 : dictGet token (prune_both idle now st).registry = none :=
    prune_both_registry_get_dead hWF.1 hg hdead
  exact stage2_lazy_dead (WF_prune_both hWF) hg2 hrv hh

/-- A token absent from both structures, validated with a stale hint
`h ≤ now`: claim C10's scenario. -/
theorem validate_absent_stale_hint {idle : Int} {cap : Nat} {now : Int}
    {token user_id : String} {st : AuthState} {h : Int}
    (hWF : WF st) (hreg : token ∉ dictKeys st.registry) (hrv : token ∉ dictKeys st.revoked)
    (hh : h ≤ now) :
    (validate_and_touch_session idle cap now token user_id (some h) st).2 = some .expired ∧
    dictGet token
      (validate_and_touch_session idle cap now token user_id (some h) st).1.registry
      = none ∧
    dictGet token
      (validate_and_touch_session idle cap now token user_id (some h) st).1.revoked
      = none := by
  have hrv2 : dictGet token (prune_both idle now st).revoked = none :=
    prune_both_revoked_get_absent hreg hrv
  rw [validate_eq_stage2_of_rv_none hrv2]
  have hg2 : dictGet token (prune_both idle now st).registry = none :=
    prune_both_registry_get_none hWF.1 ((dictGet_eq_none_iff _ _).2 hreg)
  exact stage2_lazy_dead (WF_prune_both hWF) hg2 hrv2 hh

theorem prune_both_revoked_get_of_unregistered {idle now : Int} {st : AuthState}
    {token : String} (hWF : WF st) (hnotreg : token ∉ dictKeys st.registry) :
    dictGet token (prune_both idle now st).revoked =
      match dictGet token st.revoked with
      | some e => if now ≥ e then none else some e
      | none => none := by
  rw [prune_both_revoked]
  have hnotexp : token ∉ dictKeys (registry_expired idle now st.registry) := by
    intro hc
    obtain ⟨i, hi⟩ := mem_dictKeys.1 hc
    exact hnotreg (mem_dictKeys.2 ⟨i, (mem_registry_expired.1 hi).1⟩)
  rw [dictGet_prune_revoked (dictKeys_nodup_remember_all _ hWF.2.1),
    dictGet_remember_all_of_not_mem hnotexp]

/-- A token with a live revocation record and no registry entry: validation
fails with `inactive` (the registry state is returned post-prune). -/
theorem validate_revoked_future {idle : Int} {cap : Nat} {now : Int}
    {token user_id : String} {eo : Option Int} {st : AuthState} {e : Int}
    (hWF : WF st) (hnotreg : token ∉ dictKeys st.registry)
    (hrv : dictGet token st.revoked = some e) (he : e > now) :
    (validate_and_touch_session idle cap now token user_id eo st).2 = some .inactive := by
  have hrv2 : dictGet token (prune_both idle now st).revoked = some e := by
    rw [prune_both_revoked_get_of_unregistered hWF hnotreg, hrv]
    exact if_neg (by omega)
  rw [validate_eq_inactive_of_rv_future hrv2 he]

/-- `revoke_session_by_token` on a registered session whose expiry is still
in the future: the entry is removed and a revocation with its known horizon
is recorded. -/
theorem revoke_known_future {idle now : Int} {decoded_exp : Option Int} {token : String}
    {st : AuthState} {info : SessionInfo}
    (hg : dictGet token st.registry = some info) (hfut : now < info.expires_at) :
    dictGet token (revoke_session_by_token idle now decoded_exp token st).registry = none ∧
    dictGet token (revoke_session_by_token idle now decoded_exp token st).revoked
      = some info.expires_at ∧
    dictGet token (revoke_session_by_token idle now decoded_exp token st).portal = none := by
  have hrun : revoke_session_by_token idle now decoded_exp token st =
      ⟨dictPop token st.registry,
        remember_revoked_locked idle (prune_revoked_locked now st.revoked) token
          (some info.expires_at) now,
        dictPop token st.portal⟩ := by
    unfold revoke_session_by_token
    rw [hg]
    dsimp only
    rw [if_neg (by omega)]
  rw [hrun]
  refine ⟨dictGet_dictPop_self _ _, ?_, dictGet_dictPop_self _ _⟩
  rw [remember_of_gt (by simpa using hfut)]
  simpa using dictGet_dictSet_self token info.expires_at _

/-- `revoke_session_by_token` on a token with no registry entry whose
defensive decode recovers a future `exp` claim: that horizon is recorded. -/
theorem revoke_unknown_decoded {idle now : Int} {e : Int} {token : String}
    {st : AuthState} (hg : dictGet token st.registry = none) (he : now < e) :
    dictGet token (revoke_session_by_token idle now (some e) token st).registry = none ∧
    dictGet token (revoke_session_by_token idle now (some e) token st).revoked = some e := by
  have hrun : revoke_session_by_token idle now (some e) token st =
      ⟨dictPop token st.registry,
        remember_revoked_locked idle (prune_revoked_locked now st.revoked) token
          (some e) now,
        dictPop token st.portal⟩ := by
    unfold revoke_session_by_token
    rw [hg]
    dsimp only
    rw [if_neg (by omega)]
  rw [hrun]
  refine ⟨dictGet_dictPop_self _ _, ?_⟩
  rw [remember_of_gt (by simpa using he)]
  simpa using dictGet_dictSet_self token e _

/-- `revoke_session_by_token` on a token with no registry entry and an
undecodable token: the default horizon `now + idle` is recorded. -/
theorem revoke_unknown_undecodable {idle now : Int} {token : String}
    {st : AuthState} (hg : dictGet token st.registry = none) (hidle : 0 < idle) :
    dictGet token (revoke_session_by_token idle now none token st).registry = none ∧
    dictGet token (revoke_session_by_token idle now none token st).revoked
      = some (now + idle) := by
  have hrun : revoke_session_by_token idle now none token st =
      ⟨dictPop token st.registry,
        remember_revoked_locked idle (prune_revoked_locked now st.revoked) token none now,
        dictPop token st.portal⟩ := by
    unfold revoke_session_by_token
    rw [hg]
  rw [hrun]
  refine ⟨dictGet_dictPop_self _ _, ?_⟩
  rw [remember_of_gt (by simp; omega)]
  simpa using dictGet_dictSet_self token (now + idle) _

theorem dictSet_of_absent {α : Type} {k : String} (v : α) {m : List (String × α)}
    (h : dictGet k m = none) : dictSet k v m = m ++ [(k, v)] := by
  unfold dictSet
  rw [if_neg (by rw [h]; simp)]

theorem dictPop_of_not_mem {α : Type} {k : String} {m : List (String × α)}
    (h : k ∉ dictKeys m) : dictPop k m = m := by
  induction m with
  | nil => rw [dictPop]
  | cons q r ihr =>
    rw [dictKeys, List.map_cons] at h
    rw [dictPop, if_neg (fun hc => h (List.mem_cons.2 (Or.inl hc.symm)))]
    rw [ihr (fun hc => h (List.mem_cons_of_mem _ hc))]

theorem dictPop_length_of_nodup {α : Type} {k : String} {m : List (String × α)}
    (hnd : (dictKeys m).Nodup) (h : k ∈ dictKeys m) :
    (dictPop k m).length + 1 = m.length := by
  induction m with
  | nil => simp [dictKeys] at h
  | cons p rest ih =>
    rw [dictKeys, List.map_cons, List.nodup_cons] at hnd
    by_cases hp : p.1 = k
    · rw [dictPop, if_pos hp, List.length_cons]
      rw [dictPop_of_not_mem (hp ▸ hnd.1)]
    · have hk : k ∈ dictKeys rest := by
        rcases List.mem_cons.1 h with h1 | h1
        · exact absurd h1.symm hp
        · exact h1
      rw [dictPop, if_neg hp, List.length_cons, List.length_cons, ← ih hnd.2 hk]

theorem store_length_le {idle : Int} {cap : Nat} {now : Int} {info : SessionInfo}
    {st : AuthState} (hWF : WF st) (hlen : st.registry.length ≤ cap) :
    (store_session_locked idle cap now info st).registry.length ≤ cap := by
  by_cases h : (dictSet info.token info st.registry).length ≤ cap
  · rw [store_session_eq_of_le idle cap now info st h]
    exact h
  · obtain ⟨stalest, _, hmem, _, heq⟩ := store_session_eq_of_gt idle cap now info st (by omega)
    rw [heq]
    show (dictPop stalest.token (dictSet info.token info st.registry)).length ≤ cap
    have hkey : stalest.token ∈ dictKeys (dictSet info.token info st.registry) := by
      obtain ⟨p, hp, hps⟩ := List.mem_map.1 hmem
      have ht : p.2.token = p.1 := tokensMatch_dictSet hWF.2.2 rfl p hp
      have hst : stalest.token = p.1 := by rw [← hps, ht]
      rw [hst]
      exact mem_dictKeys.2 ⟨p.2, hp⟩
    have hnd := dictKeys_nodup_dictSet info.token info hWF.1
    have hlt := dictPop_length_of_nodup hnd hkey
    have hsetlen := dictSet_length_le info.token info st.registry
    omega

theorem stage3_length_le {idle now : Int} {token : String} {info : SessionInfo}
    {st : AuthState} :
    (validate_stage3 idle now token info st).1.registry.length ≤ st.registry.length := by
  unfold validate_stage3
  split
  · exact dictPop_length_le _ _
  · rw [dictUpdate_length]

theorem stage2_length_le {idle : Int} {cap : Nat} {now : Int} {token user_id : String}
    {eo : Option Int} {st : AuthState} (hWF : WF st) (hlen : st.registry.length ≤ cap) :
    (validate_stage2 idle cap now token user_id eo st).1.registry.length ≤ cap := by
  unfold validate_stage2
  split
  · split
    · exact hlen
    · exact le_trans stage3_length_le (store_length_le hWF hlen)
  · split
    · exact hlen
    · exact le_trans stage3_length_le hlen

theorem prune_both_length_le {idle now : Int} {st : AuthState} :
    (prune_both idle now st).registry.length ≤ st.registry.length := by
  rw [prune_both_registry]
  exact (registry_keep_sublist idle now st.registry).length_le

theorem validate_length_le {idle : Int} {cap : Nat} {now : Int} {token user_id : String}
    {eo : Option Int} {st : AuthState} (hWF : WF st) (hlen : st.registry.length ≤ cap) :
    (validate_and_touch_session idle cap now token user_id eo st).1.registry.length ≤ cap := by
  have h2 : (prune_both idle now st).registry.length ≤ cap :=
    le_trans prune_both_length_le hlen
  unfold validate_and_touch_session
  dsimp only
  split
  · split
    · exact h2
    · exact stage2_length_le (WF_pop_revoked token (WF_prune_both hWF)) h2
  · exact stage2_length_le (WF_prune_both hWF) h2

theorem register_length_le {idle : Int} {cap : Nat} {now : Int} {user_id token : String}
    {expires_at : Int} {st : AuthState} (hWF : WF st) (hlen : st.registry.length ≤ cap) :
    (register_session idle cap now user_id token expires_at st).registry.length ≤ cap :=
  store_length_le (WF_prune_both hWF) (le_trans prune_both_length_le hlen)

theorem revoke_by_token_length_le {idle now : Int} {decoded_exp : Option Int}
    {token : String} {st : AuthState} (hlen : st.registry.length ≤ cap) :
    (revoke_session_by_token idle now decoded_exp token st).registry.length ≤ cap := by
  unfold revoke_session_by_token
  dsimp only
  have := dictPop_length_le token st.registry
  split
  · split
    · simpa using by omega
    · simpa using by omega
  · simpa using by omega

theorem revoke_user_loop_length_le {idle now : Int} (l : List (String × SessionInfo))
    {st : AuthState} (hlen : st.registry.length ≤ cap) :
    (revoke_user_loop idle now l st).registry.length ≤ cap := by
  induction l generalizing st with
  | nil => exact hlen
  | cons p rest ih =>
    rw [revoke_user_loop]
    refine ih ?_
    have := dictPop_length_le p.1 st.registry
    simpa using by omega

theorem revoke_user_length_le {idle now : Int} {user_id : String} {st : AuthState}
    (hlen : st.registry.length ≤ cap) :
    (revoke_user_sessions idle now user_id st).registry.length ≤ cap :=
  revoke_user_loop_length_le _ hlen

/-- Eviction characterization for `_store_session_locked`: inserting a fresh
token into a registry already at capacity (all entries unexpired and no
fresher than the new entry, as after the opening prune) evicts exactly one
entry, one with minimal `last_seen`, never the just-inserted one, records
its token and horizon in the revocation cache, and restores the size to the
capacity bound. -/
theorem store_evicts {idle : Int} {cap : Nat} {now : Int} {info : SessionInfo}
    {st : AuthState} (hWF : WF st)
    (hfresh : dictGet info.token st.registry = none)
    (hlen : st.registry.length = cap) (hcap : 0 < cap)
    (hmono : ∀ p ∈ st.registry, p.2.last_seen ≤ info.last_seen)
    (halive : ∀ p ∈ st.registry, now < p.2.expires_at) :
    ∃ victim : SessionInfo,
      (victim.token, victim) ∈ st.registry ∧
      (∀ p ∈ st.registry, victim.last_seen ≤ p.2.last_seen) ∧
      victim.token ≠ info.token ∧
      dictGet victim.token (store_session_locked idle cap now info st).registry = none ∧
      dictGet info.token (store_session_locked idle cap now info st).registry = some info ∧
      (∀ t, t ≠ victim.token → t ≠ info.token →
        dictGet t (store_session_locked idle cap now info st).registry
          = dictGet t st.registry) ∧
      dictGet victim.token (store_session_locked idle cap now info st).revoked
        = some victim.expires_at ∧
      (store_session_locked idle cap now info st).registry.length = cap := by
  have hset : dictSet info.token info st.registry = st.registry ++ [(info.token, info)] :=
    dictSet_of_absent info hfresh
  have hsetlen : (dictSet info.token info st.registry).length = cap + 1 := by
    rw [hset, List.length_append, List.length_singleton, hlen]
  obtain ⟨stalest, hmin, hmem, hminle, heq⟩ :=
    store_session_eq_of_gt idle cap now info st (by omega)
  have hvalues : (dictSet info.token info st.registry).map Prod.snd
      = st.registry.map Prod.snd ++ [info] := by
    rw [hset, List.map_append, List.map_cons, List.map_nil]
  have holdne : st.registry.map Prod.snd ≠ [] := by
    intro hc
    have := congrArg List.length hc
    rw [List.length_map] at this
    simp only [List.length_nil] at this
    omega
  obtain ⟨m, hm, hmmem, hmle⟩ := min_by_last_seen_some holdne
  have hmle_info : m.last_seen ≤ info.last_seen := by
    obtain ⟨p, hp, hps⟩ := List.mem_map.1 hmmem
    rw [← hps]
    exact hmono p hp
  have hmin2 : min_by_last_seen ((dictSet info.token info st.registry).map Prod.snd)
      = some m := by
    rw [hvalues]
    exact min_by_last_seen_append_singleton hm hmle_info
  rw [hmin2] at hmin
  obtain rfl : stalest = m := by injection hmin with hmin; exact hmin.symm
  obtain ⟨p, hp, hps⟩ := List.mem_map.1 hmmem
  have hptok : p.2.token = p.1 := hWF.2.2 p hp
  have hpair : (stalest.token, stalest) ∈ st.registry := by
    have h1 : stalest.token = p.1 := by rw [← hps, hptok]
    have h2 : (stalest.token, stalest) = p := by
      rw [h1, ← hps]
    rw [h2]
    exact hp
  have hmtok_ne : stalest.token ≠ info.token := by
    intro hc
    have : info.token ∈ dictKeys st.registry := hc ▸ mem_dictKeys.2 ⟨stalest, hpair⟩
    rw [dictGet_eq_none_iff] at hfresh
    exact hfresh this
  refine ⟨stalest, hpair, ?_, hmtok_ne, ?_, ?_, ?_, ?_, ?_⟩
  · intro q hq
    exact hmle q.2 (List.mem_map.2 ⟨q, hq, rfl⟩)
  · rw [heq]
    exact dictGet_dictPop_self _ _
  · rw [heq]
    show dictGet info.token (dictPop stalest.token (dictSet info.token info st.registry)) = _
    rw [dictGet_dictPop_ne (fun hc => hmtok_ne hc.symm), dictGet_dictSet_self]
  · intro t ht1 ht2
    rw [heq]
    show dictGet t (dictPop stalest.token (dictSet info.token info st.registry)) = _
    rw [dictGet_dictPop_ne ht1, dictGet_dictSet_ne ht2]
  · rw [heq]
    show dictGet stalest.token (remember_revoked_locked idle (dictPop info.token st.revoked)
      stalest.token (some stalest.expires_at) now) = _
    have hgt : now < stalest.expires_at := halive _ hpair
    rw [remember_of_gt (by simpa using hgt)]
    simpa using dictGet_dictSet_self stalest.token stalest.expires_at _
  · rw [heq]
    show (dictPop stalest.token (dictSet info.token info st.registry)).length = cap
    have hkey : stalest.token ∈ dictKeys (dictSet info.token info st.registry) := by
      rw [hset, dictKeys, List.map_append]
      exact List.mem_append.2 (Or.inl (mem_dictKeys.2 ⟨stalest, hpair⟩))
    have hnd := dictKeys_nodup_dictSet info.token info hWF.1
    have := dictPop_length_of_nodup hnd hkey
    omega

theorem mem_dictPop_iff {α : Type} {p : String × α} {k : String} {m : List (String × α)} :
    p ∈ dictPop k m ↔ p ∈ m ∧ p.1 ≠ k := by
  induction m with
  | nil => simp [dictPop]
  | cons q rest ih =>
    by_cases hq : q.1 = k
    · rw [dictPop, if_pos hq, ih]
      constructor
      · rintro ⟨h1, h2⟩
        exact ⟨List.mem_cons_of_mem _ h1, h2⟩
      · rintro ⟨h1, h2⟩
        rcases List.mem_cons.1 h1 with rfl | h1
        · exact absurd hq h2
        · exact ⟨h1, h2⟩
    · rw [dictPop, if_neg hq]
      constructor
      · intro hmem
        rcases List.mem_cons.1 hmem with rfl | hmem
        · exact ⟨List.mem_cons_self _ _, hq⟩
        · obtain ⟨h1, h2⟩ := ih.1 hmem
          exact ⟨List.mem_cons_of_mem _ h1, h2⟩
      · rintro ⟨h1, h2⟩
        rcases List.mem_cons.1 h1 with rfl | h1
        · exact List.mem_cons_self _ _
        · exact List.mem_cons_of_mem _ (ih.2 ⟨h1, h2⟩)

theorem mem_dictSet {α : Type} {p : String × α} {k : String} {v : α} {m : List (String × α)}
    (h : p ∈ dictSet k v m) : p = (k, v) ∨ p ∈ m := by
  unfold dictSet at h
  by_cases hs : (dictGet k m).isSome = true
  · rw [if_pos hs] at h
    exact mem_dictUpdate h
  · rw [if_neg hs] at h
    rcases List.mem_append.1 h with h | h
    · exact Or.inr h
    · exact Or.inl (List.mem_singleton.1 h)

theorem lastSeenLE_store {idle : Int} {cap : Nat} {now : Int} {info : SessionInfo}
    {st : AuthState} (h : LastSeenLE st) (hinfo : info.last_seen ≤ info.expires_at) :
    LastSeenLE (store_session_locked idle cap now info st) := by
  have hset : ∀ p ∈ dictSet info.token info st.registry, p.2.last_seen ≤ p.2.expires_at := by
    intro p hp
    rcases mem_dictSet hp with rfl | hp
    · exact hinfo
    · exact h p hp
  by_cases hlen : (dictSet info.token info st.registry).length ≤ cap
  · rw [store_session_eq_of_le idle cap now info st hlen]
    exact hset
  · obtain ⟨stalest, _, _, _, heq⟩ := store_session_eq_of_gt idle cap now info st (by omega)
    rw [heq]
    intro p hp
    exact hset p (mem_dictPop_iff.1 hp).1

theorem lastSeenLE_stage3 {idle now : Int} {token : String} {info : SessionInfo}
    {st : AuthState} (h : LastSeenLE st)
    (htouch : ¬session_dead idle now info → now ≤ info.expires_at) :
    LastSeenLE (validate_stage3 idle now token info st).1 := by
  unfold validate_stage3
  by_cases hd : now ≥ info.expires_at ∨ now ≥ idle_deadline idle info
  · rw [if_pos hd]
    intro p hp
    exact h p (mem_dictPop_iff.1 hp).1
  · rw [if_neg hd]
    intro p hp
    rcases mem_dictUpdate hp with rfl | hp
    · exact htouch hd
    · exact h p hp

theorem mem_store_registry {idle : Int} {cap : Nat} {now : Int} {info : SessionInfo}
    {st : AuthState} {q : String × SessionInfo}
    (hq : q ∈ (store_session_locked idle cap now info st).registry) :
    q = (info.token, info) ∨ q ∈ st.registry := by
  by_cases hlen : (dictSet info.token info st.registry).length ≤ cap
  · rw [store_session_eq_of_le idle cap now info st hlen] at hq
    exact mem_dictSet hq
  · obtain ⟨stalest, _, _, _, heq⟩ := store_session_eq_of_gt idle cap now info st (by omega)
    rw [heq] at hq
    exact mem_dictSet (mem_dictPop_iff.1 hq).1

theorem lastSeenLE_stage2 {idle : Int} {cap : Nat} {now : Int} {token user_id : String}
    {eo : Option Int} {st : AuthState} (h : LastSeenLE st) :
    LastSeenLE (validate_stage2 idle cap now token user_id eo st).1 := by
  cases hg : dictGet token st.registry with
  | none =>
    cases eo with
    | none =>
      rw [stage2_absent_no_hint hg]
      exact h
    | some e =>
      have hrun : validate_stage2 idle cap now token user_id (some e) st =
          validate_stage3 idle now token ⟨user_id, token, e, now⟩
            (store_session_locked idle cap now ⟨user_id, token, e, now⟩ st) := by
        unfold validate_stage2
        rw [hg]
      rw [hrun]
      by_cases hd : session_dead idle now (⟨user_id, token, e, now⟩ : SessionInfo)
      · unfold validate_stage3
        rw [if_pos (show now ≥ (⟨user_id, token, e, now⟩ : SessionInfo).expires_at ∨
          now ≥ idle_deadline idle ⟨user_id, token, e, now⟩ from hd)]
        intro p hp
        obtain ⟨hp, hpne⟩ := mem_dictPop_iff.1 hp
        rcases mem_store_registry hp with rfl | hp
        · exact absurd rfl hpne
        · exact h p hp
      · have he : now ≤ e := by
          unfold session_dead idle_deadline at hd
          push_neg at hd
          exact le_of_lt hd.1
        exact lastSeenLE_stage3 (lastSeenLE_store h he) (fun _ => he)
  | some info =>
    by_cases hu : info.user_id ≠ user_id
    · rw [stage2_mismatch hg hu]
      exact h
    · have hrun : validate_stage2 idle cap now token user_id eo st =
          validate_stage3 idle now token info st := by
        unfold validate_stage2
        rw [hg]
        dsimp only
        rw [if_neg hu]
      rw [hrun]
      refine lastSeenLE_stage3 h ?_
      intro halive
      unfold session_dead idle_deadline at halive
      push_neg at halive
      exact le_of_lt halive.1

theorem lastSeenLE_prune_both {idle now : Int} {st : AuthState} (h : LastSeenLE st) :
    LastSeenLE (prune_both idle now st) := by
  intro p hp
  rw [prune_both_registry] at hp
  exact h p (mem_registry_keep.1 hp).1

theorem lastSeenLE_validate {idle : Int} {cap : Nat} {now : Int} {token user_id : String}
    {eo : Option Int} {st : AuthState} (h : LastSeenLE st) :
    LastSeenLE (validate_and_touch_session idle cap now token user_id eo st).1 := by
  unfold validate_and_touch_session
  dsimp only
  split
  · split
    · exact lastSeenLE_prune_both h
    · exact lastSeenLE_stage2 (lastSeenLE_prune_both h)
  · exact lastSeenLE_stage2 (lastSeenLE_prune_both h)

theorem lastSeenLE_register {idle : Int} {cap : Nat} {now : Int} {user_id token : String}
    {expires_at : Int} {st : AuthState} (h : LastSeenLE st) (hexp : now ≤ expires_at) :
    LastSeenLE (register_session idle cap now user_id token expires_at st) :=
  lastSeenLE_store (lastSeenLE_prune_both h) hexp

theorem lastSeenLE_revoke_by_token {idle now : Int} {decoded_exp : Option Int}
    {token : String} {st : AuthState} (h : LastSeenLE st) :
    LastSeenLE (revoke_session_by_token idle now decoded_exp token st) := by
  unfold revoke_session_by_token
  dsimp only
  have hpop : ∀ p ∈ dictPop token st.registry, p.2.last_seen ≤ p.2.expires_at :=
    fun p hp => h p (mem_dictPop_iff.1 hp).1
  split
  · split
    · exact hpop
    · exact hpop
  · exact hpop

theorem lastSeenLE_revoke_user_loop {idle now : Int} (l : List (String × SessionInfo))
    {st : AuthState} (h : LastSeenLE st) : LastSeenLE (revoke_user_loop idle now l st) := by
  induction l generalizing st with
  | nil => exact h
  | cons p rest ih =>
    rw [revoke_user_loop]
    exact ih (fun q hq => h q (mem_dictPop_iff.1 hq).1)

theorem lastSeenLE_revoke_user {idle now : Int} {user_id : String} {st : AuthState}
    (h : LastSeenLE st) : LastSeenLE (revoke_user_sessions idle now user_id st) :=
  lastSeenLE_revoke_user_loop _ h

/-- C1 (amended): for a token registered for subject `s` with expiry `e`, a
`validate_and_touch_session` call strictly before both `e` and
`last-seen + idle-timeout` succeeds and advances last-seen to the call time.
Once a deadline has passed the call removes the entry, but the failure mode
depends on which deadline: past the idle deadline only, a revocation with
horizon `e` is recorded and the call fails with `inactive` (detail "Session
is no longer active"), not `expired`; past the absolute expiry no revocation
survives and the call fails with `inactive` when no expiry hint is supplied,
or with `expired` when a stale hint re-creates the entry lazily. -/
theorem C1_validate_touch_lifecycle (idle : Int) (cap : Nat) (now : Int)
    (token user_id : String) (eo : Option Int) (st : AuthState) (info : SessionInfo)
    (hWF : WF st) (hDisj : Disj st)
    (hg : dictGet token st.registry = some info) (hu : info.user_id = user_id) :
    (now < info.expires_at → now < idle_deadline idle info →
      (validate_and_touch_session idle cap now token user_id eo st).2 = none ∧
      dictGet token (validate_and_touch_session idle cap now token user_id eo st).1.registry
        = some { info with last_seen := now }) ∧
    (now ≥ idle_deadline idle info → now < info.expires_at →
      (validate_and_touch_session idle cap now token user_id eo st).2 = some .inactive ∧
      dictGet token (validate_and_touch_session idle cap now token user_id eo st).1.registry
        = none ∧
      dictGet token (validate_and_touch_session idle cap now token user_id eo st).1.revoked
        = some info.expires_at) ∧
    (now ≥ info.expires_at →
      (validate_and_touch_session idle cap now token user_id none st).2 = some .inactive ∧
      dictGet token
        (validate_and_touch_session idle cap now token user_id none st).1.registry = none ∧
      dictGet token
        (validate_and_touch_session idle cap now token user_id none st).1.revoked = none) ∧
    (∀ h' : Int, now ≥ info.expires_at → h' ≤ now →
      (validate_and_touch_session idle cap now token user_id (some h') st).2
        = some .expired ∧
      dictGet token
        (validate_and_touch_session idle cap now token user_id (some h') st).1.registry
        = none ∧
      dictGet token
        (validate_and_touch_session idle cap now token user_id (some h') st).1.revoked
        = none) := by
  refine ⟨?_, ?_, ?_, ?_⟩
  · intro habs hidle
    exact validate_success hWF hDisj hg hu habs hidle
  · intro hidle habs
    exact validate_idle_dead hWF hg hidle habs
  · intro habs
    exact validate_abs_dead_no_hint hWF hDisj hg habs
  · intro h' habs hh
    exact validate_abs_dead_hint hWF hDisj hg habs hh

/-- C1 counterexample: with idle-timeout 5, a session last seen at 0 with
absolute expiry 100, validated at time 7 (idle deadline passed, absolute
expiry not), fails with the `inactive` error ("Session is no longer
active"), not `SessionExpired` as the claim states. -/
theorem C1_counterexample :
    (validate_and_touch_session 5 10 7 "tok" "u" none
      ⟨[("tok", ⟨"u", "tok", 100, 0⟩)], [], []⟩).2 = some SessionError.inactive ∧
    SessionError.inactive ≠ SessionError.expired := by
  exact ⟨by decide, by decide⟩

/-- C1 witness: the amended theorem applied at a concrete state, exercising
the success arm and the idle-expiry arm. -/
theorem C1_witness :
    ((validate_and_touch_session 5 10 3 "tok" "u" none
        ⟨[("tok", ⟨"u", "tok", 100, 0⟩)], [], []⟩).2 = none ∧
      dictGet "tok" (validate_and_touch_session 5 10 3 "tok" "u" none
        ⟨[("tok", ⟨"u", "tok", 100, 0⟩)], [], []⟩).1.registry
        = some ⟨"u", "tok", 100, 3⟩) ∧
    ((validate_and_touch_session 5 10 7 "tok" "u" none
        ⟨[("tok", ⟨"u", "tok", 100, 0⟩)], [], []⟩).2 = some .inactive ∧
      dictGet "tok" (validate_and_touch_session 5 10 7 "tok" "u" none
        ⟨[("tok", ⟨"u", "tok", 100, 0⟩)], [], []⟩).1.registry = none ∧
      dictGet "tok" (validate_and_touch_session 5 10 7 "tok" "u" none
        ⟨[("tok", ⟨"u", "tok", 100, 0⟩)], [], []⟩).1.revoked = some 100) :=
  ⟨(C1_validate_touch_lifecycle 5 10 3 "tok" "u" none
      ⟨[("tok", ⟨"u", "tok", 100, 0⟩)], [], []⟩ ⟨"u", "tok", 100, 0⟩
      (by decide) (by decide) (by decide) (by decide)).1 (by decide) (by decide),
   ((C1_validate_touch_lifecycle 5 10 7 "tok" "u" none
      ⟨[("tok", ⟨"u", "tok", 100, 0⟩)], [], []⟩ ⟨"u", "tok", 100, 0⟩
      (by decide) (by decide) (by decide) (by decide)).2.1 (by decide) (by decide))⟩

/-- C7 (amended): validating a registered token with a mismatched subject id
always fails with `inactive`, for any expiry-hint argument, provided the
entry's absolute expiry has not yet passed at the call time.  (Once the
absolute expiry has passed, the opening prune discards the binding without a
revocation record, and a supplied expiry hint lazily re-creates the session
for the new subject, which can succeed — see the counterexample.) -/
theorem C7_mismatched_subject_fails (idle : Int) (cap : Nat) (now : Int)
    (token user_id : String) (eo : Option Int) (st : AuthState) (info : SessionInfo)
    (hWF : WF st) (hDisj : Disj st)
    (hg : dictGet token st.registry = some info) (hu : info.user_id ≠ user_id)
    (habs : now < info.expires_at) :
    (validate_and_touch_session idle cap now token user_id eo st).2
      = some SessionError.inactive := by
  by_cases hidle : now ≥ idle_deadline idle info
  · exact (validate_idle_dead hWF hg hidle habs).1
  · have halive : ¬session_dead idle now info := by
      unfold session_dead
      omega
    have hrv := prune_both_revoked_get_of_inhabitant hWF hDisj hg halive
    rw [validate_eq_stage2_of_rv_none hrv]
    rw [stage2_mismatch (prune_both_registry_get_live hWF.1 hg halive) hu]

/-- C7 counterexample: the registry binds "tok" to subject "u1" with
absolute expiry 10; at time 10, validating "tok" for the different subject
"u2" with an expiry hint 20 succeeds (returns no error), contradicting the
claim that a mismatched subject always fails. -/
theorem C7_counterexample :
    dictGet "tok" (⟨[("tok", ⟨"u1", "tok", 10, 0⟩)], [], []⟩ : AuthState).registry
      = some ⟨"u1", "tok", 10, 0⟩ ∧
    ("u1" : String) ≠ "u2" ∧
    (validate_and_touch_session 5 10 10 "tok" "u2" (some 20)
      ⟨[("tok", ⟨"u1", "tok", 10, 0⟩)], [], []⟩).2 = none := by
  exact ⟨by decide, by decide, by decide⟩

/-- C7 witness: the amended theorem applied at a concrete state. -/
theorem C7_witness :
    (validate_and_touch_session 5 10 3 "tok" "u2" (some 50)
      ⟨[("tok", ⟨"u1", "tok", 10, 0⟩)], [], []⟩).2 = some SessionError.inactive :=
  C7_mismatched_subject_fails 5 10 3 "tok" "u2" (some 50)
    ⟨[("tok", ⟨"u1", "tok", 10, 0⟩)], [], []⟩ ⟨"u1", "tok", 10, 0⟩
    (by decide) (by decide) (by decide) (by decide) (by decide)

/-- C9 (amended): `last_seen ≤ expires_at` is preserved by every session
operation — by `register_session` provided the supplied `expires_at` is not
already past (`now ≤ expires_at`, the condition the claim's "any supplied
expires_at" wording violates, see the counterexample), and by
`validate_and_touch_session` (for any hint), `revoke_session_by_token` and
`revoke_user_sessions` unconditionally. -/
theorem C9_last_seen_le_expiry (idle : Int) (cap : Nat) (now : Int) (st : AuthState)
    (h : LastSeenLE st) :
    (∀ user_id token expires_at, now ≤ expires_at →
      LastSeenLE (register_session idle cap now user_id token expires_at st)) ∧
    (∀ token user_id eo,
      LastSeenLE (validate_and_touch_session idle cap now token user_id eo st).1) ∧
    (∀ decoded_exp token,
      LastSeenLE (revoke_session_by_token idle now decoded_exp token st)) ∧
    (∀ user_id, LastSeenLE (revoke_user_sessions idle now user_id st)) :=
  ⟨fun _ _ _ hexp => lastSeenLE_register h hexp,
   fun _ _ _ => lastSeenLE_validate h,
   fun _ _ => lastSeenLE_revoke_by_token h,
   fun _ => lastSeenLE_revoke_user h⟩

/-- C9 counterexample: the empty state satisfies the invariant, but
registering a session at time 5 with the already-past expiry 0 leaves an
entry with `last_seen = 5 > 0 = expires_at`, so `register_session` does not
preserve the invariant "for any supplied expires_at". -/
theorem C9_counterexample :
    LastSeenLE AuthState.empty ∧
    ¬ LastSeenLE (register_session 5 10 5 "u" "tok" 0 AuthState.empty) := by
  exact ⟨by decide, by decide⟩

/-- C9 witness: the amended theorem applied at a concrete state. -/
theorem C9_witness :
    LastSeenLE (register_session 5 10 5 "u" "tok" 9 AuthState.empty) :=
  (C9_last_seen_le_expiry 5 10 5 AuthState.empty (by decide)).1 "u" "tok" 9 (by decide)

/-- C10 (confirmed): validating a token absent from both the registry and
the revocation cache, with an expiry hint `h ≤ now`, fails with `expired`
("Session has expired") and leaves the token in neither structure — the
lazily created entry is purged in the same call and the revocation
bookkeeping records nothing because the horizon is already past. -/
theorem C10_stale_hint_leaves_no_trace (idle : Int) (cap : Nat) (now : Int)
    (token user_id : String) (h : Int) (st : AuthState) (hWF : WF st)
    (hreg : token ∉ dictKeys st.registry) (hrv : token ∉ dictKeys st.revoked)
    (hh : h ≤ now) :
    (validate_and_touch_session idle cap now token user_id (some h) st).2
      = some SessionError.expired ∧
    dictGet token
      (validate_and_touch_session idle cap now token user_id (some h) st).1.registry
      = none ∧
    dictGet token
      (validate_and_touch_session idle cap now token user_id (some h) st).1.revoked
      = none :=
  validate_absent_stale_hint hWF hreg hrv hh

/-- C10 witness: the theorem applied at the empty state. -/
theorem C10_witness :
    (validate_and_touch_session 5 10 5 "tok" "u" (some 3) AuthState.empty).2
      = some SessionError.expired ∧
    dictGet "tok"
      (validate_and_touch_session 5 10 5 "tok" "u" (some 3) AuthState.empty).1.registry
      = none ∧
    dictGet "tok"
      (validate_and_touch_session 5 10 5 "tok" "u" (some 3) AuthState.empty).1.revoked
      = none :=
  C10_stale_hint_leaves_no_trace 5 10 5 "tok" "u" 3 AuthState.empty
    (by decide) (by decide) (by decide) (by decide)

/-- C2 (confirmed): every registry operation keeps the Session Registry
within the configured capacity, and an insertion that would exceed the
capacity (`_store_session_locked` on a fresh token with the registry at
capacity, entries unexpired and no fresher than the new entry, as
established by the opening prune) evicts exactly one session — one with
minimal last-seen, never the just-inserted one — removes no other entry,
and records the evicted token with its horizon in the Revocation Cache. -/
theorem C2_capacity_bound_and_eviction (idle : Int) (cap : Nat) (now : Int)
    (st : AuthState) (hWF : WF st) :
    (st.registry.length ≤ cap →
      (∀ user_id token expires_at,
        (register_session idle cap now user_id token expires_at st).registry.length ≤ cap) ∧
      (∀ token user_id eo,
        (validate_and_touch_session idle cap now token user_id eo st).1.registry.length
          ≤ cap) ∧
      (∀ decoded_exp token,
        (revoke_session_by_token idle now decoded_exp token st).registry.length ≤ cap) ∧
      (∀ user_id,
        (revoke_user_sessions idle now user_id st).registry.length ≤ cap)) ∧
    (∀ info : SessionInfo,
      dictGet info.token st.registry = none →
      st.registry.length = cap → 0 < cap →
      (∀ p ∈ st.registry, p.2.last_seen ≤ info.last_seen) →
      (∀ p ∈ st.registry, now < p.2.expires_at) →
      ∃ victim : SessionInfo,
        (victim.token, victim) ∈ st.registry ∧
        (∀ p ∈ st.registry, victim.last_seen ≤ p.2.last_seen) ∧
        victim.token ≠ info.token ∧
        dictGet victim.token (store_session_locked idle cap now info st).registry = none ∧
        dictGet info.token (store_session_locked idle cap now info st).registry
          = some info ∧
        (∀ t, t ≠ victim.token → t ≠ info.token →
          dictGet t (store_session_locked idle cap now info st).registry
            = dictGet t st.registry) ∧
        dictGet victim.token (store_session_locked idle cap now info st).revoked
          = some victim.expires_at ∧
        (store_session_locked idle cap now info st).registry.length = cap) := by
  constructor
  · intro hlen
    exact ⟨fun _ _ _ => register_length_le hWF hlen,
      fun _ _ _ => validate_length_le hWF hlen,
      fun _ _ => revoke_by_token_length_le hlen,
      fun _ => revoke_user_length_le hlen⟩
  · intro info hfresh hlen hcap hmono halive
    exact store_evicts hWF hfresh hlen hcap hmono halive

/-- C2 witness: with capacity 1, storing a fresh token "B" into a registry
holding only "A" evicts "A" (the least-recently-seen entry), records it,
and keeps the size at the capacity. -/
theorem C2_witness :
    ∃ victim : SessionInfo,
      (victim.token, victim) ∈
        (⟨[("A", ⟨"u", "A", 100, 0⟩)], [], []⟩ : AuthState).registry ∧
      (∀ p ∈ (⟨[("A", ⟨"u", "A", 100, 0⟩)], [], []⟩ : AuthState).registry,
        victim.last_seen ≤ p.2.last_seen) ∧
      victim.token ≠ (⟨"u", "B", 100, 1⟩ : SessionInfo).token ∧
      dictGet victim.token (store_session_locked 5 1 1 ⟨"u", "B", 100, 1⟩
        ⟨[("A", ⟨"u", "A", 100, 0⟩)], [], []⟩).registry = none ∧
      dictGet (⟨"u", "B", 100, 1⟩ : SessionInfo).token
        (store_session_locked 5 1 1 ⟨"u", "B", 100, 1⟩
          ⟨[("A", ⟨"u", "A", 100, 0⟩)], [], []⟩).registry = some ⟨"u", "B", 100, 1⟩ ∧
      (∀ t, t ≠ victim.token → t ≠ (⟨"u", "B", 100, 1⟩ : SessionInfo).token →
        dictGet t (store_session_locked 5 1 1 ⟨"u", "B", 100, 1⟩
          ⟨[("A", ⟨"u", "A", 100, 0⟩)], [], []⟩).registry
          = dictGet t (⟨[("A", ⟨"u", "A", 100, 0⟩)], [], []⟩ : AuthState).registry) ∧
      dictGet victim.token (store_session_locked 5 1 1 ⟨"u", "B", 100, 1⟩
        ⟨[("A", ⟨"u", "A", 100, 0⟩)], [], []⟩).revoked = some victim.expires_at ∧
      (store_session_locked 5 1 1 ⟨"u", "B", 100, 1⟩
        ⟨[("A", ⟨"u", "A", 100, 0⟩)], [], []⟩).registry.length = 1 :=
  (C2_capacity_bound_and_eviction 5 1 1 ⟨[("A", ⟨"u", "A", 100, 0⟩)], [], []⟩
    (by decide)).2 ⟨"u", "B", 100, 1⟩ (by decide) (by decide) (by decide)
    (by decide) (by decide)

/-- C3 (confirmed): the mutual exclusion between the Session Registry and
the Revocation Cache — no token is a key of both — is preserved by every
operation of the session subsystem: register, validate-and-touch, prune,
revoke-by-token and revoke-all. -/
theorem C3_registry_revocation_mutual_exclusion (idle : Int) (cap : Nat) (now : Int)
    (st : AuthState) (hWF : WF st) (hDisj : Disj st) :
    (∀ user_id token expires_at,
      Disj (register_session idle cap now user_id token expires_at st)) ∧
    (∀ token user_id eo,
      Disj (validate_and_touch_session idle cap now token user_id eo st).1) ∧
    Disj (prune_sessions_locked idle now st) ∧
    (∀ decoded_exp token, Disj (revoke_session_by_token idle now decoded_exp token st)) ∧
    (∀ user_id, Disj (revoke_user_sessions idle now user_id st)) :=
  ⟨fun _ _ _ => Disj_register hWF hDisj,
   fun _ _ _ => Disj_validate hWF hDisj,
   Disj_prune_sessions hWF hDisj,
   fun _ _ => Disj_revoke_by_token hDisj,
   fun _ => Disj_revoke_user hDisj⟩

/-- C3 witness: the theorem applied at a concrete disjoint state holding one
session and one unrelated revocation. -/
theorem C3_witness :
    Disj (register_session 5 10 1 "u" "C" 100
      ⟨[("A", ⟨"u", "A", 100, 0⟩)], [("B", 50)], []⟩) ∧
    Disj (validate_and_touch_session 5 10 1 "A" "u" none
      ⟨[("A", ⟨"u", "A", 100, 0⟩)], [("B", 50)], []⟩).1 ∧
    Disj (revoke_session_by_token 5 1 none "A"
      ⟨[("A", ⟨"u", "A", 100, 0⟩)], [("B", 50)], []⟩) :=
  ⟨(C3_registry_revocation_mutual_exclusion 5 10 1
      ⟨[("A", ⟨"u", "A", 100, 0⟩)], [("B", 50)], []⟩ (by decide) (by decide)).1 "u" "C" 100,
   (C3_registry_revocation_mutual_exclusion 5 10 1
      ⟨[("A", ⟨"u", "A", 100, 0⟩)], [("B", 50)], []⟩ (by decide) (by decide)).2.1 "A" "u" none,
   (C3_registry_revocation_mutual_exclusion 5 1 1
      ⟨[("A", ⟨"u", "A", 100, 0⟩)], [("B", 50)], []⟩ (by decide) (by decide)).2.2.2.1 none "A"⟩

/-- C4 (confirmed): revoking a token whose natural expiry is still in the
future removes any session entry, records a revocation whose horizon is the
known expiry when the registry held the token, the defensively decoded
`exp` claim when it did not, or `now + idle-timeout` when the token is
undecodable; every immediately subsequent `validate_and_touch_session` of
that token then fails with `inactive`; and a revocation record is removed by
`_prune_revoked_locked` exactly once its recorded horizon elapses. -/
theorem C4_revocation_lifecycle (idle : Int) (cap : Nat) (now : Int) (token : String)
    (st : AuthState) (hWF : WF st) :
    (∀ info : SessionInfo, ∀ decoded_exp : Option Int,
      dictGet token st.registry = some info → now < info.expires_at →
      dictGet token (revoke_session_by_token idle now decoded_exp token st).registry
        = none ∧
      dictGet token (revoke_session_by_token idle now decoded_exp token st).revoked
        = some info.expires_at ∧
      (∀ user_id eo,
        (validate_and_touch_session idle cap now token user_id eo
          (revoke_session_by_token idle now decoded_exp token st)).2
          = some SessionError.inactive)) ∧
    (∀ e : Int, dictGet token st.registry = none → now < e →
      dictGet token (revoke_session_by_token idle now (some e) token st).revoked
        = some e ∧
      (∀ user_id eo,
        (validate_and_touch_session idle cap now token user_id eo
          (revoke_session_by_token idle now (some e) token st)).2
          = some SessionError.inactive)) ∧
    (dictGet token st.registry = none → 0 < idle →
      dictGet token (revoke_session_by_token idle now none token st).revoked
        = some (now + idle) ∧
      (∀ user_id eo,
        (validate_and_touch_session idle cap now token user_id eo
          (revoke_session_by_token idle now none token st)).2
          = some SessionError.inactive)) ∧
    (∀ rv : List (String × Int), ∀ e now' : Int,
      (dictKeys rv).Nodup → dictGet token rv = some e →
      (now' < e → dictGet token (prune_revoked_locked now' rv) = some e) ∧
      (now' ≥ e → dictGet token (prune_revoked_locked now' rv) = none)) := by
  refine ⟨?_, ?_, ?_, ?_⟩
  · intro info decoded_exp hg hfut
    obtain ⟨hreg, hrv, _⟩ := revoke_known_future hg hfut
    refine ⟨hreg, hrv, ?_⟩
    intro user_id eo
    exact validate_revoked_future (WF_revoke_by_token hWF)
      ((dictGet_eq_none_iff _ _).1 hreg) hrv (by omega)
  · intro e hg he
    obtain ⟨hreg, hrv⟩ := revoke_unknown_decoded hg he
    refine ⟨hrv, ?_⟩
    intro user_id eo
    exact validate_revoked_future (WF_revoke_by_token hWF)
      ((dictGet_eq_none_iff _ _).1 hreg) hrv (by omega)
  · intro hg hidle
    obtain ⟨hreg, hrv⟩ := revoke_unknown_undecodable hg hidle
    refine ⟨hrv, ?_⟩
    intro user_id eo
    exact validate_revoked_future (WF_revoke_by_token hWF)
      ((dictGet_eq_none_iff _ _).1 hreg) hrv (by omega)
  · intro rv e now' hnd hg
    constructor
    · intro hlt
      rw [dictGet_prune_revoked hnd, hg]
      exact if_neg (by omega)
    · intro hge
      rw [dictGet_prune_revoked hnd, hg]
      exact if_pos hge

/-- C4 witness: revoking a live registered token at time 1 records horizon
100, blocks an immediate validation, and the record survives pruning at
time 99 but not at time 100. -/
theorem C4_witness :
    (dictGet "tok" (revoke_session_by_token 5 1 none "tok"
        ⟨[("tok", ⟨"u", "tok", 100, 0⟩)], [], []⟩).registry = none ∧
      dictGet "tok" (revoke_session_by_token 5 1 none "tok"
        ⟨[("tok", ⟨"u", "tok", 100, 0⟩)], [], []⟩).revoked = some 100 ∧
      (validate_and_touch_session 5 10 1 "tok" "u" none
        (revoke_session_by_token 5 1 none "tok"
          ⟨[("tok", ⟨"u", "tok", 100, 0⟩)], [], []⟩)).2 = some SessionError.inactive) ∧
    (dictGet "tok" (prune_revoked_locked 99 [("tok", 100)]) = some 100 ∧
      dictGet "tok" (prune_revoked_locked 100 [("tok", 100)]) = none) := by
  have h := C4_revocation_lifecycle 5 10 1 "tok"
    ⟨[("tok", ⟨"u", "tok", 100, 0⟩)], [], []⟩ (by decide)
  obtain ⟨hreg, hrv, hval⟩ := h.1 ⟨"u", "tok", 100, 0⟩ none (by decide) (by decide)
  refine ⟨⟨hreg, hrv, hval "u" none⟩, ?_, ?_⟩
  · exact (h.2.2.2 [("tok", 100)] 100 99 (by decide) (by decide)).1 (by decide)
  · exact (h.2.2.2 [("tok", 100)] 100 100 (by decide) (by decide)).2 (by decide)

/-- C8 (amended): every failing run of `get_current_user` surfaces an
`HTTPException` with the same status code 401, but the detail string is not
identical across failure causes — it discloses which sub-check failed (see
the counterexample).  This theorem proves the uniform part: any error
outcome has status 401. -/
theorem C8_unauthenticated_status_uniform (enabled : Bool) (idle : Int) (cap : Nat)
    (now : Int) (decode : PyJwtOutcome) (revoke_exp : Option Int)
    (fetch_portal : Option PortalSessionInfo) (ensure_user : PortalUserInfo → String)
    (fetch_user : String → Option String) (raw_token : String) (st : AuthState)
    (p : Nat × String)
    (hres : (get_current_user enabled idle cap now decode revoke_exp fetch_portal
      ensure_user fetch_user raw_token st).2 = .error p) :
    p.1 = 401 := by
  unfold get_current_user at hres
  cases decode with
  | expiredSig =>
    injection hres with h
    rw [← h]
  | invalid =>
    dsimp only at hres
    split at hres
    · cases hres
    next e _ =>
      injection hres with h
      rw [← h]
      cases e <;> rfl
    · injection hres with h
      rw [← h]
  | ok sub exp =>
    cases sub with
    | none =>
      injection hres with h
      rw [← h]
    | some user_id =>
      dsimp only at hres
      split at hres
      next e _ =>
        injection hres with h
        rw [← h]
        cases e <;> rfl
      · split at hres
        · injection hres with h
          rw [← h]
        · cases hres

/-- C8 counterexample: two failing runs — one with an expired local token,
one with an invalid token and the portal bridge disabled — both reach the
terminal unauthenticated outcome, yet the surfaced payloads differ
("Token has expired" versus "Invalid authentication credentials"), so the
outcome is not identical and does disclose which sub-check failed. -/
theorem C8_counterexample :
    (get_current_user false 5 10 1 PyJwtOutcome.expiredSig none none
        (fun _ => "u") (fun _ => none) "tok" AuthState.empty).2
      = .error ((401 : Nat), "Token has expired") ∧
    (get_current_user false 5 10 1 PyJwtOutcome.invalid none none
        (fun _ => "u") (fun _ => none) "tok" AuthState.empty).2
      = .error ((401 : Nat), "Invalid authentication credentials") ∧
    (((401 : Nat), "Token has expired") : Nat × String)
      ≠ ((401 : Nat), "Invalid authentication credentials") := by
  refine ⟨rfl, rfl, by decide⟩

/-- C8 witness: the amended theorem applied to a concrete failing run. -/
theorem C8_witness :
    ((401 : Nat), "Token has expired").1 = 401 :=
  C8_unauthenticated_status_uniform false 5 10 1 PyJwtOutcome.expiredSig none none
    (fun _ => "u") (fun _ => none) "tok" AuthState.empty
    ((401 : Nat), "Token has expired") rfl

theorem b64Idx_b64Char : ∀ n, n < 64 → b64Idx (b64Char n) = some n := by decide

theorem b64Char_ne_pad : ∀ n, n < 64 → b64Char n ≠ '=' := by decide

theorem b64Char_ne_dot : ∀ n, n < 64 → b64Char n ≠ '.' := by decide

theorem b64encode_length_mod : ∀ bs : List Nat,
    (b64encode bs).length % 4 = 0 ∨ (b64encode bs).length % 4 = 2 ∨
      (b64encode bs).length % 4 = 3 := by
  intro bs
  induction bs using b64encode.induct with
  | case1 => left; rfl
  | case2 b1 => right; left; rfl
  | case3 b1 b2 => right; right; rfl
  | case4 b1 b2 b3 rest ih =>
    have : (b64encode (b1 :: b2 :: b3 :: rest)).length = 4 + (b64encode rest).length := by
      rw [b64encode]
      simp [List.length_cons]
      omega
    rw [this]
    omega

theorem b64encode_chars {bs : List Nat} (hv : ∀ b ∈ bs, b < 256) :
    ∀ c ∈ b64encode bs, ∃ n, n < 64 ∧ c = b64Char n := by
  induction bs using b64encode.induct with
  | case1 => intro c hc; cases hc
  | case2 b1 =>
    have h1 : b1 < 256 := hv b1 (by simp)
    intro c hc
    rw [b64encode] at hc
    rcases List.mem_cons.1 hc with rfl | hc
    · exact ⟨b1 / 4, by omega, rfl⟩
    rcases List.mem_cons.1 hc with rfl | hc
    · exact ⟨b1 % 4 * 16, by omega, rfl⟩
    cases hc
  | case3 b1 b2 =>
    have h1 : b1 < 256 := hv b1 (by simp)
    have h2 : b2 < 256 := hv b2 (by simp)
    intro c hc
    rw [b64encode] at hc
    rcases List.mem_cons.1 hc with rfl | hc
    · exact ⟨b1 / 4, by omega, rfl⟩
    rcases List.mem_cons.1 hc with rfl | hc
    · exact ⟨b1 % 4 * 16 + b2 / 16, by omega, rfl⟩
    rcases List.mem_cons.1 hc with rfl | hc
    · exact ⟨b2 % 16 * 4, by omega, rfl⟩
    cases hc
  | case4 b1 b2 b3 rest ih =>
    have h1 : b1 < 256 := hv b1 (by simp)
    have h2 : b2 < 256 := hv b2 (by simp)
    have h3 : b3 < 256 := hv b3 (by simp)
    have hv' : ∀ b ∈ rest, b < 256 := fun b hb => hv b (by simp [hb])
    intro c hc
    rw [b64encode] at hc
    rcases List.mem_cons.1 hc with rfl | hc
    · exact ⟨b1 / 4, by omega, rfl⟩
    rcases List.mem_cons.1 hc with rfl | hc
    · exact ⟨b1 % 4 * 16 + b2 / 16, by omega, rfl⟩
    rcases List.mem_cons.1 hc with rfl | hc
    · exact ⟨b2 % 16 * 4 + b3 / 64, by omega, rfl⟩
    rcases List.mem_cons.1 hc with rfl | hc
    · exact ⟨b3 % 64, by omega, rfl⟩
    exact ih hv' c hc

theorem b64encode_no_dot {bs : List Nat} (hv : ∀ b ∈ bs, b < 256) :
    ∀ c ∈ b64encode bs, c ≠ '.' := by
  intro c hc
  obtain ⟨n, hn, rfl⟩ := b64encode_chars hv c hc
  exact b64Char_ne_dot n hn

/-- `_urlsafe_b64decode(_urlsafe_b64encode(data)) == data` for byte input. -/
theorem b64_roundtrip {bs : List Nat} (hv : ∀ b ∈ bs, b < 256) :
    b64decodePadded (b64encode bs) = some bs := by
  induction bs using b64encode.induct with
  | case1 => rfl
  | case2 b1 =>
    have h1 : b1 < 256 := hv b1 (by simp)
    unfold b64decodePadded
    rw [b64encode]
    have hlen : ([b64Char (b1 / 4), b64Char (b1 % 4 * 16)] : List Char).length = 2 := rfl
    rw [hlen]
    show b64decodeRaw [b64Char (b1 / 4), b64Char (b1 % 4 * 16), '=', '='] = some [b1]
    rw [b64decodeRaw, b64Idx_b64Char _ (by omega), b64Idx_b64Char _ (by omega)]
    dsimp only
    show some [b1 / 4 * 4 + b1 % 4 * 16 / 16] = some [b1]
    rw [show b1 / 4 * 4 + b1 % 4 * 16 / 16 = b1 from by omega]
  | case3 b1 b2 =>
    have h1 : b1 < 256 := hv b1 (by simp)
    have h2 : b2 < 256 := hv b2 (by simp)
    unfold b64decodePadded
    rw [b64encode]
    have hlen : ([b64Char (b1 / 4), b64Char (b1 % 4 * 16 + b2 / 16),
        b64Char (b2 % 16 * 4)] : List Char).length = 3 := rfl
    rw [hlen]
    show b64decodeRaw [b64Char (b1 / 4), b64Char (b1 % 4 * 16 + b2 / 16),
      b64Char (b2 % 16 * 4), '='] = some [b1, b2]
    rw [b64decodeRaw, b64Idx_b64Char _ (by omega), b64Idx_b64Char _ (by omega)]
    dsimp only
    rw [if_neg (b64Char_ne_pad _ (by omega)), b64Idx_b64Char _ (by omega)]
    dsimp only
    show some [b1 / 4 * 4 + (b1 % 4 * 16 + b2 / 16) / 16,
      (b1 % 4 * 16 + b2 / 16) % 16 * 16 + b2 % 16 * 4 / 4] = some [b1, b2]
    rw [show b1 / 4 * 4 + (b1 % 4 * 16 + b2 / 16) / 16 = b1 from by omega,
      show (b1 % 4 * 16 + b2 / 16) % 16 * 16 + b2 % 16 * 4 / 4 = b2 from by omega]
  | case4 b1 b2 b3 rest ih =>
    have h1 : b1 < 256 := hv b1 (by simp)
    have h2 : b2 < 256 := hv b2 (by simp)
    have h3 : b3 < 256 := hv b3 (by simp)
    have hv' : ∀ b ∈ rest, b < 256 := fun b hb => hv b (by simp [hb])
    have ih' := ih hv'
    unfold b64decodePadded at ih' ⊢
    rw [b64encode]
    have hlen : (b64Char (b1 / 4) :: b64Char (b1 % 4 * 16 + b2 / 16) ::
        b64Char (b2 % 16 * 4 + b3 / 64) :: b64Char (b3 % 64) :: b64encode rest).length
        = 4 + (b64encode rest).length := by
      simp [List.length_cons]
      omega
    rw [hlen, show (4 + (b64encode rest).length) % 4 = (b64encode rest).length % 4 from
      by omega]
    rw [List.cons_append, List.cons_append, List.cons_append, List.cons_append]
    rw [b64decodeRaw, b64Idx_b64Char _ (by omega), b64Idx_b64Char _ (by omega)]
    dsimp only
    rw [if_neg (b64Char_ne_pad _ (by omega)), b64Idx_b64Char _ (by omega)]
    dsimp only
    rw [if_neg (b64Char_ne_pad _ (by omega)), b64Idx_b64Char _ (by omega)]
    dsimp only
    rw [ih']
    show some ((b1 / 4 * 4 + (b1 % 4 * 16 + b2 / 16) / 16) ::
      ((b1 % 4 * 16 + b2 / 16) % 16 * 16 + (b2 % 16 * 4 + b3 / 64) / 4) ::
      ((b2 % 16 * 4 + b3 / 64) % 4 * 64 + b3 % 64) :: rest) = some (b1 :: b2 :: b3 :: rest)
    congr 2
    · omega
    congr 1
    · omega
    congr 1
    omega

theorem utf8Encode_ascii {s : List Char} (h : ∀ c ∈ s, c.toNat < 128) :
    utf8Encode s = s.map Char.toNat := by
  induction s with
  | nil => rfl
  | cons c rest ih =>
    have hc : c.toNat < 128 := h c (by simp)
    rw [utf8Encode, utf8EncodeChar, if_pos hc, List.map_cons,
      ih (fun d hd => h d (by simp [hd]))]
    rfl

theorem utf8Encode_ascii_bytes {s : List Char} (h : ∀ c ∈ s, c.toNat < 128) :
    ∀ b ∈ utf8Encode s, b < 256 := by
  rw [utf8Encode_ascii h]
  intro b hb
  obtain ⟨c, hc, rfl⟩ := List.mem_map.1 hb
  have := h c hc
  omega

/-- `bytes.decode("utf-8")` inverts `str.encode("utf-8")` on ASCII text. -/
theorem utf8_roundtrip_ascii {s : List Char} (h : ∀ c ∈ s, c.toNat < 128) :
    utf8Decode (utf8Encode s) = some s := by
  induction s with
  | nil => rfl
  | cons c rest ih =>
    have hc : c.toNat < 128 := h c (by simp)
    rw [utf8Encode, utf8EncodeChar, if_pos hc]
    show utf8Decode (c.toNat :: utf8Encode rest) = some (c :: rest)
    rw [utf8Decode, if_pos hc, ih (fun d hd => h d (List.mem_cons_of_mem _ hd))]
    show some (Char.ofNat c.toNat :: rest) = some (c :: rest)
    rw [Char.ofNat_toNat]

/-- The continuation after a parsed number must not begin with a digit. -/
def noDigitHead : List Char → Prop
  | [] => True
  | c :: _ => isDigitChar c = false

theorem digitChar_toNat : ∀ d, d < 10 → (digitChar d).toNat = 48 + d := by decide

theorem isDigitChar_digitChar : ∀ d, d < 10 → isDigitChar (digitChar d) = true := by decide

theorem digitChar_ne_minus : ∀ d, d < 10 → digitChar d ≠ '-' := by decide

theorem expectChars_append : ∀ es rest : List Char, expectChars es (es ++ rest) = some rest := by
  intro es
  induction es with
  | nil => intro rest; rfl
  | cons e es ih =>
    intro rest
    rw [List.cons_append, expectChars, if_pos rfl]
    exact ih rest

theorem natDigits_ne_nil : ∀ fuel n, 0 < fuel → natDigits fuel n ≠ [] := by
  intro fuel n hf
  cases fuel with
  | zero => omega
  | succ f =>
    rw [natDigits]
    by_cases h : n < 10
    · rw [if_pos h]
      simp
    · rw [if_neg h]
      intro hc
      rcases List.append_eq_nil.1 hc with ⟨_, h2⟩
      cases h2

theorem natDigits_all_digits : ∀ fuel n, n < fuel →
    ∀ c ∈ natDigits fuel n, ∃ d, d < 10 ∧ c = digitChar d := by
  intro fuel
  induction fuel with
  | zero => intro n hn; omega
  | succ f ih =>
    intro n hn c hc
    rw [natDigits] at hc
    by_cases h : n < 10
    · rw [if_pos h] at hc
      rcases List.mem_singleton.1 hc with rfl
      exact ⟨n, h, rfl⟩
    · rw [if_neg h] at hc
      rcases List.mem_append.1 hc with hc | hc
      · exact ih (n / 10) (by omega) c hc
      · rcases List.mem_singleton.1 hc with rfl
        exact ⟨n % 10, by omega, rfl⟩

theorem takeDigits_append {ds rest : List Char}
    (hds : ∀ c ∈ ds, isDigitChar c = true) (hrest : noDigitHead rest) :
    takeDigits (ds ++ rest) = (ds.map (fun c => c.toNat - 48), rest) := by
  induction ds with
  | nil =>
    rw [List.nil_append, List.map_nil]
    cases rest with
    | nil => rfl
    | cons c r =>
      rw [takeDigits, if_neg (by rw [noDigitHead] at hrest; rw [hrest]; simp)]
  | cons c ds ih =>
    rw [List.cons_append, takeDigits,
      if_pos (hds c (List.mem_cons_self _ _)), List.map_cons]
    rw [ih (fun d hd => hds d (List.mem_cons_of_mem _ hd))]

theorem digitsVal_append (a : List Nat) (d : Nat) :
    digitsVal (a ++ [d]) = digitsVal a * 10 + d := by
  unfold digitsVal
  rw [List.foldl_append]
  rfl

theorem natDigits_val : ∀ fuel n, n < fuel →
    digitsVal ((natDigits fuel n).map (fun c => c.toNat - 48)) = n := by
  intro fuel
  induction fuel with
  | zero => intro n hn; omega
  | succ f ih =>
    intro n hn
    rw [natDigits]
    by_cases h : n < 10
    · rw [if_pos h, List.map_singleton]
      rw [digitChar_toNat n h]
      show (0 * 10 + (48 + n - 48)) = n
      omega
    · rw [if_neg h, List.map_append, List.map_singleton, digitChar_toNat (n % 10) (by omega),
        digitsVal_append, ih (n / 10) (by omega)]
      omega

theorem parseNat_natDigits {fuel n : Nat} {rest : List Char} (hn : n < fuel)
    (hrest : noDigitHead rest) :
    parseNat (natDigits fuel n ++ rest) = some (n, rest) := by
  have hds : ∀ c ∈ natDigits fuel n, isDigitChar c = true := by
    intro c hc
    obtain ⟨d, hd, rfl⟩ := natDigits_all_digits fuel n hn c hc
    exact isDigitChar_digitChar d hd
  unfold parseNat
  rw [takeDigits_append hds hrest]
  have hne : (natDigits fuel n).map (fun c => c.toNat - 48) ≠ [] := by
    intro hc
    exact natDigits_ne_nil fuel n (by omega) (List.map_eq_nil_iff.1 hc)
  cases hm : (natDigits fuel n).map (fun c => c.toNat - 48) with
  | nil => exact absurd hm hne
  | cons d ds =>
    dsimp only
    rw [← hm, natDigits_val fuel n hn]

theorem parseNumber_intDump {i : Int} {rest : List Char} (hrest : noDigitHead rest) :
    parseNumber (intDump i ++ rest) = some (Json.num i, rest) := by
  by_cases hi : i < 0
  · rw [intDump, if_pos hi, List.cons_append, parseNumber]
    rw [parseNat_natDigits (by omega) hrest]
    show some (Json.num (-(i.natAbs : Int)), rest) = some (Json.num i, rest)
    have : -((i.natAbs : Nat) : Int) = i := by
      omega
    rw [this]
  · rw [intDump, if_neg hi]
    have hhead : ∀ c cs, natDigits (i.toNat + 1) i.toNat = c :: cs → c ≠ '-' := by
      intro c cs hc
      have := natDigits_all_digits (i.toNat + 1) i.toNat (by omega) c (by rw [hc]; simp)
      obtain ⟨d, hd, rfl⟩ := this
      exact digitChar_ne_minus d hd
    cases hnd : natDigits (i.toNat + 1) i.toNat with
    | nil => exact absurd hnd (natDigits_ne_nil _ _ (by omega))
    | cons c cs =>
      rw [List.cons_append]
      have hc := hhead c cs hnd
      have hred : parseNumber (c :: (cs ++ rest)) =
          (parseNat (c :: (cs ++ rest))).map (fun p => (Json.num (p.1 : Int), p.2)) := by
        unfold parseNumber
        split
        next heq =>
          injection heq with h1 _
          exact absurd h1 hc
        next => rfl
      rw [hred, ← List.cons_append, ← hnd, parseNat_natDigits (by omega) hrest]
      show some (Json.num ((i.toNat : Nat) : Int), rest) = some (Json.num i, rest)
      have : ((i.toNat : Nat) : Int) = i := by omega
      rw [this]

theorem parseStrBody_escBody {s : List Char} (h : ∀ c ∈ s, 32 ≤ c.toNat) :
    ∀ rest, parseStrBody (escBody s ++ dquote :: rest) = some (s, rest) := by
  induction s with
  | nil =>
    intro rest
    rw [escBody, List.nil_append, parseStrBody, if_pos rfl]
  | cons c s ih =>
    intro rest
    have hc : 32 ≤ c.toNat := h c (List.mem_cons_self _ _)
    have ih' := ih (fun d hd => h d (List.mem_cons_of_mem _ hd))
    rw [escBody, escapeChar]
    by_cases hq : c = dquote
    · rw [if_pos hq, List.cons_append, List.cons_append, parseStrBody]
      rw [if_neg (by decide), if_pos rfl]
      show Option.map (fun p => (dquote :: p.1, p.2))
        (parseStrBody (escBody s ++ dquote :: rest)) = some (c :: s, rest)
      rw [ih' rest]
      show some (dquote :: s, rest) = some (c :: s, rest)
      rw [hq]
    · rw [if_neg hq]
      by_cases hb : c = bslash
      · rw [if_pos hb, List.cons_append, List.cons_append, parseStrBody]
        rw [if_neg (by decide), if_pos rfl]
        show Option.map (fun p => (bslash :: p.1, p.2))
          (parseStrBody (escBody s ++ dquote :: rest)) = some (c :: s, rest)
        rw [ih' rest]
        show some (bslash :: s, rest) = some (c :: s, rest)
        rw [hb]
      · rw [if_neg hb]
        show parseStrBody (c :: (escBody s ++ dquote :: rest)) = some (c :: s, rest)
        rw [parseStrBody, if_neg hq, if_neg hb, if_pos hc, ih' rest]
        rfl

theorem jsize_pos : ∀ v, 1 ≤ jsize v := by
  intro v
  cases v <;> simp [jsize]

theorem jsizeList_pos : ∀ xs, 1 ≤ jsizeList xs := by
  intro xs
  cases xs with
  | nil => rw [jsizeList]
  | cons x xs => rw [jsizeList]; omega

theorem jsizePairs_pos : ∀ kvs, 1 ≤ jsizePairs kvs := by
  intro kvs
  cases kvs with
  | nil => simp [jsizePairs]
  | cons p kvs => rw [show jsizePairs (p :: kvs) = 1 + max (jsize p.2) (jsizePairs kvs) from by
      rw [← Prod.mk.eta (p := p), jsizePairs]]; omega

/-- A serialized value starts with one of the value-starter characters. -/
theorem serialize_head : ∀ v : Json, ∃ c cs, serialize v = c :: cs ∧
    (c = 'n' ∨ c = 't' ∨ c = 'f' ∨ c = '-' ∨ isDigitChar c = true ∨ c = dquote ∨
      c = '[' ∨ c = Char.ofNat 123) := by
  intro v
  cases v with
  | null => exact ⟨'n', _, rfl, Or.inl rfl⟩
  | bool b =>
    cases b with
    | true => exact ⟨'t', _, rfl, Or.inr (Or.inl rfl)⟩
    | false => exact ⟨'f', _, rfl, Or.inr (Or.inr (Or.inl rfl))⟩
  | num i =>
    rw [serialize]
    by_cases hi : i < 0
    · rw [intDump, if_pos hi]
      exact ⟨'-', _, rfl, Or.inr (Or.inr (Or.inr (Or.inl rfl)))⟩
    · rw [intDump, if_neg hi]
      cases hnd : natDigits (i.toNat + 1) i.toNat with
      | nil => exact absurd hnd (natDigits_ne_nil _ _ (by omega))
      | cons c cs =>
        obtain ⟨d, hd, rfl⟩ := natDigits_all_digits (i.toNat + 1) i.toNat (by omega) c
          (by rw [hnd]; exact List.mem_cons_self _ _)
        exact ⟨digitChar d, cs, rfl, Or.inr (Or.inr (Or.inr (Or.inr (Or.inl
          (isDigitChar_digitChar d hd)))))⟩
  | str s =>
    rw [serialize, dumpStr]
    exact ⟨dquote, _, rfl, Or.inr (Or.inr (Or.inr (Or.inr (Or.inr (Or.inl rfl)))))⟩
  | arr xs =>
    rw [serialize]
    exact ⟨'[', _, rfl, Or.inr (Or.inr (Or.inr (Or.inr (Or.inr (Or.inr (Or.inl rfl))))))⟩
  | obj kvs =>
    rw [serialize]
    exact ⟨Char.ofNat 123, _, rfl,
      Or.inr (Or.inr (Or.inr (Or.inr (Or.inr (Or.inr (Or.inr rfl))))))⟩

theorem starter_ne_rbracket {c : Char}
    (h : c = 'n' ∨ c = 't' ∨ c = 'f' ∨ c = '-' ∨ isDigitChar c = true ∨ c = dquote ∨
      c = '[' ∨ c = Char.ofNat 123) : c ≠ ']' := by
  rcases h with rfl | rfl | rfl | rfl | h | rfl | rfl | rfl
  · decide
  · decide
  · decide
  · decide
  · intro hc
    subst hc
    simp [isDigitChar] at h
  · decide
  · decide
  · decide

theorem starter_ne_rbrace {c : Char}
    (h : c = 'n' ∨ c = 't' ∨ c = 'f' ∨ c = '-' ∨ isDigitChar c = true ∨ c = dquote ∨
      c = '[' ∨ c = Char.ofNat 123) : c ≠ Char.ofNat 125 := by
  rcases h with rfl | rfl | rfl | rfl | h | rfl | rfl | rfl
  · decide
  · decide
  · decide
  · decide
  · intro hc
    subst hc
    simp [isDigitChar] at h
  · decide
  · decide
  · decide

theorem noDigitHead_cons {c : Char} (h : isDigitChar c = false) (r : List Char) :
    noDigitHead (c :: r) := h

theorem safeStr_chars {s : String} (h : safeStrB s = true) :
    ∀ c ∈ s.data, 32 ≤ c.toNat ∧ c.toNat < 128 := by
  intro c hc
  have := List.all_eq_true.1 h c hc
  simpa using this

theorem intDump_ne_nil (i : Int) : intDump i ≠ [] := by
  rw [intDump]
  by_cases hi : i < 0
  · rw [if_pos hi]
    simp
  · rw [if_neg hi]
    exact natDigits_ne_nil _ _ (by omega)

theorem serializeList_cons_head {x : Json} {c : Char} {cs : List Char}
    (hsx : serialize x = c :: cs) (xs : List Json) :
    ∃ t, serializeList (x :: xs) = c :: t := by
  cases xs with
  | nil =>
    refine ⟨cs, ?_⟩
    rw [serializeList, hsx]
  | cons y ys =>
    refine ⟨cs ++ ',' :: serializeList (y :: ys), ?_⟩
    rw [serializeList, hsx, List.cons_append]

theorem serializePairs_cons_head (k : String) (v : Json) (kvs : List (String × Json)) :
    ∃ t, serializePairs ((k, v) :: kvs) = dquote :: t := by
  cases kvs with
  | nil =>
    refine ⟨escBody k.data ++ [dquote] ++ ':' :: serialize v, ?_⟩
    rw [serializePairs, dumpStr]
    simp [List.append_assoc]
  | cons q kvs' =>
    refine ⟨escBody k.data ++ [dquote] ++ ':' :: (serialize v ++ ',' :: serializePairs (q :: kvs')), ?_⟩
    rw [serializePairs, dumpStr]
    simp [List.append_assoc]

/-- One unfolding step of the parser on a cons input. -/
theorem parseJson_cons (fuel : Nat) (c : Char) (rest : List Char) :
    parseJson (fuel + 1) (c :: rest) =
      (if c = 'n' then (expectChars ['u', 'l', 'l'] rest).map (fun r => (Json.null, r))
      else if c = 't' then (expectChars ['r', 'u', 'e'] rest).map (fun r => (Json.bool true, r))
      else if c = 'f' then
        (expectChars ['a', 'l', 's', 'e'] rest).map (fun r => (Json.bool false, r))
      else if c = dquote then
        (parseStrBody rest).map (fun p => (Json.str (String.mk p.1), p.2))
      else if c = '[' then
        match rest with
        | c2 :: rest2 =>
          if c2 = ']' then some (.arr [], rest2)
          else (parseElems fuel rest).map (fun p => (Json.arr p.1, p.2))
        | [] => none
      else if c = Char.ofNat 123 then
        match rest with
        | c2 :: rest2 =>
          if c2 = Char.ofNat 125 then some (.obj [], rest2)
          else (parseMembers fuel rest).map (fun p => (Json.obj p.1, p.2))
        | [] => none
      else if c = '-' ∨ isDigitChar c then parseNumber (c :: rest)
      else none) := rfl

/-- One unfolding step of `parseElems`. -/
theorem parseElems_succ (fuel : Nat) (cs : List Char) :
    parseElems (fuel + 1) cs =
      (match parseJson fuel cs with
      | none => none
      | some (v, r) =>
        match r with
        | [] => none
        | c :: r2 =>
          if c = ',' then (parseElems fuel r2).map (fun p => (v :: p.1, p.2))
          else if c = ']' then some ([v], r2)
          else none) := rfl

/-- One unfolding step of `parseMembers`. -/
theorem parseMembers_succ (fuel : Nat) (cs : List Char) :
    parseMembers (fuel + 1) cs =
      (match cs with
      | [] => none
      | c :: rest =>
        if c = dquote then
          match parseStrBody rest with
          | none => none
          | some (k, r) =>
            match r with
            | [] => none
            | c2 :: r2 =>
              if c2 = ':' then
                match parseJson fuel r2 with
                | none => none
                | some (v, r3) =>
                  match r3 with
                  | [] => none
                  | c4 :: r4 =>
                    if c4 = ',' then
                      (parseMembers fuel r4).map (fun p => ((String.mk k, v) :: p.1, p.2))
                    else if c4 = Char.ofNat 125 then some ([(String.mk k, v)], r4)
                    else none
              else none
        else none) := rfl

theorem parseJson_intDump {f : Nat} {i : Int} {rest : List Char} (hrest : noDigitHead rest) :
    parseJson (f + 1) (intDump i ++ rest) = some (Json.num i, rest) := by
  obtain ⟨c, cs, hdec, hstar⟩ :
      ∃ c cs, intDump i = c :: cs ∧ (c = '-' ∨ isDigitChar c = true) := by
    rw [intDump]
    by_cases hi : i < 0
    · rw [if_pos hi]
      exact ⟨'-', _, rfl, Or.inl rfl⟩
    · rw [if_neg hi]
      cases hnd : natDigits (i.toNat + 1) i.toNat with
      | nil => exact absurd hnd (natDigits_ne_nil _ _ (by omega))
      | cons c cs =>
        obtain ⟨d, hd, rfl⟩ := natDigits_all_digits (i.toNat + 1) i.toNat (by omega) c
          (by rw [hnd]; exact List.mem_cons_self _ _)
        exact ⟨digitChar d, cs, rfl, Or.inr (isDigitChar_digitChar d hd)⟩
  have hne : c ≠ 'n' ∧ c ≠ 't' ∧ c ≠ 'f' ∧ c ≠ dquote ∧ c ≠ '[' ∧ c ≠ Char.ofNat 123 := by
    rcases hstar with rfl | hd
    · exact ⟨by decide, by decide, by decide, by decide, by decide, by decide⟩
    · refine ⟨?_, ?_, ?_, ?_, ?_, ?_⟩ <;>
        (intro hc; subst hc; exact absurd hd (by decide))
  rw [hdec, List.cons_append, parseJson_cons]
  rw [if_neg hne.1, if_neg hne.2.1, if_neg hne.2.2.1, if_neg hne.2.2.2.1,
    if_neg hne.2.2.2.2.1, if_neg hne.2.2.2.2.2, if_pos hstar]
  rw [← List.cons_append, ← hdec, parseNumber_intDump hrest]

theorem parseJson_dumpStr {f : Nat} {s : String} (hs : safeStrB s = true) (rest : List Char) :
    parseJson (f + 1) (dumpStr s ++ rest) = some (Json.str s, rest) := by
  rw [dumpStr, List.cons_append, List.cons_append, parseJson_cons]
  rw [if_neg (by decide), if_neg (by decide), if_neg (by decide), if_pos rfl]
  rw [List.append_assoc]
  show (parseStrBody (escBody s.data ++ (dquote :: rest))).map
    (fun p => (Json.str (String.mk p.1), p.2)) = some (.str s, rest)
  rw [parseStrBody_escBody (fun c hc => (safeStr_chars hs c hc).1) rest]
  rfl

/-- The recursive-descent parser inverts the serializer on round-trippable
values: one statement per parser entry point, proved together by induction
on the fuel. -/
theorem parse_serialize_all : ∀ fuel : Nat,
    (∀ v, wfB v = true → jsize v ≤ fuel → ∀ rest, noDigitHead rest →
      parseJson fuel (serialize v ++ rest) = some (v, rest)) ∧
    (∀ xs, wfListB xs = true → xs ≠ [] → jsizeList xs ≤ fuel → ∀ rest,
      parseElems fuel (serializeList xs ++ ']' :: rest) = some (xs, rest)) ∧
    (∀ kvs, wfPairsB kvs = true → kvs ≠ [] → jsizePairs kvs ≤ fuel → ∀ rest,
      parseMembers fuel (serializePairs kvs ++ Char.ofNat 125 :: rest) = some (kvs, rest)) := by
  intro fuel
  induction fuel with
  | zero =>
    refine ⟨?_, ?_, ?_⟩
    · intro v _ hsz
      exact absurd hsz (by have := jsize_pos v; omega)
    · intro xs _ _ hsz
      exact absurd hsz (by have := jsizeList_pos xs; omega)
    · intro kvs _ _ hsz
      exact absurd hsz (by have := jsizePairs_pos kvs; omega)
  | succ f ih =>
    obtain ⟨ihJ, ihE, ihM⟩ := ih
    refine ⟨?_, ?_, ?_⟩
    · intro v hwf hsz rest hrest
      cases v with
      | null =>
        rw [serialize]
        show parseJson (f + 1) ('n' :: ('u' :: 'l' :: 'l' :: rest)) = some (Json.null, rest)
        rw [parseJson_cons, if_pos rfl]
        rw [show ('u' :: 'l' :: 'l' :: rest) = ['u', 'l', 'l'] ++ rest from rfl, expectChars_append]
        rfl
      | bool b =>
        cases b with
        | true =>
          rw [serialize]
          show parseJson (f + 1) ('t' :: ('r' :: 'u' :: 'e' :: rest)) = some (Json.bool true, rest)
          rw [parseJson_cons, if_neg (by decide), if_pos rfl]
          rw [show ('r' :: 'u' :: 'e' :: rest) = ['r', 'u', 'e'] ++ rest from rfl,
            expectChars_append]
          rfl
        | false =>
          rw [serialize]
          show parseJson (f + 1) ('f' :: ('a' :: 'l' :: 's' :: 'e' :: rest))
            = some (Json.bool false, rest)
          rw [parseJson_cons, if_neg (by decide), if_neg (by decide), if_pos rfl]
          rw [show ('a' :: 'l' :: 's' :: 'e' :: rest) = ['a', 'l', 's', 'e'] ++ rest from rfl,
            expectChars_append]
          rfl
      | num i =>
        rw [serialize]
        exact parseJson_intDump hrest
      | str s =>
        have hs : safeStrB s = true := by rw [wfB] at hwf; exact hwf
        rw [serialize]
        exact parseJson_dumpStr hs rest
      | arr xs =>
        have hwl : wfListB xs = true := by rw [wfB] at hwf; exact hwf
        have hszl : jsizeList xs ≤ f := by rw [jsize] at hsz; omega
        rw [serialize, List.cons_append, List.cons_append, List.append_assoc,
          List.singleton_append, parseJson_cons]
        rw [if_neg (by decide), if_neg (by decide), if_neg (by decide), if_neg (by decide),
          if_pos rfl]
        cases xs with
        | nil =>
          rw [serializeList, List.nil_append]
          dsimp only
          rw [if_pos rfl]
        | cons x xs' =>
          obtain ⟨c, cs, hsx, hstar⟩ := serialize_head x
          obtain ⟨t, ht⟩ := serializeList_cons_head hsx xs'
          rw [ht, List.cons_append]
          dsimp only
          rw [if_neg (starter_ne_rbracket hstar)]
          rw [← List.cons_append, ← ht]
          rw [ihE (x :: xs') hwl (List.cons_ne_nil x xs') hszl rest]
          rfl
      | obj kvs =>
        have hwp : wfPairsB kvs = true := by rw [wfB] at hwf; exact hwf
        have hszp : jsizePairs kvs ≤ f := by rw [jsize] at hsz; omega
        rw [serialize, List.cons_append, List.cons_append, List.append_assoc,
          List.singleton_append, parseJson_cons]
        rw [if_neg (by decide), if_neg (by decide), if_neg (by decide), if_neg (by decide),
          if_neg (by decide), if_pos rfl]
        cases kvs with
        | nil =>
          rw [serializePairs, List.nil_append]
          dsimp only
          rw [if_pos rfl]
        | cons p kvs' =>
          obtain ⟨k, v⟩ := p
          obtain ⟨t, ht⟩ := serializePairs_cons_head k v kvs'
          rw [ht, List.cons_append]
          dsimp only
          rw [if_neg (by decide)]
          rw [← List.cons_append, ← ht]
          rw [ihM ((k, v) :: kvs') hwp (List.cons_ne_nil _ _) hszp rest]
          rfl
    · intro xs hwl hne hsz rest
      cases xs with
      | nil => exact absurd rfl hne
      | cons x xs' =>
        have hwx : wfB x = true ∧ wfListB xs' = true := by
          rw [wfListB, Bool.and_eq_true] at hwl
          exact hwl
        rw [parseElems_succ]
        cases xs' with
        | nil =>
          have hjx : jsize x ≤ f := by
            rw [jsizeList, jsizeList] at hsz
            omega
          rw [serializeList]
          rw [ihJ x hwx.1 hjx (']' :: rest) (noDigitHead_cons (by decide) _)]
          dsimp only
          rw [if_neg (by decide), if_pos rfl]
        | cons y ys =>
          have hjx : jsize x ≤ f := by
            rw [jsizeList] at hsz
            omega
          have hjl : jsizeList (y :: ys) ≤ f := by
            rw [jsizeList] at hsz
            omega
          rw [serializeList, List.append_assoc, List.cons_append]
          rw [ihJ x hwx.1 hjx (',' :: (serializeList (y :: ys) ++ ']' :: rest))
            (noDigitHead_cons (by decide) _)]
          dsimp only
          rw [if_pos rfl]
          rw [ihE (y :: ys) hwx.2 (List.cons_ne_nil y ys) hjl rest]
          rfl
    · intro kvs hwp hne hsz rest
      cases kvs with
      | nil => exact absurd rfl hne
      | cons p kvs' =>
        obtain ⟨k, v⟩ := p
        have hw3 : safeStrB k = true ∧ wfB v = true ∧ wfPairsB kvs' = true := by
          rw [wfPairsB] at hwp
          simp only [Bool.and_eq_true] at hwp
          exact ⟨hwp.1.1, hwp.1.2, hwp.2⟩
        rw [parseMembers_succ]
        cases kvs' with
        | nil =>
          have hjv : jsize v ≤ f := by
            rw [jsizePairs, jsizePairs] at hsz
            omega
          rw [serializePairs, List.append_assoc, List.cons_append, dumpStr,
            List.cons_append, List.cons_append, List.append_assoc, List.singleton_append]
          dsimp only
          rw [if_pos rfl]
          rw [parseStrBody_escBody (fun c hc => (safeStr_chars hw3.1 c hc).1) _]
          dsimp only
          rw [if_pos rfl]
          rw [ihJ v hw3.2.1 hjv (Char.ofNat 125 :: rest) (noDigitHead_cons (by decide) _)]
          dsimp only
          rw [if_neg (by decide), if_pos rfl]
        | cons q kvs'' =>
          have hjv : jsize v ≤ f := by
            rw [jsizePairs] at hsz
            omega
          have hjp : jsizePairs (q :: kvs'') ≤ f := by
            rw [jsizePairs] at hsz
            omega
          rw [serializePairs, dumpStr]
          simp only [List.append_assoc, List.cons_append, List.nil_append]
          rw [if_pos trivial]
          rw [parseStrBody_escBody (fun c hc => (safeStr_chars hw3.1 c hc).1) _]
          dsimp only
          rw [if_pos rfl]
          rw [ihJ v hw3.2.1 hjv (',' :: (serializePairs (q :: kvs'') ++ Char.ofNat 125 :: rest))
            (noDigitHead_cons (by decide) _)]
          dsimp only
          rw [if_pos rfl]
          rw [ihM (q :: kvs'') hw3.2.2 (List.cons_ne_nil q kvs'') hjp rest]
          rfl

/-- The fuel measure is bounded by the length of the serialized text, so
`jsonParse`'s fuel `length + 1` always suffices. -/
theorem jsize_le_length_all : ∀ n : Nat,
    (∀ v, jsize v ≤ n → jsize v ≤ (serialize v).length) ∧
    (∀ xs, jsizeList xs ≤ n → jsizeList xs ≤ (serializeList xs).length + 1) ∧
    (∀ kvs, jsizePairs kvs ≤ n → jsizePairs kvs ≤ (serializePairs kvs).length + 1) := by
  intro n
  induction n with
  | zero =>
    refine ⟨?_, ?_, ?_⟩
    · intro v hsz
      exact absurd hsz (by have := jsize_pos v; omega)
    · intro xs hsz
      exact absurd hsz (by have := jsizeList_pos xs; omega)
    · intro kvs hsz
      exact absurd hsz (by have := jsizePairs_pos kvs; omega)
  | succ m ih =>
    obtain ⟨ihJ, ihE, ihM⟩ := ih
    refine ⟨?_, ?_, ?_⟩
    · intro v hsz
      cases v with
      | null => rw [serialize, jsize]; decide
      | bool b => cases b <;> (rw [serialize, jsize]; decide)
      | num i =>
        rw [jsize]
        have : intDump i ≠ [] := intDump_ne_nil i
        have : 0 < (intDump i).length := List.length_pos.2 this
        rw [serialize]
        omega
      | str s =>
        rw [jsize, serialize, dumpStr]
        simp [List.length_append]
      | arr xs =>
        have h1 : jsizeList xs ≤ m := by rw [jsize] at hsz; omega
        have h2 := ihE xs h1
        rw [jsize, serialize]
        simp only [List.length_append, List.length_cons]
        omega
      | obj kvs =>
        have h1 : jsizePairs kvs ≤ m := by rw [jsize] at hsz; omega
        have h2 := ihM kvs h1
        rw [jsize, serialize]
        simp only [List.length_append, List.length_cons]
        omega
    · intro xs hsz
      cases xs with
      | nil => rw [serializeList]; rw [jsizeList]; omega
      | cons x xs' =>
        have hx : jsize x ≤ m := by rw [jsizeList] at hsz; omega
        have hx' := ihJ x hx
        have hxp := jsize_pos x
        cases xs' with
        | nil =>
          rw [serializeList, jsizeList, jsizeList]
          omega
        | cons y ys =>
          have hl : jsizeList (y :: ys) ≤ m := by rw [jsizeList] at hsz; omega
          have hl' := ihE (y :: ys) hl
          rw [serializeList, jsizeList]
          simp only [List.length_append, List.length_cons]
          omega
    · intro kvs hsz
      cases kvs with
      | nil => rw [serializePairs]; rw [jsizePairs]; omega
      | cons p kvs' =>
        obtain ⟨k, v⟩ := p
        have hv : jsize v ≤ m := by rw [jsizePairs] at hsz; omega
        have hv' := ihJ v hv
        have hvp := jsize_pos v
        cases kvs' with
        | nil =>
          rw [serializePairs, jsizePairs, jsizePairs]
          simp only [List.length_append, List.length_cons]
          omega
        | cons q kvs'' =>
          have hl : jsizePairs (q :: kvs'') ≤ m := by rw [jsizePairs] at hsz; omega
          have hl' := ihM (q :: kvs'') hl
          rw [serializePairs, jsizePairs]
          simp only [List.length_append, List.length_cons]
          omega

theorem jsize_le_length (v : Json) : jsize v ≤ (serialize v).length :=
  (jsize_le_length_all (jsize v)).1 v le_rfl

theorem intDump_ascii (i : Int) : ∀ c ∈ intDump i, 32 ≤ c.toNat ∧ c.toNat < 128 := by
  intro c hc
  rw [intDump] at hc
  by_cases hi : i < 0
  · rw [if_pos hi] at hc
    rcases List.mem_cons.1 hc with rfl | hc
    · exact ⟨by decide, by decide⟩
    · obtain ⟨d, hd, rfl⟩ := natDigits_all_digits (i.natAbs + 1) i.natAbs (by omega) c hc
      rw [digitChar_toNat d hd]
      omega
  · rw [if_neg hi] at hc
    obtain ⟨d, hd, rfl⟩ := natDigits_all_digits (i.toNat + 1) i.toNat (by omega) c hc
    rw [digitChar_toNat d hd]
    omega

theorem escBody_ascii {s : List Char} (h : ∀ c ∈ s, 32 ≤ c.toNat ∧ c.toNat < 128) :
    ∀ c ∈ escBody s, 32 ≤ c.toNat ∧ c.toNat < 128 := by
  induction s with
  | nil => intro c hc; cases hc
  | cons a s ih =>
    intro c hc
    rw [escBody] at hc
    rcases List.mem_append.1 hc with hc | hc
    · rw [escapeChar] at hc
      by_cases hq : a = dquote
      · rw [if_pos hq] at hc
        rcases List.mem_cons.1 hc with rfl | hc
        · exact ⟨by decide, by decide⟩
        rcases List.mem_singleton.1 hc with rfl
        exact ⟨by decide, by decide⟩
      · rw [if_neg hq] at hc
        by_cases hb : a = bslash
        · rw [if_pos hb] at hc
          rcases List.mem_cons.1 hc with rfl | hc
          · exact ⟨by decide, by decide⟩
          rcases List.mem_singleton.1 hc with rfl
          exact ⟨by decide, by decide⟩
        · rw [if_neg hb] at hc
          rcases List.mem_singleton.1 hc with rfl
          exact h c (List.mem_cons_self _ _)
    · exact ih (fun d hd => h d (List.mem_cons_of_mem _ hd)) c hc

theorem dumpStr_ascii {s : String} (hs : safeStrB s = true) :
    ∀ c ∈ dumpStr s, 32 ≤ c.toNat ∧ c.toNat < 128 := by
  intro c hc
  rw [dumpStr] at hc
  rcases List.mem_append.1 hc with hc | hc
  · rcases List.mem_cons.1 hc with rfl | hc
    · exact ⟨by decide, by decide⟩
    · exact escBody_ascii (safeStr_chars hs) c hc
  · rcases List.mem_singleton.1 hc with rfl
    exact ⟨by decide, by decide⟩

/-- Serialized round-trippable values consist of printable-ASCII text. -/
theorem serialize_ascii_all : ∀ n : Nat,
    (∀ v, wfB v = true → jsize v ≤ n → ∀ c ∈ serialize v, 32 ≤ c.toNat ∧ c.toNat < 128) ∧
    (∀ xs, wfListB xs = true → jsizeList xs ≤ n →
      ∀ c ∈ serializeList xs, 32 ≤ c.toNat ∧ c.toNat < 128) ∧
    (∀ kvs, wfPairsB kvs = true → jsizePairs kvs ≤ n →
      ∀ c ∈ serializePairs kvs, 32 ≤ c.toNat ∧ c.toNat < 128) := by
  intro n
  induction n with
  | zero =>
    refine ⟨?_, ?_, ?_⟩
    · intro v _ hsz
      exact absurd hsz (by have := jsize_pos v; omega)
    · intro xs _ hsz
      exact absurd hsz (by have := jsizeList_pos xs; omega)
    · intro kvs _ hsz
      exact absurd hsz (by have := jsizePairs_pos kvs; omega)
  | succ m ih =>
    obtain ⟨ihJ, ihE, ihM⟩ := ih
    refine ⟨?_, ?_, ?_⟩
    · intro v hwf hsz c hc
      cases v with
      | null =>
        rw [serialize] at hc
        simp at hc
        rcases hc with rfl | rfl | rfl | rfl <;> exact ⟨by decide, by decide⟩
      | bool b =>
        cases b with
        | true =>
          rw [serialize] at hc
          simp at hc
          rcases hc with rfl | rfl | rfl | rfl <;> exact ⟨by decide, by decide⟩
        | false =>
          rw [serialize] at hc
          simp at hc
          rcases hc with rfl | rfl | rfl | rfl | rfl <;> exact ⟨by decide, by decide⟩
      | num i =>
        rw [serialize] at hc
        exact intDump_ascii i c hc
      | str s =>
        rw [serialize] at hc
        exact dumpStr_ascii (by rw [wfB] at hwf; exact hwf) c hc
      | arr xs =>
        have hwl : wfListB xs = true := by rw [wfB] at hwf; exact hwf
        have h1 : jsizeList xs ≤ m := by rw [jsize] at hsz; omega
        rw [serialize] at hc
        rcases List.mem_append.1 hc with hc | hc
        · rcases List.mem_cons.1 hc with rfl | hc
          · exact ⟨by decide, by decide⟩
          · exact ihE xs hwl h1 c hc
        · rcases List.mem_singleton.1 hc with rfl
          exact ⟨by decide, by decide⟩
      | obj kvs =>
        have hwp : wfPairsB kvs = true := by rw [wfB] at hwf; exact hwf
        have h1 : jsizePairs kvs ≤ m := by rw [jsize] at hsz; omega
        rw [serialize] at hc
        rcases List.mem_append.1 hc with hc | hc
        · rcases List.mem_cons.1 hc with rfl | hc
          · exact ⟨by decide, by decide⟩
          · exact ihM kvs hwp h1 c hc
        · rcases List.mem_singleton.1 hc with rfl
          exact ⟨by decide, by decide⟩
    · intro xs hwl hsz c hc
      cases xs with
      | nil => rw [serializeList] at hc; cases hc
      | cons x xs' =>
        rw [wfListB, Bool.and_eq_true] at hwl
        have hx : jsize x ≤ m := by rw [jsizeList] at hsz; omega
        cases xs' with
        | nil =>
          rw [serializeList] at hc
          exact ihJ x hwl.1 hx c hc
        | cons y ys =>
          have hl : jsizeList (y :: ys) ≤ m := by rw [jsizeList] at hsz; omega
          rw [serializeList] at hc
          rcases List.mem_append.1 hc with hc | hc
          · exact ihJ x hwl.1 hx c hc
          · rcases List.mem_cons.1 hc with rfl | hc
            · exact ⟨by decide, by decide⟩
            · exact ihE (y :: ys) hwl.2 hl c hc
    · intro kvs hwp hsz c hc
      cases kvs with
      | nil => rw [serializePairs] at hc; cases hc
      | cons p kvs' =>
        obtain ⟨k, v⟩ := p
        rw [wfPairsB] at hwp
        simp only [Bool.and_eq_true] at hwp
        have hv : jsize v ≤ m := by rw [jsizePairs] at hsz; omega
        cases kvs' with
        | nil =>
          rw [serializePairs] at hc
          rcases List.mem_append.1 hc with hc | hc
          · exact dumpStr_ascii hwp.1.1 c hc
          · rcases List.mem_cons.1 hc with rfl | hc
            · exact ⟨by decide, by decide⟩
            · exact ihJ v hwp.1.2 hv c hc
        | cons q kvs'' =>
          have hl : jsizePairs (q :: kvs'') ≤ m := by rw [jsizePairs] at hsz; omega
          rw [serializePairs] at hc
          rcases List.mem_append.1 hc with hc | hc
          · rcases List.mem_append.1 hc with hc | hc
            · exact dumpStr_ascii hwp.1.1 c hc
            · rcases List.mem_cons.1 hc with rfl | hc
              · exact ⟨by decide, by decide⟩
              · exact ihJ v hwp.1.2 hv c hc
          · rcases List.mem_cons.1 hc with rfl | hc
            · exact ⟨by decide, by decide⟩
            · exact ihM (q :: kvs'') hwp.2 hl c hc

theorem serialize_ascii {v : Json} (hwf : wfB v = true) :
    ∀ c ∈ serialize v, c.toNat < 128 := by
  intro c hc
  exact ((serialize_ascii_all (jsize v)).1 v hwf le_rfl c hc).2

/-- `json.loads` inverts the compact serializer on round-trippable values. -/
theorem jsonParse_serialize {v : Json} (hwf : wfB v = true) :
    jsonParse (serialize v) = some v := by
  have h := (parse_serialize_all ((serialize v).length + 1)).1 v hwf
    (by have := jsize_le_length v; omega) [] trivial
  rw [List.append_nil] at h
  unfold jsonParse
  rw [h]

theorem mem_insertPair {q p : String × Json} {l : List (String × Json)} :
    q ∈ insertPair p l ↔ q = p ∨ q ∈ l := by
  induction l with
  | nil =>
    rw [insertPair]
    simp
  | cons r l ih =>
    rw [insertPair]
    by_cases h : strLt p.1 r.1
    · rw [if_pos h]
      simp
    · rw [if_neg h]
      rw [List.mem_cons, List.mem_cons, ih]
      tauto

theorem insertPair_perm (p : String × Json) (l : List (String × Json)) :
    List.Perm (insertPair p l) (p :: l) := by
  induction l with
  | nil => rw [insertPair]
  | cons r l ih =>
    rw [insertPair]
    by_cases h : strLt p.1 r.1
    · rw [if_pos h]
    · rw [if_neg h]
      exact List.Perm.trans (List.Perm.cons r ih) (List.Perm.swap p r l)

theorem sortPairs_perm (l : List (String × Json)) : List.Perm (sortPairs l) l := by
  induction l with
  | nil => rw [sortPairs]
  | cons p l ih =>
    rw [sortPairs]
    exact List.Perm.trans (insertPair_perm p (sortPairs l)) (List.Perm.cons p ih)

theorem dictGet_eq_of_perm {α : Type} {l l' : List (String × α)} (h : List.Perm l l')
    (hn : (dictKeys l).Nodup) (k : String) : dictGet k l = dictGet k l' := by
  have hn' : (dictKeys l').Nodup := (List.Perm.nodup_iff (List.Perm.map Prod.fst h)).1 hn
  cases hg : dictGet k l with
  | some v =>
    have hm : (k, v) ∈ l := dictGet_mem hg
    exact (dictGet_of_mem_nodup hn' ((List.Perm.mem_iff h).1 hm)).symm
  | none =>
    cases hg' : dictGet k l' with
    | none => rfl
    | some w =>
      have hm : (k, w) ∈ l := (List.Perm.mem_iff h).2 (dictGet_mem hg')
      rw [dictGet_of_mem_nodup hn hm] at hg
      cases hg

theorem dictKeys_sortObjsPairs (kvs : List (String × Json)) :
    dictKeys (sortObjsPairs kvs) = dictKeys kvs := by
  induction kvs with
  | nil => rfl
  | cons p kvs ih =>
    obtain ⟨k, v⟩ := p
    rw [sortObjsPairs]
    show k :: dictKeys (sortObjsPairs kvs) = k :: dictKeys kvs
    rw [ih]

theorem dictGet_sortObjsPairs (k : String) (kvs : List (String × Json)) :
    dictGet k (sortObjsPairs kvs) = (dictGet k kvs).map sortObjs := by
  induction kvs with
  | nil => rfl
  | cons p kvs ih =>
    obtain ⟨k', v⟩ := p
    rw [sortObjsPairs]
    by_cases h : k' = k
    · rw [dictGet, dictGet, if_pos (show ((k', sortObjs v).1 = k) from h),
        if_pos (show ((k', v).1 = k) from h)]
      rfl
    · rw [dictGet, dictGet, if_neg (show ¬((k', sortObjs v).1 = k) from h),
        if_neg (show ¬((k', v).1 = k) from h), ih]

theorem wfPairsB_eq_true_iff {l : List (String × Json)} :
    wfPairsB l = true ↔ ∀ p ∈ l, safeStrB p.1 = true ∧ wfB p.2 = true := by
  induction l with
  | nil =>
    rw [wfPairsB]
    simp
  | cons p l ih =>
    obtain ⟨k, v⟩ := p
    rw [wfPairsB]
    simp only [Bool.and_eq_true, ih, List.mem_cons]
    constructor
    · rintro ⟨⟨h1, h2⟩, h3⟩ q hq
      rcases hq with rfl | hq
      · exact ⟨h1, h2⟩
      · exact h3 q hq
    · intro h
      exact ⟨⟨(h (k, v) (Or.inl rfl)).1, (h (k, v) (Or.inl rfl)).2⟩,
        fun q hq => h q (Or.inr hq)⟩

theorem wfPairsB_sortPairs (l : List (String × Json)) :
    wfPairsB (sortPairs l) = wfPairsB l := by
  have h : wfPairsB (sortPairs l) = true ↔ wfPairsB l = true := by
    rw [wfPairsB_eq_true_iff, wfPairsB_eq_true_iff]
    constructor
    · intro h p hp
      exact h p ((List.Perm.mem_iff (sortPairs_perm l)).2 hp)
    · intro h p hp
      exact h p ((List.Perm.mem_iff (sortPairs_perm l)).1 hp)
  cases h1 : wfPairsB (sortPairs l) with
  | true => exact (h.1 h1).symm
  | false =>
    cases h2 : wfPairsB l with
    | true => rw [h1] at h; exact absurd (h.2 h2) (by simp)
    | false => rfl

/-- `sortObjs` preserves round-trippability. -/
theorem wfB_sortObjs_all : ∀ n : Nat,
    (∀ v, jsize v ≤ n → wfB (sortObjs v) = wfB v) ∧
    (∀ xs, jsizeList xs ≤ n → wfListB (sortObjsList xs) = wfListB xs) ∧
    (∀ kvs, jsizePairs kvs ≤ n → wfPairsB (sortObjsPairs kvs) = wfPairsB kvs) := by
  intro n
  induction n with
  | zero =>
    refine ⟨?_, ?_, ?_⟩
    · intro v hsz
      exact absurd hsz (by have := jsize_pos v; omega)
    · intro xs hsz
      exact absurd hsz (by have := jsizeList_pos xs; omega)
    · intro kvs hsz
      exact absurd hsz (by have := jsizePairs_pos kvs; omega)
  | succ m ih =>
    obtain ⟨ihJ, ihE, ihM⟩ := ih
    refine ⟨?_, ?_, ?_⟩
    · intro v hsz
      cases v with
      | null => rfl
      | bool b => rfl
      | num i => rfl
      | str s => rfl
      | arr xs =>
        rw [sortObjs]
        show wfListB (sortObjsList xs) = wfListB xs
        exact ihE xs (by rw [jsize] at hsz; omega)
      | obj kvs =>
        rw [sortObjs]
        show wfPairsB (sortPairs (sortObjsPairs kvs)) = wfPairsB kvs
        rw [wfPairsB_sortPairs, ihM kvs (by rw [jsize] at hsz; omega)]
    · intro xs hsz
      cases xs with
      | nil => rfl
      | cons x xs' =>
        rw [sortObjsList]
        show (wfB (sortObjs x) && wfListB (sortObjsList xs')) = (wfB x && wfListB xs')
        rw [ihJ x (by rw [jsizeList] at hsz; omega),
          ihE xs' (by rw [jsizeList] at hsz; have := jsizeList_pos xs'; omega)]
    · intro kvs hsz
      cases kvs with
      | nil => rfl
      | cons p kvs' =>
        obtain ⟨k, v⟩ := p
        rw [sortObjsPairs]
        show (safeStrB k && wfB (sortObjs v) && wfPairsB (sortObjsPairs kvs'))
          = (safeStrB k && wfB v && wfPairsB kvs')
        rw [ihJ v (by rw [jsizePairs] at hsz; omega),
          ihM kvs' (by rw [jsizePairs] at hsz; have := jsizePairs_pos kvs'; omega)]

theorem wfB_sortObjs {v : Json} (h : wfB v = true) : wfB (sortObjs v) = true := by
  rw [(wfB_sortObjs_all (jsize v)).1 v le_rfl]
  exact h

theorem pyInt_sortObjs (v : Json) : pyInt (sortObjs v) = pyInt v := by
  cases v <;> rfl

theorem dictGet_append {α : Type} (k : String) (m m2 : List (String × α)) :
    dictGet k (m ++ m2) =
      (match dictGet k m with
      | some v => some v
      | none => dictGet k m2) := by
  induction m with
  | nil => rfl
  | cons p m ih =>
    rw [List.cons_append, dictGet, dictGet]
    by_cases h : p.1 = k
    · rw [if_pos h, if_pos h]
    · rw [if_neg h, if_neg h, ih]

theorem dictGet_dictSetDefault_self {α : Type} (k : String) (v : α) (m : List (String × α)) :
    dictGet k (dictSetDefault k v m) = some ((dictGet k m).getD v) := by
  rw [dictSetDefault]
  cases hg : dictGet k m with
  | some w =>
    rw [if_pos (show (Option.isSome (some w)) = true from rfl), hg]
    rfl
  | none =>
    rw [if_neg (show ¬(Option.isSome (none : Option α)) = true from by simp),
      dictGet_append, hg]
    show dictGet k [(k, v)] = some v
    rw [dictGet, if_pos rfl]

theorem dictGet_dictSetDefault_ne {α : Type} {k k' : String} (h : k' ≠ k) (v : α)
    (m : List (String × α)) : dictGet k' (dictSetDefault k v m) = dictGet k' m := by
  rw [dictSetDefault]
  by_cases hg : (dictGet k m).isSome
  · rw [if_pos hg]
  · rw [if_neg hg, dictGet_append]
    cases hg' : dictGet k' m with
    | some w => rfl
    | none =>
      show dictGet k' [(k, v)] = none
      rw [dictGet, if_neg (show ¬((k, v).1 = k') from fun hh => h hh.symm)]
      rfl

theorem dictKeys_dictSetDefault {α : Type} (k : String) (v : α) (m : List (String × α)) :
    (dictKeys m).Nodup → (dictKeys (dictSetDefault k v m)).Nodup := by
  intro hn
  rw [dictSetDefault]
  by_cases hg : (dictGet k m).isSome
  · rw [if_pos hg]
    exact hn
  · rw [if_neg hg]
    have hk : k ∉ dictKeys m := by
      intro hm
      rw [← dictGet_isSome_iff] at hm
      exact hg hm
    rw [dictKeys, List.map_append]
    apply List.Nodup.append hn (by simp)
    intro a ha hb
    simp at hb
    subst hb
    exact hk ha

theorem splitOnChar_no_sep {sep : Char} {a : List Char} (h : ∀ c ∈ a, c ≠ sep) :
    splitOnChar sep a = [a] := by
  induction a with
  | nil => rfl
  | cons c a' ih =>
    rw [splitOnChar]
    show (if c = sep then [] :: splitOnChar sep a'
      else match splitOnChar sep a' with
        | [] => [[c]]
        | h :: t => (c :: h) :: t) = [c :: a']
    rw [if_neg (h c (List.mem_cons_self _ _)), ih (fun d hd => h d (List.mem_cons_of_mem _ hd))]

theorem splitOnChar_sep_append {sep : Char} {a : List Char} (h : ∀ c ∈ a, c ≠ sep)
    (b : List Char) : splitOnChar sep (a ++ sep :: b) = a :: splitOnChar sep b := by
  induction a with
  | nil =>
    rw [List.nil_append, splitOnChar]
    show (if sep = sep then [] :: splitOnChar sep b
      else match splitOnChar sep b with
        | [] => [[sep]]
        | h :: t => (sep :: h) :: t) = [] :: splitOnChar sep b
    rw [if_pos rfl]
  | cons c a' ih =>
    rw [List.cons_append, splitOnChar]
    show (if c = sep then [] :: splitOnChar sep (a' ++ sep :: b)
      else match splitOnChar sep (a' ++ sep :: b) with
        | [] => [[c]]
        | h :: t => (c :: h) :: t) = (c :: a') :: splitOnChar sep b
    rw [if_neg (h c (List.mem_cons_self _ _)), ih (fun d hd => h d (List.mem_cons_of_mem _ hd))]

theorem splitOnChar_three {a b c : List Char} (ha : ∀ x ∈ a, x ≠ '.')
    (hb : ∀ x ∈ b, x ≠ '.') (hc : ∀ x ∈ c, x ≠ '.') :
    splitOnChar '.' (a ++ '.' :: (b ++ '.' :: c)) = [a, b, c] := by
  rw [splitOnChar_sep_append ha, splitOnChar_sep_append hb, splitOnChar_no_sep hc]

/-- The issued token is the three segments joined by dots. -/
theorem issue_eq (sign : List Char → List Nat) (now : Int)
    (payload : List (String × Json)) (ttl : Int) :
    issue_session_token sign now payload ttl
      = headerSegment ++ '.' :: (payloadSegment now payload ttl
          ++ '.' :: b64encode (sign (headerSegment ++ '.' :: payloadSegment now payload ttl))) := by
  show (headerSegment ++ '.' :: payloadSegment now payload ttl)
      ++ '.' :: b64encode (sign (headerSegment ++ '.' :: payloadSegment now payload ttl)) = _
  rw [List.append_assoc, List.cons_append]

theorem headerSegment_no_dot : ∀ c ∈ headerSegment, c ≠ '.' := by decide

theorem segJson_headerSegment :
    segJson headerSegment = some (Json.obj [("alg", Json.str "HS256"), ("typ", Json.str "JWT")]) :=
  rfl

theorem wfPairsB_token_payload {payload : List (String × Json)}
    (hwfp : wfPairsB payload = true) (now ttl : Int) :
    wfPairsB (token_payload_of now payload ttl) = true := by
  rw [wfPairsB_eq_true_iff]
  intro p hp
  rcases mem_dictSet hp with rfl | hp
  · exact ⟨show safeStrB "exp" = true from by decide, show wfB (Json.num (now + ttl)) = true
      from by rw [wfB]⟩
  · rw [dictSetDefault] at hp
    by_cases hg : (dictGet "iat" payload).isSome = true
    · rw [if_pos hg] at hp
      exact (wfPairsB_eq_true_iff.1 hwfp) p hp
    · rw [if_neg hg] at hp
      rcases List.mem_append.1 hp with hp | hp
      · exact (wfPairsB_eq_true_iff.1 hwfp) p hp
      · rcases List.mem_singleton.1 hp with rfl
        exact ⟨show safeStrB "iat" = true from by decide, show wfB (Json.num now) = true
          from by rw [wfB]⟩

theorem token_payload_keys_nodup {payload : List (String × Json)}
    (hkeys : (dictKeys payload).Nodup) (now ttl : Int) :
    (dictKeys (token_payload_of now payload ttl)).Nodup :=
  dictKeys_nodup_dictSet "exp" _ (dictKeys_dictSetDefault "iat" _ payload hkeys)

theorem serialize_payload_ascii {payload : List (String × Json)}
    (hwfp : wfPairsB payload = true) (now ttl : Int) :
    ∀ c ∈ jsonDumps (Json.obj (token_payload_of now payload ttl)), c.toNat < 128 := by
  have hwf : wfB (Json.obj (token_payload_of now payload ttl)) = true := by
    rw [wfB]
    exact wfPairsB_token_payload hwfp now ttl
  exact serialize_ascii (wfB_sortObjs hwf)

theorem payloadSegment_no_dot {payload : List (String × Json)}
    (hwfp : wfPairsB payload = true) (now ttl : Int) :
    ∀ c ∈ payloadSegment now payload ttl, c ≠ '.' :=
  b64encode_no_dot (utf8Encode_ascii_bytes (serialize_payload_ascii hwfp now ttl))

theorem segJson_payloadSegment {payload : List (String × Json)}
    (hwfp : wfPairsB payload = true) (now ttl : Int) :
    segJson (payloadSegment now payload ttl)
      = some (Json.obj (sortPairs (sortObjsPairs (token_payload_of now payload ttl)))) := by
  have hwf : wfB (Json.obj (token_payload_of now payload ttl)) = true := by
    rw [wfB]
    exact wfPairsB_token_payload hwfp now ttl
  rw [payloadSegment, segJson,
    b64_roundtrip (utf8Encode_ascii_bytes (serialize_payload_ascii hwfp now ttl))]
  show jsonLoadsBytes (utf8Encode (jsonDumps (Json.obj (token_payload_of now payload ttl))))
    = _
  rw [jsonLoadsBytes, utf8_roundtrip_ascii (serialize_payload_ascii hwfp now ttl)]
  show jsonParse (jsonDumps (Json.obj (token_payload_of now payload ttl))) = _
  rw [jsonDumps, jsonParse_serialize (wfB_sortObjs hwf), sortObjs]

theorem sorted_payload_get (k : String) {payload : List (String × Json)}
    (hkeys : (dictKeys payload).Nodup) (now ttl : Int) :
    dictGet k (sortPairs (sortObjsPairs (token_payload_of now payload ttl)))
      = (dictGet k (token_payload_of now payload ttl)).map sortObjs := by
  have hn : (dictKeys (sortObjsPairs (token_payload_of now payload ttl))).Nodup := by
    rw [dictKeys_sortObjsPairs]
    exact token_payload_keys_nodup hkeys now ttl
  have hperm := sortPairs_perm (sortObjsPairs (token_payload_of now payload ttl))
  have hn' : (dictKeys (sortPairs (sortObjsPairs (token_payload_of now payload ttl)))).Nodup :=
    (List.Perm.nodup_iff (List.Perm.map Prod.fst hperm)).2 hn
  rw [dictGet_eq_of_perm hperm hn' k, dictGet_sortObjsPairs]

theorem sorted_payload_get_exp {payload : List (String × Json)}
    (hkeys : (dictKeys payload).Nodup) (now ttl : Int) :
    dictGet "exp" (sortPairs (sortObjsPairs (token_payload_of now payload ttl)))
      = some (Json.num (now + ttl)) := by
  rw [sorted_payload_get "exp" hkeys now ttl, token_payload_of, dictGet_dictSet_self]
  rfl

theorem sorted_payload_get_iat {payload : List (String × Json)}
    (hkeys : (dictKeys payload).Nodup) (now ttl : Int) :
    dictGet "iat" (sortPairs (sortObjsPairs (token_payload_of now payload ttl)))
      = some (sortObjs ((dictGet "iat" payload).getD (Json.num now))) := by
  rw [sorted_payload_get "iat" hkeys now ttl, token_payload_of,
    dictGet_dictSet_ne (by decide) _ _, dictGet_dictSetDefault_self]
  rfl

theorem sorted_payload_get_other {k : String} (hexp : k ≠ "exp") (hiat : k ≠ "iat")
    {payload : List (String × Json)} (hkeys : (dictKeys payload).Nodup) (now ttl : Int) :
    dictGet k (sortPairs (sortObjsPairs (token_payload_of now payload ttl)))
      = (dictGet k payload).map sortObjs := by
  rw [sorted_payload_get k hkeys now ttl, token_payload_of,
    dictGet_dictSet_ne hexp _ _, dictGet_dictSetDefault_ne hiat _ _]

/-- Decoding an issued token reaches `decode_parts` on its three segments. -/
theorem decode_of_issue_parts (sign : List Char → List Nat) (now ttl leeway now2 : Int)
    {payload : List (String × Json)} (hwfp : wfPairsB payload = true)
    (hsign : ∀ b ∈ sign (headerSegment ++ '.' :: payloadSegment now payload ttl), b < 256) :
    decode_session_token sign now2 leeway (issue_session_token sign now payload ttl)
      = decode_parts sign now2 leeway headerSegment (payloadSegment now payload ttl)
          (b64encode (sign (headerSegment ++ '.' :: payloadSegment now payload ttl))) := by
  rw [issue_eq, decode_session_token]
  rw [if_neg (show ¬(headerSegment ++ '.' :: (payloadSegment now payload ttl
      ++ '.' :: b64encode (sign (headerSegment ++ '.' :: payloadSegment now payload ttl))) = [])
    from by
      cases hh : headerSegment with
      | nil => exact absurd hh (by decide)
      | cons c t => simp)]
  rw [splitOnChar_three headerSegment_no_dot (payloadSegment_no_dot hwfp now ttl)
    (b64encode_no_dot hsign)]

/-- Decoding an issued token at clock `now2`: expired when past
`exp + leeway`, otherwise ok (or an `int(iat)` crash), with the sorted
serialized payload recovered. -/
theorem decode_of_issue_eq (sign : List Char → List Nat) (now ttl leeway now2 : Int)
    {payload : List (String × Json)} (hwfp : wfPairsB payload = true)
    (hkeys : (dictKeys payload).Nodup)
    (hsign : ∀ b ∈ sign (headerSegment ++ '.' :: payloadSegment now payload ttl), b < 256) :
    decode_session_token sign now2 leeway (issue_session_token sign now payload ttl)
      = (if now2 > now + ttl + leeway then DecodeResult.expired
        else
          match pyInt ((dictGet "iat"
              (sortPairs (sortObjsPairs (token_payload_of now payload ttl)))).getD
              (Json.num now2)) with
          | none => DecodeResult.crash
          | some iatn =>
            DecodeResult.ok ⟨sortPairs (sortObjsPairs (token_payload_of now payload ttl)),
              iatn, now + ttl⟩) := by
  rw [decode_of_issue_parts sign now ttl leeway now2 hwfp hsign]
  unfold decode_parts
  rw [segJson_headerSegment]
  dsimp only
  rw [if_neg (by decide :
    ¬¬(headerSupportedB [("alg", Json.str "HS256"), ("typ", Json.str "JWT")] = true))]
  rw [segJson_payloadSegment hwfp now ttl]
  dsimp only
  rw [b64_roundtrip hsign]
  dsimp only
  rw [if_neg (show ¬(sign (headerSegment ++ '.' :: payloadSegment now payload ttl)
      ≠ sign (headerSegment ++ '.' :: payloadSegment now payload ttl)) from fun h => h rfl)]
  rw [sorted_payload_get_exp hkeys now ttl]
  rfl

/-- C5: for a claim set with distinct, printable-ASCII keys and
round-trippable values whose `iat` claim (if supplied) is convertible by
`int()`, and any `ttl ≥ 0` and `leeway ≥ 0`, decoding an issued token at
the issue clock succeeds: `exp` comes back as issue time plus ttl, a
missing `iat` comes back as the issue time, a supplied convertible `iat`
becomes `issued_at`, and every other claim is recovered up to `sortObjs`
(the key-reordering `json.dumps(sort_keys=True)` applies to nested
objects, which Python dict equality ignores). -/
theorem C5_issue_decode_roundtrip (sign : List Char → List Nat) (now ttl leeway : Int)
    (payload : List (String × Json))
    (hsign : ∀ s, ∀ b ∈ sign s, b < 256)
    (hwfp : wfPairsB payload = true)
    (hkeys : (dictKeys payload).Nodup)
    (httl : 0 ≤ ttl) (hleeway : 0 ≤ leeway)
    (hiat : ∀ v, dictGet "iat" payload = some v → (pyInt v).isSome = true) :
    ∃ d, decode_session_token sign now leeway (issue_session_token sign now payload ttl)
        = DecodeResult.ok d
      ∧ d.expires_at = now + ttl
      ∧ dictGet "exp" d.payload = some (Json.num (now + ttl))
      ∧ (∀ k, k ≠ "exp" → k ≠ "iat" → dictGet k d.payload = (dictGet k payload).map sortObjs)
      ∧ (dictGet "iat" payload = none →
          d.issued_at = now ∧ dictGet "iat" d.payload = some (Json.num now))
      ∧ (∀ v n, dictGet "iat" payload = some v → pyInt v = some n → d.issued_at = n) := by
  have hdec := decode_of_issue_eq sign now ttl leeway now hwfp hkeys (hsign _)
  rw [if_neg (show ¬(now > now + ttl + leeway) from by omega)] at hdec
  have hpk := sorted_payload_get_iat hkeys now ttl
  cases hg : dictGet "iat" payload with
  | none =>
    rw [hg] at hpk
    refine ⟨⟨sortPairs (sortObjsPairs (token_payload_of now payload ttl)), now, now + ttl⟩,
      ?_, rfl, sorted_payload_get_exp hkeys now ttl, ?_, ?_, ?_⟩
    · rw [hdec, hpk]
      rfl
    · intro k hk1 hk2
      exact sorted_payload_get_other hk1 hk2 hkeys now ttl
    · intro _
      refine ⟨rfl, ?_⟩
      rw [hpk]
      rfl
    · intro v n hv _
      cases hv
  | some v =>
    obtain ⟨n, hn⟩ := Option.isSome_iff_exists.1 (hiat v hg)
    rw [hg] at hpk
    refine ⟨⟨sortPairs (sortObjsPairs (token_payload_of now payload ttl)), n, now + ttl⟩,
      ?_, rfl, sorted_payload_get_exp hkeys now ttl, ?_, ?_, ?_⟩
    · rw [hdec, hpk]
      show (match pyInt (sortObjs v) with
        | none => DecodeResult.crash
        | some iatn =>
          DecodeResult.ok ⟨sortPairs (sortObjsPairs (token_payload_of now payload ttl)),
            iatn, now + ttl⟩) = _
      rw [pyInt_sortObjs, hn]
    · intro k hk1 hk2
      exact sorted_payload_get_other hk1 hk2 hkeys now ttl
    · intro hnone
      cases hnone
    · intro v' n' hv' hn'
      injection hv' with hvv
      subst hvv
      rw [hn] at hn'
      injection hn'

/-- A claim set whose `iat` value is not `int()`-convertible issues fine
but crashes the decoder with `TypeError`, refuting the unconditional
round-trip. -/
theorem C5_counterexample :
    decode_session_token sgDemo 0 0 (issue_session_token sgDemo 0 [("iat", Json.arr [])] 0)
      = DecodeResult.crash := by
  rfl

theorem C5_witness :
    ∃ d, decode_session_token sgDemo 0 0 (issue_session_token sgDemo 0 [("sub", Json.str "u1")] 60)
        = DecodeResult.ok d
      ∧ d.expires_at = 0 + 60
      ∧ dictGet "exp" d.payload = some (Json.num (0 + 60))
      ∧ (∀ k, k ≠ "exp" → k ≠ "iat" →
          dictGet k d.payload = (dictGet k [("sub", Json.str "u1")]).map sortObjs)
      ∧ (dictGet "iat" [("sub", Json.str "u1")] = none →
          d.issued_at = 0 ∧ dictGet "iat" d.payload = some (Json.num 0))
      ∧ (∀ v n, dictGet "iat" [("sub", Json.str "u1")] = some v → pyInt v = some n →
          d.issued_at = n) :=
  C5_issue_decode_roundtrip sgDemo 0 60 0 [("sub", Json.str "u1")]
    (fun s b hb => by
      rw [show sgDemo s = [1, 2, 3] from rfl] at hb
      rcases List.mem_cons.1 hb with rfl | hb
      · omega
      rcases List.mem_cons.1 hb with rfl | hb
      · omega
      rcases List.mem_singleton.1 hb with rfl
      omega)
    (by decide) (by decide) (by decide) (by decide)
    (fun v hv => by
      rw [show dictGet "iat" [("sub", Json.str "u1")] = (none : Option Json) from rfl] at hv
      cases hv)

end PPDJ
